import Mathlib

/-! # LazyLog basic client: history recorder, serializer and worker derivation

A shallow embedding of `src/client/basic_client.cc`.

* The globals `global_history` and `max_write_idx`, both guarded by `history_mtx`, become one
  `RecorderState` value that is passed through each recorder operation.  Every operation takes
  the lock for its whole body, so an execution is a sequence of whole operations.
* `uint64_t` values are natural numbers, `int` and `int64_t` values are integers.  Conversions
  between signed and unsigned types are written out (`toUInt64`).  Signed counters are not
  wrapped: `max_write_idx` counts records held in memory and the loop index of the serializer
  counts elements of a vector, so neither can leave its type's range.
* `std::string` is `String`; the output file is the string written to the stream.
* The `float` arithmetic of `main` is embedded exactly, on fractions, with each result rounded
  to the nearest value of its format (section "The worker counts derived in `main`").
-/

namespace LazyLog

/-! ## Data model -/

/-- The enumeration `EventType`. -/
inductive EventType where
  | INVOKE
  | RESPONSE
  deriving DecidableEq, Repr

/-- The enumeration `OpType`. -/
inductive OpType where
  | OP_WRITE
  | OP_READ
  deriving DecidableEq, Repr

/-- The struct `HistoryRecord`; `seq_nums` defaults to the empty vector. -/
structure HistoryRecord where
  req_id : Nat
  thread_id : Int
  event_type : EventType
  op_type : OpType
  value : String
  idx : Int
  seq_nums : List Nat := []
  deriving DecidableEq, Repr

/-- The shared state guarded by `history_mtx`: `global_history` and `max_write_idx`. -/
structure RecorderState where
  global_history : List HistoryRecord
  max_write_idx : Int
  deriving DecidableEq, Repr

/-- The state at process start: an empty history and `max_write_idx = -1`. -/
def RecorderState.init : RecorderState :=
  { global_history := [], max_write_idx := -1 }

/-- Conversion of a signed 64-bit value to `uint64_t`: reduction modulo `2^64`. -/
def toUInt64 (i : Int) : Nat :=
  (i % 2 ^ 64).toNat

/-! ## Recorder operations -/

/-- The function `RecordWriteInvoke`: push an Invoke/Write record with `idx = -1`, then
`max_write_idx++`. -/
def RecordWriteInvoke (s : RecorderState) (req : Nat) (thread_id : Int) (payload : String) :
    RecorderState :=
  { global_history :=
      s.global_history ++ [{ req_id := req, thread_id := thread_id, event_type := .INVOKE,
                             op_type := .OP_WRITE, value := payload, idx := -1 }],
    max_write_idx := s.max_write_idx + 1 }

/-- The function `RecordWriteResponse`: push a Response/Write record with an empty value. -/
def RecordWriteResponse (s : RecorderState) (req : Nat) (thread_id : Int) (idx : Int)
    (seq_nums : List Nat) : RecorderState :=
  { s with
    global_history :=
      s.global_history ++ [{ req_id := req, thread_id := thread_id, event_type := .RESPONSE,
                             op_type := .OP_WRITE, value := "", idx := idx,
                             seq_nums := seq_nums }] }

/-- The function `RecordReadInvoke`: push an Invoke/Read record with an empty value and
`idx = -1`, and return `max_write_idx` converted to the return type `uint64_t`. -/
def RecordReadInvoke (s : RecorderState) (req : Nat) (thread_id : Int) : RecorderState × Nat :=
  ({ s with
     global_history :=
       s.global_history ++ [{ req_id := req, thread_id := thread_id, event_type := .INVOKE,
                              op_type := .OP_READ, value := "", idx := -1 }] },
   toUInt64 s.max_write_idx)

/-- The function `RecordReadResponse`: push a Response/Read record. -/
def RecordReadResponse (s : RecorderState) (req : Nat) (thread_id : Int) (data : String)
    (idx : Int) : RecorderState :=
  { s with
    global_history :=
      s.global_history ++ [{ req_id := req, thread_id := thread_id, event_type := .RESPONSE,
                             op_type := .OP_READ, value := data, idx := idx }] }

/-- One call of a recorder operation together with its arguments. -/
inductive RecorderOp where
  | writeInvoke (req : Nat) (thread_id : Int) (payload : String)
  | writeResponse (req : Nat) (thread_id : Int) (idx : Int) (seq_nums : List Nat)
  | readInvoke (req : Nat) (thread_id : Int)
  | readResponse (req : Nat) (thread_id : Int) (data : String) (idx : Int)
  deriving DecidableEq, Repr

/-- The state after one recorder call (the value returned by `RecordReadInvoke` is dropped). -/
def RecorderOp.apply (s : RecorderState) : RecorderOp → RecorderState
  | .writeInvoke req t payload => RecordWriteInvoke s req t payload
  | .writeResponse req t idx seq_nums => RecordWriteResponse s req t idx seq_nums
  | .readInvoke req t => (RecordReadInvoke s req t).1
  | .readResponse req t data idx => RecordReadResponse s req t data idx

/-- The state after a sequence of recorder calls, executed from left to right. -/
def runOps (s : RecorderState) (ops : List RecorderOp) : RecorderState :=
  ops.foldl RecorderOp.apply s

/-- Whether a recorder call is a `RecordWriteInvoke`. -/
def RecorderOp.isWriteInvoke : RecorderOp → Bool
  | .writeInvoke _ _ _ => true
  | _ => false

/-- The number of `RecordWriteInvoke` calls in a sequence of recorder calls. -/
def countWriteInvokes (ops : List RecorderOp) : Nat :=
  ops.countP RecorderOp.isWriteInvoke

/-! ## Serializer -/

/-- Stream insertion of an unsigned integer: its decimal digits. -/
def showUInt (n : Nat) : String :=
  Nat.repr n

/-- Stream insertion of a signed integer: a minus sign for negative values, then the decimal
digits of the magnitude. -/
def showInt : Int → String
  | .ofNat m => Nat.repr m
  | .negSucc m => "-" ++ Nat.repr (m + 1)

/-- The inner loop of `DumpGlobalHistory` over `rec.seq_nums`, run on the stream contents `f`:
`for (i = 0; i < size; i++) { f << seq_nums[i]; if (i < size - 1) f << ','; }`.
The test `i < size - 1` is only reached with `i < size`, where `size - 1` does not wrap. -/
def writeSeqNums (f : String) (seq_nums : List Nat) : String :=
  (List.range seq_nums.length).foldl
    (fun f i =>
      let f := f ++ showUInt (seq_nums.getD i 0)
      if i < seq_nums.length - 1 then f.push ',' else f)
    f

/-- The body of the outer loop of `DumpGlobalHistory`: the text appended to the stream `f` for
one record, chosen by the chain of tests on `event_type` and `op_type`. -/
def writeRecord (f : String) (rec : HistoryRecord) : String :=
  if rec.event_type = .INVOKE ∧ rec.op_type = .OP_WRITE then
    f ++ "inv write id=" ++ showUInt rec.req_id
      ++ " client=" ++ showInt rec.thread_id
      ++ " val=" ++ rec.value ++ "\n"
  else if rec.event_type = .RESPONSE ∧ rec.op_type = .OP_WRITE then
    let f := f ++ "res write id=" ++ showUInt rec.req_id
      ++ " client=" ++ showInt rec.thread_id
      ++ " idx=" ++ showInt rec.idx
      ++ " seq=["
    let f := writeSeqNums f rec.seq_nums
    (f.push ']').push '\n'
  else if rec.event_type = .INVOKE ∧ rec.op_type = .OP_READ then
    f ++ "inv read id=" ++ showUInt rec.req_id
      ++ " client=" ++ showInt rec.thread_id ++ "\n"
  else
    f ++ "res read id=" ++ showUInt rec.req_id
      ++ " client=" ++ showInt rec.thread_id
      ++ " idx=" ++ showInt rec.idx
      ++ " val=" ++ rec.value ++ "\n"

/-- The function `DumpGlobalHistory`.  `opened` tells whether the output file could be opened;
when it could not, nothing is written.  The result is the recorder state afterwards and the
contents written to the file. -/
def DumpGlobalHistory (opened : Bool) (s : RecorderState) : RecorderState × Option String :=
  if ¬ opened then (s, none)
  else (s, some (s.global_history.foldl writeRecord ""))

/-! ## The output grammar of the specification

The second definitions below follow the grammar that the specification gives for the output
file; the theorems compare them with `DumpGlobalHistory`. -/

/-- The `seq=` field as the specification's grammar writes it, `seq=[<n0>,<n1>,...]`: the
decimal numbers in order, separated by single commas, between brackets. -/
def grammarSeqField (seq_nums : List Nat) : String :=
  "seq=[" ++ String.intercalate "," (seq_nums.map showUInt) ++ "]"

/-- The line (without its newline) that the specification's grammar gives for a record, by
phase and kind. -/
def grammarLine (rec : HistoryRecord) : String :=
  match rec.event_type, rec.op_type with
  | .INVOKE, .OP_WRITE =>
    "inv write id=" ++ showUInt rec.req_id ++ " client=" ++ showInt rec.thread_id
      ++ " val=" ++ rec.value
  | .RESPONSE, .OP_WRITE =>
    "res write id=" ++ showUInt rec.req_id ++ " client=" ++ showInt rec.thread_id
      ++ " idx=" ++ showInt rec.idx ++ " " ++ grammarSeqField rec.seq_nums
  | .INVOKE, .OP_READ =>
    "inv read id=" ++ showUInt rec.req_id ++ " client=" ++ showInt rec.thread_id
  | .RESPONSE, .OP_READ =>
    "res read id=" ++ showUInt rec.req_id ++ " client=" ++ showInt rec.thread_id
      ++ " idx=" ++ showInt rec.idx ++ " val=" ++ rec.value

/-- The output file of the specification: one newline-terminated grammar line per record, in
the order of the history. -/
def grammarText (h : List HistoryRecord) : String :=
  String.join (h.map fun rec => grammarLine rec ++ "\n")

/-! ## The worker counts derived in `main`

`main` reads `int total_threads` and `float write_ratio` (a `double`, from `std::stod` or the
literal `0.8`, narrowed to `float`) and computes
`static_cast<int>(total_threads * write_ratio)`, a single-precision product.

The arithmetic is embedded exactly.  A finite floating-point value is a fraction; a conversion
or an operation yields the value of its format nearest to the exact result, ties going to the
even significand (IEEE 754 round-to-nearest-even, each operation rounded to its own format).
A result that is not finite, or a conversion to `int` whose value is out of range, has no
defined outcome and is `none`.  The exception of `std::stod` on a text whose value overflows or
underflows is part of the embedding. -/

/-- A rational value `num / den`, used with `0 < den`. -/
structure Fraction where
  num : Int
  den : Nat
  deriving DecidableEq, Repr

/-- The rational number that a fraction stands for. -/
def Fraction.toRat (v : Fraction) : ℚ :=
  (v.num : ℚ) / (v.den : ℚ)

/-- Floor of the binary logarithm of a positive natural number (`0` for `0` and `1`). -/
def natLog2 (n : Nat) : Nat :=
  go n n
where
  /-- Halve `n` until it is below `2`, at most `fuel` times, counting the halvings. -/
  go : Nat → Nat → Nat
    | 0, _ => 0
    | fuel + 1, n => if n < 2 then 0 else go fuel (n / 2) + 1

/-- Floor of the binary logarithm of the positive fraction `a / b`: with `d` the difference of
the logarithms of `a` and `b`, it is `d` when `2^d ≤ a / b` and `d - 1` otherwise. -/
def fracLog2 (a b : Nat) : Int :=
  let d : Int := (natLog2 a : Int) - (natLog2 b : Int)
  if b * 2 ^ d.toNat ≤ a * 2 ^ (-d).toNat then d else d - 1

/-- The integer nearest to `a / b`, a tie going to the even one. -/
def divRoundHalfEven (a b : Nat) : Nat :=
  let q := a / b
  let r := a % b
  if 2 * r < b then q
  else if b < 2 * r then q + 1
  else if q % 2 = 0 then q else q + 1

/-- A binary floating-point format: significand precision in bits and the exponent range of
normal numbers. -/
structure FloatFormat where
  prec : Nat
  emin : Int
  emax : Int
  deriving DecidableEq, Repr

/-- The format of `float`. -/
def binary32 : FloatFormat := { prec := 24, emin := -126, emax := 127 }

/-- The format of `double`. -/
def binary64 : FloatFormat := { prec := 53, emin := -1022, emax := 1023 }

/-- Exponent of the unit in the last place used to round the positive fraction `a / b`: the
exponent of `a / b`, raised to `emin` for subnormal values, less `prec - 1`. -/
def FloatFormat.ulpExp (fmt : FloatFormat) (a b : Nat) : Int :=
  max (fracLog2 a b) fmt.emin - ((fmt.prec : Int) - 1)

/-- The magnitude `a / b` rounded to the nearest multiple of its unit in the last place `2^x`,
ties to even, as numerator and denominator: `n * 2^x` with `n` the integer nearest to
`(a / b) / 2^x`. -/
def FloatFormat.roundMag (fmt : FloatFormat) (a b : Nat) : Nat × Nat :=
  if a = 0 then (0, 1)
  else
    let x := fmt.ulpExp a b
    (divRoundHalfEven (a * 2 ^ (-x).toNat) (b * 2 ^ x.toNat) * 2 ^ x.toNat, 2 ^ (-x).toNat)

/-- The fraction `num / den` rounded to the format; `none` when the rounded magnitude reaches
`2^(emax + 1)`, where the result is an infinity. -/
def FloatFormat.round (fmt : FloatFormat) (num : Int) (den : Nat) : Option Fraction :=
  let m := fmt.roundMag num.natAbs den
  if 2 ^ (fmt.emax + 1).toNat * m.2 ≤ m.1 then none
  else some { num := num.sign * m.1, den := m.2 }

/-- The outcome of `std::stod`: a `double`, or the exception `std::out_of_range`. -/
inductive StodResult where
  | outOfRange
  | value (d : Fraction)
  deriving DecidableEq, Repr

/-- The call `std::stod` on the text of the ratio, whose value is `ratio_num / ratio_den`.
`strtod` yields the nearest `double` and sets `ERANGE`, on which `std::stod` throws
`std::out_of_range`, when the result overflows, and when it underflows: when the value, rounded
to 53 bits, is below the smallest normal number `2^(-1022)`, that is below
`2^(-1022) - 2^(-1076)`, and is not a `double` itself. -/
def stod (ratio_num : Int) (ratio_den : Nat) : StodResult :=
  match binary64.round ratio_num ratio_den with
  | none => .outOfRange
  | some d =>
    if ratio_num.natAbs * 2 ^ 1076 < (2 ^ 54 - 1) * ratio_den
        ∧ d.num.natAbs * ratio_den ≠ ratio_num.natAbs * d.den then .outOfRange
    else .value d

/-- The variable `write_ratio` for the configured ratio `ratio_num / ratio_den`: the `double`
that `std::stod` returns (or the literal `0.8`), narrowed to `float`.  It is `none` when
`std::stod` throws and when the `double` is outside the range of `float`. -/
def writeRatio (ratio_num : Int) (ratio_den : Nat) : Option Fraction :=
  match stod ratio_num ratio_den with
  | .outOfRange => none
  | .value d => binary32.round d.num d.den

/-- The expression `total_threads * write_ratio`: `total_threads` is converted to `float` and the
product is rounded to `float`. -/
def floatProduct (total_threads : Int) (write_ratio : Fraction) : Option Fraction :=
  match binary32.round total_threads 1 with
  | none => none
  | some t => binary32.round (t.num * write_ratio.num) (t.den * write_ratio.den)

/-- The conversion `static_cast<int>` of a finite `float`: the fractional part is discarded;
`none` when the result is not an `int`. -/
def truncToInt (v : Fraction) : Option Int :=
  let n : Int := v.num.sign * ((v.num.natAbs / v.den : Nat) : Int)
  if n < -2 ^ 31 ∨ 2 ^ 31 ≤ n then none else some n

/-- The derivation of `(num_writers, num_readers)` in `main` from `total_threads` and the
configured ratio `ratio_num / ratio_den`; `none` when `std::stod` throws and where a conversion
has no defined result. -/
def deriveWorkers (total_threads : Int) (ratio_num : Int) (ratio_den : Nat) :
    Option (Int × Int) :=
  match writeRatio ratio_num ratio_den with
  | none => none
  | some write_ratio =>
    match floatProduct total_threads write_ratio with
    | none => none
    | some product =>
      match truncToInt product with
      | none => none
      | some n =>
        let num_writers : Int :=
          if 0 < write_ratio.num ∧ n = 0 ∧ 0 < total_threads then 1 else n
        let num_readers : Int := total_threads - num_writers
        if num_readers < -2 ^ 31 ∨ 2 ^ 31 ≤ num_readers then none
        else some (num_writers, num_readers)

/-! ## Concrete recorder states used in the examples -/

/-- The state after a single `RecordWriteInvoke` on the initial state. -/
def stateAfterOneWrite : RecorderState :=
  RecordWriteInvoke RecorderState.init 0 0 "00_00000"

/-- A history holding one record of each of the four shapes and two more write responses. -/
def sampleState : RecorderState :=
  runOps RecorderState.init
    [.writeInvoke 0 0 "00_00000", .writeResponse 0 0 0 [5, 6, 7], .readInvoke 1 4,
     .readResponse 1 4 "00_00000" 0, .writeResponse 2 (-3) 0 [], .writeResponse 2 (-3) (-7) [9]]

/-! ## Request identifiers and writer payloads -/

/-- The call `global_req_id.fetch_add(1)` on the atomic `uint64_t` counter: the value returned
(the counter before the call) and the counter afterwards, which wraps modulo `2^64`. -/
def fetchAdd (global_req_id : Nat) : Nat × Nat :=
  (global_req_id, (global_req_id + 1) % 2 ^ 64)

/-- The values returned by `n` successive calls of `fetch_add(1)` on a counter holding `c`. -/
def fetchAddMany : Nat → Nat → List Nat
  | 0, _ => []
  | n + 1, c => (fetchAdd c).1 :: fetchAddMany n (fetchAdd c).2

/-- Stream insertion of `text` with `std::setw(width)` and `std::setfill(fill)` in effect and
the default right adjustment: fill characters come first, up to the width. -/
def insertPadded (width : Nat) (fill : Char) (text : String) : String :=
  String.mk (List.replicate (width - text.length) fill) ++ text

/-- The payload built in `WriterThread` for loop index `i`:
`setw(2) setfill('0') thread_id`, then `'_'`, then `setw(5) setfill('0') i`. -/
def writerPayload (thread_id : Int) (i : Int) : String :=
  insertPadded 2 '0' (showInt thread_id) ++ "_" ++ insertPadded 5 '0' (showInt i)

/-- The number that a string of decimal digits denotes, leading zeros allowed. -/
def parseDecimal (cs : List Char) : Nat :=
  cs.foldl (fun acc c => 10 * acc + (c.toNat - 48)) 0

/-! ## The workload tasks

`WriterThread` and `ReaderThread` run concurrently.  Each loop iteration is four steps: the
atomic `fetch_add`, the recorder call for the invoke (under `history_mtx`), the call of the log
client, whose reply is not determined by this program, and the recorder call for the response.
A run is a sequence of such steps, each taken by one task. -/

/-- The thread function a task runs. -/
inductive TaskKind where
  | writer
  | reader
  deriving DecidableEq, Repr

/-- The operation kind of the records a task writes. -/
def TaskKind.opType : TaskKind → OpType
  | .writer => .OP_WRITE
  | .reader => .OP_READ

/-- The position of a task in the body of its loop. -/
inductive TaskPhase where
  /-- At the loop test `i < num_ops`. -/
  | loopTest
  /-- After `fetch_add` returned `req`, before the invoke is recorded. -/
  | allocated (req : Nat)
  /-- After the invoke is recorded, while the client call is outstanding. -/
  | invoked (req : Nat)
  /-- After the client call returned (for a writer, with `seq_nums`), before the response is
  recorded. -/
  | returned (req : Nat) (seq_nums : List Nat)
  deriving DecidableEq, Repr

/-- The local state of one task: the arguments `thread_id` and `num_ops`, the loop index `i`
(an `int` that starts at `0` and is only incremented), `ReaderThread`'s variable `data`, and the
position in the loop body. -/
structure TaskState where
  kind : TaskKind
  thread_id : Int
  num_ops : Int
  i : Nat
  data : String
  phase : TaskPhase
  deriving DecidableEq, Repr

/-- A task as its thread starts: `i = 0`, `data` empty, at the loop test. -/
def TaskState.start (kind : TaskKind) (thread_id num_ops : Int) : TaskState :=
  { kind := kind, thread_id := thread_id, num_ops := num_ops, i := 0, data := "",
    phase := .loopTest }

/-- The request identifier a task holds between `fetch_add` and the recorded response. -/
def TaskState.held (t : TaskState) : Option Nat :=
  match t.phase with
  | .loopTest => none
  | .allocated req => some req
  | .invoked req => some req
  | .returned req _ => some req

/-- What a call of the log client hands back: the sequence numbers of `AppendEntry`, or the
contents of `data` after `ReadEntry`. -/
structure ClientReply where
  seq_nums : List Nat
  data : String
  deriving DecidableEq, Repr

/-- A call of the log client. -/
inductive ClientCall where
  | AppendEntry (payload : String)
  | ReadEntry (idx : Int)
  deriving DecidableEq, Repr

/-- The client call that a task makes once its invoke is recorded: a writer appends its
payload, a reader reads at its loop index. -/
def TaskState.clientCall (t : TaskState) : Option ClientCall :=
  match t.phase with
  | .invoked _ =>
    match t.kind with
    | .writer => some (.AppendEntry (writerPayload t.thread_id t.i))
    | .reader => some (.ReadEntry t.i)
  | _ => none

/-- One step of a task, on the shared counter and recorder state.  `reply` is used only by the
step in which the client call returns.  A task at the loop test with `i ≥ num_ops` has left its
loop and has no step. -/
def stepTask (global_req_id : Nat) (rec : RecorderState) (t : TaskState) (reply : ClientReply) :
    Option (Nat × RecorderState × TaskState) :=
  match t.phase with
  | .loopTest =>
    if (t.i : Int) < t.num_ops then
      some ((fetchAdd global_req_id).2, rec,
        { t with phase := .allocated (fetchAdd global_req_id).1 })
    else none
  | .allocated req =>
    match t.kind with
    | .writer =>
      some (global_req_id,
        RecordWriteInvoke rec req t.thread_id (writerPayload t.thread_id t.i),
        { t with phase := .invoked req })
    | .reader =>
      some (global_req_id, (RecordReadInvoke rec req t.thread_id).1,
        { t with phase := .invoked req })
  | .invoked req =>
    match t.kind with
    | .writer => some (global_req_id, rec, { t with phase := .returned req reply.seq_nums })
    | .reader =>
      some (global_req_id, rec, { t with phase := .returned req [], data := reply.data })
  | .returned req seq_nums =>
    match t.kind with
    | .writer =>
      some (global_req_id, RecordWriteResponse rec req t.thread_id 0 seq_nums,
        { t with i := t.i + 1, phase := .loopTest })
    | .reader =>
      some (global_req_id, RecordReadResponse rec req t.thread_id t.data t.i,
        { t with i := t.i + 1, phase := .loopTest })

/-- The state of the whole program while the tasks run: the counter `global_req_id`, the recorder
state, the tasks, and the calls of the log client that have returned so far, each with the actor
id of the calling task, in the order of their return. -/
structure SystemState where
  global_req_id : Nat
  recorder : RecorderState
  tasks : List TaskState
  calls : List (Int × ClientCall)
  deriving DecidableEq, Repr

/-- The state when the tasks start: counter `0`, initial recorder state, no call made. -/
def SystemState.start (tasks : List TaskState) : SystemState :=
  { global_req_id := 0, recorder := RecorderState.init, tasks := tasks, calls := [] }

/-- The client call that returns in the next step of a task, with the task's actor id; none when
the next step of the task is not the return of a client call. -/
def TaskState.returningCall (t : TaskState) : List (Int × ClientCall) :=
  match t.clientCall with
  | some call => [(t.thread_id, call)]
  | none => []

/-- One step of the program: task number `k` takes its next step. -/
def step (s : SystemState) (k : Nat) (reply : ClientReply) : Option SystemState :=
  match s.tasks.get? k with
  | none => none
  | some t =>
    match stepTask s.global_req_id s.recorder t reply with
    | none => none
    | some (g, rec, t') =>
      some { global_req_id := g, recorder := rec, tasks := s.tasks.set k t',
             calls := s.calls ++ t.returningCall }

/-- A run: the steps of a schedule taken in order; `none` when the schedule asks a task for a
step it does not have. -/
def runSteps (s : SystemState) : List (Nat × ClientReply) → Option SystemState
  | [] => some s
  | (k, reply) :: rest =>
    match step s k reply with
    | none => none
    | some s' => runSteps s' rest

/-- A task has completed: it is at the loop test and the test fails. -/
def TaskState.completed (t : TaskState) : Bool :=
  t.phase = .loopTest ∧ ¬ ((t.i : Int) < t.num_ops)

/-- The threads that the two loops of `main` start: writers `0 .. num_writers - 1` with
`ops_per_thread` operations each, then readers `num_writers .. num_writers + num_readers - 1`
with `reader_ops` operations each. -/
def taskList (ops_per_thread num_writers num_readers reader_ops : Int) : List TaskState :=
  (List.range num_writers.toNat).map
      (fun i : Nat => TaskState.start .writer (i : Int) ops_per_thread)
    ++ (List.range num_readers.toNat).map
      (fun i : Nat => TaskState.start .reader (num_writers + (i : Int)) reader_ops)

/-- The tasks that `main` spawns.  A reader is given the `int` product
`ops_per_thread * num_writers`, which is evaluated when a reader is started: when there is a
reader and the product is not an `int`, the signed overflow leaves no defined outcome and the
result is `none`. -/
def spawnTasks (ops_per_thread num_writers num_readers : Int) : Option (List TaskState) :=
  if 0 < num_readers ∧ (ops_per_thread * num_writers < -2 ^ 31
      ∨ 2 ^ 31 ≤ ops_per_thread * num_writers) then none
  else some (taskList ops_per_thread num_writers num_readers (ops_per_thread * num_writers))

/-- How `main` gets on up to the start of the threads: `std::stod` throws `std::out_of_range`
on the ratio, the call `threads.reserve(total_threads)` throws `std::length_error`, or the
threads are started. -/
inductive MainOutcome where
  | outOfRange
  | lengthError
  | spawned (tasks : List TaskState)
  deriving DecidableEq, Repr

/-- The function `main` up to the start of the threads, for the values `ops_per_thread` and
`total_threads` of its `int` variables and the ratio `ratio_num / ratio_den`.  It tests no
configuration value.  The result is `none` where the source has no defined outcome: in the
derivation of the worker counts, or in the product that `spawnTasks` evaluates.  The argument
of `reserve` is converted to `size_t`, so a negative `total_threads` becomes a size of at least
`2^64 - 2^31`, above the `max_size()` of any vector, and `reserve` throws before a thread is
started. -/
def mainTasks (ops_per_thread total_threads ratio_num : Int) (ratio_den : Nat) :
    Option MainOutcome :=
  match stod ratio_num ratio_den with
  | .outOfRange => some .outOfRange
  | .value _ =>
    match deriveWorkers total_threads ratio_num ratio_den with
    | none => none
    | some (num_writers, num_readers) =>
      if total_threads < 0 then some .lengthError
      else
        match spawnTasks ops_per_thread num_writers num_readers with
        | none => none
        | some tasks => some (.spawned tasks)

/-- The number of `fetch_add` calls a task has still to make. -/
def TaskState.pending (t : TaskState) : Nat :=
  match t.phase with
  | .loopTest => (t.num_ops - t.i).toNat
  | _ => (t.num_ops - t.i - 1).toNat

/-- The number of `fetch_add` calls all tasks together have still to make. -/
def pendingOps (tasks : List TaskState) : Nat :=
  (tasks.map TaskState.pending).sum

/-- The invokes a task has recorded so far. -/
def TaskState.started (t : TaskState) : Nat :=
  match t.phase with
  | .loopTest => t.i
  | .allocated _ => t.i
  | _ => t.i + 1

/-- The records of a history that carry a given request identifier, in recorder order. -/
def recordsOf (id : Nat) (h : List HistoryRecord) : List HistoryRecord :=
  h.filter (fun r => r.req_id = id)

/-- The records of one request identifier are an Invoke alone, or an Invoke followed by a
Response of the same actor and operation kind. -/
def WellPaired (rs : List HistoryRecord) : Prop :=
  ∃ inv : HistoryRecord, inv.event_type = .INVOKE
    ∧ (rs = [inv]
      ∨ ∃ res : HistoryRecord, res.event_type = .RESPONSE ∧ res.thread_id = inv.thread_id
          ∧ res.op_type = inv.op_type ∧ rs = [inv, res])

/-- The record a task's invoke step appends for the request identifier `req`. -/
def TaskState.invokeRecord (t : TaskState) (req : Nat) : HistoryRecord :=
  match t.kind with
  | .writer =>
    { req_id := req, thread_id := t.thread_id, event_type := .INVOKE, op_type := .OP_WRITE,
      value := writerPayload t.thread_id t.i, idx := -1 }
  | .reader =>
    { req_id := req, thread_id := t.thread_id, event_type := .INVOKE, op_type := .OP_READ,
      value := "", idx := -1 }

/-- The record a task's response step appends for the request identifier `req`. -/
def TaskState.responseRecord (t : TaskState) (req : Nat) (seq_nums : List Nat) :
    HistoryRecord :=
  match t.kind with
  | .writer =>
    { req_id := req, thread_id := t.thread_id, event_type := .RESPONSE, op_type := .OP_WRITE,
      value := "", idx := 0, seq_nums := seq_nums }
  | .reader =>
    { req_id := req, thread_id := t.thread_id, event_type := .RESPONSE, op_type := .OP_READ,
      value := t.data, idx := t.i }

/-- The invariant of a run that keeps request identifiers unique: the counter cannot wrap, every
identifier in the history or held by a task was issued, no two tasks hold the same one, a task
that has not yet recorded its invoke holds an identifier the history does not know, a task with
an outstanding call holds one whose only record is its own Invoke, and the records of every
identifier are well paired. -/
structure IdInvariant (s : SystemState) : Prop where
  no_wrap : s.global_req_id + pendingOps s.tasks < 2 ^ 64
  history_below : ∀ r ∈ s.recorder.global_history, r.req_id < s.global_req_id
  held_below : ∀ t ∈ s.tasks, ∀ req, t.held = some req → req < s.global_req_id
  held_nodup : (s.tasks.filterMap TaskState.held).Nodup
  alloc_fresh : ∀ t ∈ s.tasks, ∀ req, t.phase = .allocated req →
    recordsOf req s.recorder.global_history = []
  open_invoke : ∀ t ∈ s.tasks, ∀ req,
    (t.phase = .invoked req ∨ ∃ sq, t.phase = .returned req sq) →
    ∃ inv, recordsOf req s.recorder.global_history = [inv] ∧ inv.event_type = .INVOKE
      ∧ inv.thread_id = t.thread_id ∧ inv.op_type = t.kind.opType
  paired : ∀ id, recordsOf id s.recorder.global_history = []
    ∨ WellPaired (recordsOf id s.recorder.global_history)

/-! ## Concrete runs used in the examples -/

/-- A schedule for one writer and one reader with one operation each, in which the two
operations overlap: the writer's response is recorded last. -/
def sampleSchedule : List (Nat × ClientReply) :=
  [(0, ⟨[], ""⟩), (1, ⟨[], ""⟩), (0, ⟨[], ""⟩), (0, ⟨[7, 8], ""⟩), (1, ⟨[], ""⟩),
   (1, ⟨[], "00_00000"⟩), (1, ⟨[], ""⟩), (0, ⟨[], ""⟩)]

/-! ## Counting the records of a run -/

/-- The number of Invoke records of a history whose actor and operation kind are selected by
`P`. -/
def countInvokes (P : Int → OpType → Bool) (h : List HistoryRecord) : Nat :=
  h.countP (fun r => decide (r.event_type = .INVOKE) && P r.thread_id r.op_type)

/-- The invokes recorded so far by the tasks selected by `P`. -/
def startedBy (P : Int → OpType → Bool) (tasks : List TaskState) : Nat :=
  (tasks.map fun t => if P t.thread_id t.kind.opType then t.started else 0).sum

/-- The operations that the tasks selected by `P` are given in all. -/
def plannedBy (P : Int → OpType → Bool) (tasks : List TaskState) : Nat :=
  (tasks.map fun t => if P t.thread_id t.kind.opType then t.num_ops.toNat else 0).sum

/-- The indices of the Response/Read records of the actor `thread_id`, in recorder order. -/
def readResponseIndices (thread_id : Int) (h : List HistoryRecord) : List Int :=
  (h.filter (fun r => decide (r.event_type = .RESPONSE) && decide (r.op_type = .OP_READ)
    && decide (r.thread_id = thread_id))).map HistoryRecord.idx

/-- The indices of the `ReadEntry` calls of the actor `thread_id`, in the order of the calls. -/
def readCalls (thread_id : Int) (calls : List (Int × ClientCall)) : List Int :=
  calls.filterMap fun c =>
    match c.2 with
    | .ReadEntry idx => if c.1 = thread_id then some idx else none
    | .AppendEntry _ => none

/-- The number of client calls of a task that have returned: its loop index, and one more while
it has still to record the response of the call of the current iteration. -/
def TaskState.called (t : TaskState) : Nat :=
  match t.phase with
  | .returned _ _ => t.i + 1
  | _ => t.i

/-- The invariant of a run from the tasks `tasks₀` that counts its records: the Invoke records
of any selection of tasks are the invokes those tasks have recorded, a task's loop index stays
within its number of operations, the tasks keep their actor ids and numbers of operations, and
the Response/Read records of a reader carry the indices `0, 1, ...` up to its loop index. -/
structure ProgressInvariant (tasks₀ : List TaskState) (s : SystemState) : Prop where
  counted : ∀ P, countInvokes P s.recorder.global_history = startedBy P s.tasks
  bounded : ∀ t ∈ s.tasks, (t.phase = .loopTest → (t.i : Int) ≤ max t.num_ops 0)
    ∧ (t.phase ≠ .loopTest → (t.i : Int) < t.num_ops)
  actors_nodup : (s.tasks.map TaskState.thread_id).Nodup
  reads : ∀ t ∈ s.tasks, t.kind = .reader →
    readResponseIndices t.thread_id s.recorder.global_history
      = (List.range t.i).map Int.ofNat
  planned : ∀ P, plannedBy P s.tasks = plannedBy P tasks₀

/-- A schedule in which the tasks run one after the other, each to completion: task number `k`
takes four steps for each of its operations, and every client call returns nothing. -/
def sequentialSchedule (tasks : List TaskState) : List (Nat × ClientReply) :=
  (List.range tasks.length).flatMap fun k =>
    match tasks.get? k with
    | none => []
    | some t => List.replicate (4 * t.num_ops.toNat) (k, ⟨[], ""⟩)

/-- The state in which a run from the start ends, when every task has completed there. -/
def completeRun (tasks : List TaskState) (schedule : List (Nat × ClientReply)) :
    Option SystemState :=
  match runSteps (SystemState.start tasks) schedule with
  | none => none
  | some s => if s.tasks.all TaskState.completed then some s else none


/-! ## The record of a recorder call -/

/-- The record that a recorder call pushes onto `global_history`. -/
def RecorderOp.record : RecorderOp → HistoryRecord
  | .writeInvoke req t payload =>
    { req_id := req, thread_id := t, event_type := .INVOKE, op_type := .OP_WRITE,
      value := payload, idx := -1 }
  | .writeResponse req t idx seq_nums =>
    { req_id := req, thread_id := t, event_type := .RESPONSE, op_type := .OP_WRITE,
      value := "", idx := idx, seq_nums := seq_nums }
  | .readInvoke req t =>
    { req_id := req, thread_id := t, event_type := .INVOKE, op_type := .OP_READ,
      value := "", idx := -1 }
  | .readResponse req t data idx =>
    { req_id := req, thread_id := t, event_type := .RESPONSE, op_type := .OP_READ,
      value := data, idx := idx }

/-! # Theorems -/

/-! ## Recorder: frame and append lemmas -/

theorem runOps_nil (s : RecorderState) : runOps s [] = s := rfl

theorem runOps_cons (s : RecorderState) (op : RecorderOp) (ops : List RecorderOp) :
    runOps s (op :: ops) = runOps (op.apply s) ops := rfl

theorem apply_max_write_idx (s : RecorderState) (op : RecorderOp) :
    (op.apply s).max_write_idx = s.max_write_idx + if op.isWriteInvoke then 1 else 0 := by
  cases op <;> simp [RecorderOp.apply, RecorderOp.isWriteInvoke, RecordWriteInvoke,
    RecordWriteResponse, RecordReadInvoke, RecordReadResponse]

theorem runOps_max_write_idx (ops : List RecorderOp) (s : RecorderState) :
    (runOps s ops).max_write_idx = s.max_write_idx + countWriteInvokes ops := by
  induction ops generalizing s with
  | nil => simp [runOps_nil, countWriteInvokes]
  | cons op ops ih =>
    rw [runOps_cons, ih, apply_max_write_idx]
    unfold countWriteInvokes
    rw [List.countP_cons]
    by_cases h : op.isWriteInvoke = true
    · simp [h]; ring
    · simp [h]

theorem apply_history_length (s : RecorderState) (op : RecorderOp) :
    (op.apply s).global_history.length = s.global_history.length + 1 := by
  cases op <;> simp [RecorderOp.apply, RecordWriteInvoke, RecordWriteResponse,
    RecordReadInvoke, RecordReadResponse]

theorem runOps_history_length (ops : List RecorderOp) (s : RecorderState) :
    (runOps s ops).global_history.length = s.global_history.length + ops.length := by
  induction ops generalizing s with
  | nil => simp [runOps_nil]
  | cons op ops ih =>
    rw [runOps_cons, ih, apply_history_length, List.length_cons]
    omega

/-- In every state reached from the initial one, the counter is below the number of records
held in the history: it cannot leave the range of `int64_t` before the history outgrows
memory. -/
theorem max_write_idx_lt_history_length (ops : List RecorderOp) :
    -1 ≤ (runOps RecorderState.init ops).max_write_idx
    ∧ (runOps RecorderState.init ops).max_write_idx
        < (runOps RecorderState.init ops).global_history.length := by
  rw [runOps_max_write_idx, runOps_history_length]
  have h : countWriteInvokes ops ≤ ops.length := List.countP_le_length _
  simp only [RecorderState.init, List.length_nil]
  omega

theorem toUInt64_of_nonneg (n : Nat) (h : n < 2 ^ 64) : toUInt64 (n : Int) = n := by
  unfold toUInt64
  have h2 : ((n : Int) % 2 ^ 64) = (n : Int) := by
    apply Int.emod_eq_of_lt
    · exact Int.ofNat_nonneg n
    · exact_mod_cast h
  rw [h2]
  simp

/-- C1: after a sequence of recorder calls from the initial state containing exactly `k`
calls of `RecordWriteInvoke`, with `1 ≤ k` and `k - 1` within the range of the `int64_t` counter,
the next `RecordReadInvoke` returns `k - 1`, whatever other calls are interleaved. -/
theorem read_invoke_after_write_invokes (ops : List RecorderOp) (k : Nat) (req : Nat)
    (thread_id : Int) (hk : countWriteInvokes ops = k) (hpos : 1 ≤ k) (hfit : k ≤ 2 ^ 63) :
    (RecordReadInvoke (runOps RecorderState.init ops) req thread_id).2 = k - 1 := by
  have hm : (runOps RecorderState.init ops).max_write_idx = ((k - 1 : Nat) : Int) := by
    rw [runOps_max_write_idx, hk]
    simp only [RecorderState.init]
    omega
  show toUInt64 (runOps RecorderState.init ops).max_write_idx = k - 1
  rw [hm]
  apply toUInt64_of_nonneg
  omega

/-- C1 (witness): two write-invokes, a write response, a read-invoke and a third write-invoke;
the next read-invoke returns `2`. -/
theorem read_invoke_after_write_invokes_witness :
    countWriteInvokes [.writeInvoke 0 0 "00_00000", .writeInvoke 1 1 "01_00000",
        .writeResponse 1 1 0 [7], .readInvoke 2 4, .writeInvoke 3 0 "00_00001"] = 3
    ∧ 1 ≤ 3 ∧ 3 ≤ 2 ^ 63
    ∧ (RecordReadInvoke
        (runOps RecorderState.init [.writeInvoke 0 0 "00_00000", .writeInvoke 1 1 "01_00000",
          .writeResponse 1 1 0 [7], .readInvoke 2 4, .writeInvoke 3 0 "00_00001"]) 4 4).2 = 2 :=
  ⟨by decide, by decide, by decide,
    read_invoke_after_write_invokes _ 3 4 4 (by decide) (by decide) (by decide)⟩

theorem apply_appends (s : RecorderState) (op : RecorderOp) :
    ∃ r, (op.apply s).global_history = s.global_history ++ [r] := by
  cases op <;> exact ⟨_, rfl⟩

/-- C2 (counterexample): on the initial state, where no write-invoke has been recorded,
`RecordReadInvoke` returns `18446744073709551615 = 2^64 - 1`, the conversion of the counter
value `-1` to the return type `uint64_t`; the returned number is not `-1`. -/
theorem read_invoke_initial_returns_uint64_max :
    RecorderState.init.max_write_idx = -1
    ∧ (RecordReadInvoke RecorderState.init 0 0).2 = 18446744073709551615
    ∧ ((RecordReadInvoke RecorderState.init 0 0).2 : Int) ≠ -1 := by
  refine ⟨rfl, by decide, by decide⟩

/-- C2 (amended): on every state reached from the initial one by recorder calls none of which is
a write-invoke, the counter `max_write_idx` is `-1` and `RecordReadInvoke` returns the
conversion of `-1` to its return type `uint64_t`, the number `2^64 - 1`, which differs from
`-1` by `2^64`: converted back to a signed 64-bit integer it is `-1`. -/
theorem read_invoke_without_writes_returns_converted_sentinel (ops : List RecorderOp)
    (req : Nat) (thread_id : Int) (h : countWriteInvokes ops = 0) :
    (runOps RecorderState.init ops).max_write_idx = -1
    ∧ (RecordReadInvoke (runOps RecorderState.init ops) req thread_id).2 = toUInt64 (-1)
    ∧ (RecordReadInvoke (runOps RecorderState.init ops) req thread_id).2 = 2 ^ 64 - 1
    ∧ ((RecordReadInvoke (runOps RecorderState.init ops) req thread_id).2 : Int) - 2 ^ 64
        = -1 := by
  have hm : (runOps RecorderState.init ops).max_write_idx = -1 := by
    rw [runOps_max_write_idx, h]
    rfl
  have hr : (RecordReadInvoke (runOps RecorderState.init ops) req thread_id).2
      = toUInt64 (-1) := by
    show toUInt64 (runOps RecorderState.init ops).max_write_idx = toUInt64 (-1)
    rw [hm]
  have hv : toUInt64 (-1) = 2 ^ 64 - 1 := by decide
  refine ⟨hm, hr, hr.trans hv, ?_⟩
  rw [hr, hv]
  decide

/-- C2 (witness): the first read-invoke after a read by another actor, with no write recorded. -/
theorem read_invoke_without_writes_returns_converted_sentinel_witness :
    countWriteInvokes [.readInvoke 0 4, .readResponse 0 4 "" 0] = 0
    ∧ (RecordReadInvoke (runOps RecorderState.init [.readInvoke 0 4, .readResponse 0 4 "" 0])
        1 5).2 = 18446744073709551615 :=
  ⟨by decide,
    (read_invoke_without_writes_returns_converted_sentinel
      [.readInvoke 0 4, .readResponse 0 4 "" 0] 1 5 (by decide)).2.2.1⟩

/-- C3: `RecordWriteInvoke` appends at the end of the history exactly one record, with fields
(request id, actor id, Invoke, Write, the given payload, index `-1`, no sequence numbers), and
increases the last known write index by exactly one. -/
theorem write_invoke_appends_record_and_advances (s : RecorderState) (req : Nat)
    (thread_id : Int) (payload : String) :
    (RecordWriteInvoke s req thread_id payload).global_history
        = s.global_history ++ [HistoryRecord.mk req thread_id .INVOKE .OP_WRITE payload (-1) []]
    ∧ (RecordWriteInvoke s req thread_id payload).global_history.length
        = s.global_history.length + 1
    ∧ (RecordWriteInvoke s req thread_id payload).max_write_idx = s.max_write_idx + 1 := by
  refine ⟨rfl, ?_, rfl⟩
  simp [RecordWriteInvoke]

/-- C4: the last known write index never decreases across a recorder operation, and only
`RecordWriteInvoke` changes it: the other three operations leave it as it was, and so a sequence
of recorder calls never lowers it. -/
theorem max_write_idx_monotone_and_framed (s : RecorderState) (req : Nat) (thread_id : Int)
    (payload : String) (idx : Int) (seq_nums : List Nat) (ops : List RecorderOp) :
    s.max_write_idx ≤ (RecordWriteInvoke s req thread_id payload).max_write_idx
    ∧ (RecordWriteResponse s req thread_id idx seq_nums).max_write_idx = s.max_write_idx
    ∧ (RecordReadInvoke s req thread_id).1.max_write_idx = s.max_write_idx
    ∧ (RecordReadResponse s req thread_id payload idx).max_write_idx = s.max_write_idx
    ∧ (∀ op : RecorderOp, (op.apply s).max_write_idx ≠ s.max_write_idx →
        op.isWriteInvoke = true)
    ∧ s.max_write_idx ≤ (runOps s ops).max_write_idx := by
  refine ⟨?_, rfl, rfl, rfl, ?_, ?_⟩
  · show s.max_write_idx ≤ s.max_write_idx + 1
    omega
  · intro op hne
    rw [apply_max_write_idx] at hne
    by_contra hw
    simp [hw] at hne
  · rw [runOps_max_write_idx]
    omega

/-- C5: each of the four recorder operations turns a history `h` into `h` followed by exactly
one new record, so every earlier record stays unchanged at its position; `DumpGlobalHistory`
leaves the recorder state, and with it the history, unchanged. -/
theorem recorder_operations_append_only (s : RecorderState) (req : Nat) (thread_id : Int)
    (payload : String) (idx : Int) (seq_nums : List Nat) (opened : Bool) :
    (∃ r, (RecordWriteInvoke s req thread_id payload).global_history = s.global_history ++ [r])
    ∧ (∃ r, (RecordWriteResponse s req thread_id idx seq_nums).global_history
          = s.global_history ++ [r])
    ∧ (∃ r, (RecordReadInvoke s req thread_id).1.global_history = s.global_history ++ [r])
    ∧ (∃ r, (RecordReadResponse s req thread_id payload idx).global_history
          = s.global_history ++ [r])
    ∧ (∀ (op : RecorderOp) (i : Nat), i < s.global_history.length →
        (op.apply s).global_history.get? i = s.global_history.get? i)
    ∧ (∀ op : RecorderOp,
        (op.apply s).global_history.length = s.global_history.length + 1)
    ∧ (DumpGlobalHistory opened s).1 = s := by
  refine ⟨⟨_, rfl⟩, ⟨_, rfl⟩, ⟨_, rfl⟩, ⟨_, rfl⟩, ?_, ?_, ?_⟩
  · intro op i hi
    obtain ⟨r, hr⟩ := apply_appends s op
    rw [hr]
    simp [List.getElem?_append_left hi]
  · intro op
    obtain ⟨r, hr⟩ := apply_appends s op
    rw [hr]
    simp
  · unfold DumpGlobalHistory
    split <;> rfl

/-- C6 (counterexample): after one write-invoke the last known write index is `0` and
`RecordReadInvoke` returns `0`, but the Invoke/Read record it appends has index `-1`. -/
theorem read_invoke_record_index_is_not_snapshot :
    stateAfterOneWrite.max_write_idx = 0
    ∧ (RecordReadInvoke stateAfterOneWrite 1 1).2 = 0
    ∧ (RecordReadInvoke stateAfterOneWrite 1 1).1.global_history.getLast?.map HistoryRecord.idx
        = some (-1)
    ∧ (RecordReadInvoke stateAfterOneWrite 1 1).1.global_history.getLast?.map HistoryRecord.idx
        ≠ some stateAfterOneWrite.max_write_idx := by
  refine ⟨by decide, by decide, by decide, by decide⟩

/-- C6 (amended): for every recorder state, the record appended by `RecordReadInvoke` is the
Invoke/Read record with an empty value and index `-1`, whatever the last known write index is;
that index is carried only by the returned value, which is its conversion to `uint64_t`. -/
theorem read_invoke_record_has_unset_index (s : RecorderState) (req : Nat) (thread_id : Int) :
    (RecordReadInvoke s req thread_id).1.global_history
        = s.global_history ++ [HistoryRecord.mk req thread_id .INVOKE .OP_READ "" (-1) []]
    ∧ (RecordReadInvoke s req thread_id).1.global_history.getLast?.map HistoryRecord.idx
        = some (-1)
    ∧ (RecordReadInvoke s req thread_id).2 = toUInt64 s.max_write_idx := by
  refine ⟨rfl, ?_, rfl⟩
  simp [RecordReadInvoke]
/-! ## Serializer: the text written for a history -/

theorem push_eq_append (s : String) (c : Char) : s.push c = s ++ String.singleton c := by
  apply String.ext
  simp [String.push, String.data_append, String.singleton]

theorem join_foldl (acc : String) (l : List String) :
    List.foldl (fun r s => r ++ s) acc l = acc ++ String.join l := by
  induction l generalizing acc with
  | nil => simp [String.join]
  | cons a l ih =>
    simp only [List.foldl_cons, String.join]
    rw [ih, ih ("" ++ a)]
    simp [String.append_assoc]

theorem join_cons (a : String) (l : List String) : String.join (a :: l) = a ++ String.join l := by
  show List.foldl (fun r s => r ++ s) ("" ++ a) l = _
  rw [join_foldl]
  simp

theorem intercalate_go_snoc (acc s x : String) (l : List String) :
    String.intercalate.go acc s (l ++ [x]) = String.intercalate.go acc s l ++ s ++ x := by
  induction l generalizing acc with
  | nil => simp [String.intercalate.go]
  | cons a l ih => simp [String.intercalate.go, ih]

theorem intercalate_snoc (s x a : String) (l : List String) :
    String.intercalate s ((a :: l) ++ [x]) = String.intercalate s (a :: l) ++ s ++ x := by
  simp only [String.intercalate, List.cons_append]
  exact intercalate_go_snoc a s x l

theorem intercalate_singleton (s x : String) : String.intercalate s [x] = x := rfl

/-- The stream after the first `n` iterations of the loop of `writeSeqNums`: the first `n`
numbers separated by commas, followed by a comma when more numbers remain. -/
theorem writeSeqNums_take (f : String) (seq_nums : List Nat) (n : Nat)
    (hn : n ≤ seq_nums.length) :
    (List.range n).foldl
      (fun f i =>
        let f := f ++ showUInt (seq_nums.getD i 0)
        if i < seq_nums.length - 1 then f.push ',' else f) f
    = f ++ String.intercalate "," ((seq_nums.take n).map showUInt)
        ++ (if 0 < n ∧ n < seq_nums.length then "," else "") := by
  induction n with
  | zero => simp [String.intercalate]
  | succ n ih =>
    have hlt : n < seq_nums.length := hn
    rw [List.range_succ, List.foldl_append, ih (Nat.le_of_lt hlt)]
    have htake : seq_nums.take (n + 1) = seq_nums.take n ++ [seq_nums.getD n 0] := by
      rw [List.take_succ]
      simp [List.getD, List.getElem?_eq_getElem hlt]
    rw [htake]
    simp only [List.foldl_cons, List.foldl_nil, List.map_append, List.map_cons, List.map_nil]
    have hcond : (n < seq_nums.length - 1) ↔ (0 < n + 1 ∧ n + 1 < seq_nums.length) := by omega
    have hstep : f ++ String.intercalate "," (List.map showUInt (List.take n seq_nums))
          ++ (if 0 < n ∧ n < seq_nums.length then "," else "")
          ++ showUInt (seq_nums.getD n 0)
        = f ++ String.intercalate ","
            (List.map showUInt (List.take n seq_nums) ++ [showUInt (seq_nums.getD n 0)]) := by
      rcases Nat.eq_zero_or_pos n with h0 | hpos
      · subst h0
        simp [String.intercalate, String.intercalate.go]
      · have hne : List.map showUInt (List.take n seq_nums) ≠ [] := by
          intro h
          have hl := congrArg List.length h
          rw [List.length_map, List.length_take, List.length_nil] at hl
          omega
        obtain ⟨a, l, hal⟩ := List.exists_cons_of_ne_nil hne
        rw [hal, intercalate_snoc]
        simp [hpos, hlt, String.append_assoc]
    by_cases hc : n < seq_nums.length - 1
    · rw [if_pos hc, if_pos (hcond.mp hc), push_eq_append, hstep]
      rfl
    · rw [if_neg hc, if_neg (fun h => hc (hcond.mpr h)), hstep]
      simp

theorem writeSeqNums_eq (f : String) (seq_nums : List Nat) :
    writeSeqNums f seq_nums = f ++ String.intercalate "," (seq_nums.map showUInt) := by
  unfold writeSeqNums
  rw [writeSeqNums_take f seq_nums seq_nums.length (Nat.le_refl _)]
  simp

theorem digitChar_isDigit (d : Nat) (h : d < 10) : (Nat.digitChar d).isDigit = true := by
  revert d
  decide

theorem toDigitsCore_isDigit (fuel n : Nat) (ds : List Char)
    (hds : ∀ c ∈ ds, c.isDigit = true) :
    ∀ c ∈ Nat.toDigitsCore 10 fuel n ds, c.isDigit = true := by
  induction fuel generalizing n ds with
  | zero => simpa [Nat.toDigitsCore] using hds
  | succ fuel ih =>
    have hd : (Nat.digitChar (n % 10)).isDigit = true :=
      digitChar_isDigit _ (Nat.mod_lt _ (by decide))
    have hcons : ∀ c ∈ Nat.digitChar (n % 10) :: ds, c.isDigit = true := by
      intro c hc
      rcases List.mem_cons.mp hc with h | h
      · rw [h]; exact hd
      · exact hds c h
    simp only [Nat.toDigitsCore]
    split
    · exact hcons
    · exact ih _ _ hcons

theorem toDigitsCore_ne_nil (fuel n : Nat) (ds : List Char) (h : ds ≠ [] ∨ 0 < fuel) :
    Nat.toDigitsCore 10 fuel n ds ≠ [] := by
  induction fuel generalizing n ds with
  | zero =>
    rcases h with h | h
    · simpa [Nat.toDigitsCore] using h
    · omega
  | succ fuel ih =>
    simp only [Nat.toDigitsCore]
    split
    · simp
    · exact ih _ _ (Or.inl (by simp))

theorem showUInt_data (n : Nat) : (showUInt n).data = Nat.toDigits 10 n := rfl

theorem showUInt_isDigit (n : Nat) : ∀ c ∈ (showUInt n).data, c.isDigit = true := by
  rw [showUInt_data]
  exact toDigitsCore_isDigit _ _ _ (by simp)

theorem showUInt_ne_nil (n : Nat) : (showUInt n).data ≠ [] := by
  rw [showUInt_data]
  exact toDigitsCore_ne_nil _ _ _ (Or.inr (Nat.succ_pos n))

theorem showInt_chars (i : Int) : ∀ c ∈ (showInt i).data, c = '-' ∨ c.isDigit = true := by
  intro c hc
  cases i with
  | ofNat m => exact Or.inr (showUInt_isDigit m c hc)
  | negSucc m =>
    simp only [showInt, String.data_append] at hc
    rcases List.mem_append.mp hc with h | h
    · left; simpa using h
    · exact Or.inr (showUInt_isDigit (m + 1) c h)

theorem newline_not_mem_showUInt (n : Nat) : '\n' ∉ (showUInt n).data :=
  fun h => absurd (showUInt_isDigit n _ h) (by decide)

theorem newline_not_mem_showInt (i : Int) : '\n' ∉ (showInt i).data := by
  intro h
  rcases showInt_chars i _ h with h | h
  · exact absurd h (by decide)
  · exact absurd h (by decide)

theorem writeRecord_eq (f : String) (rec : HistoryRecord) :
    writeRecord f rec = f ++ (grammarLine rec ++ "\n") := by
  obtain ⟨req, t, ev, op, v, i, q⟩ := rec
  cases ev <;> cases op <;>
    simp [writeRecord, grammarLine, grammarSeqField, writeSeqNums_eq, push_eq_append,
      String.append_assoc]
  rfl

theorem foldl_writeRecord (f : String) (h : List HistoryRecord) :
    h.foldl writeRecord f = f ++ grammarText h := by
  induction h generalizing f with
  | nil => simp [grammarText, String.join]
  | cons rec h ih =>
    rw [List.foldl_cons, ih, writeRecord_eq]
    simp [grammarText, join_cons, String.append_assoc]

theorem dump_eq (s : RecorderState) :
    DumpGlobalHistory true s = (s, some (grammarText s.global_history)) := by
  simp [DumpGlobalHistory, foldl_writeRecord]

theorem intercalate_go_chars (acc s : String) (l : List String) (c : Char)
    (hc : c ∈ (String.intercalate.go acc s l).data) :
    c ∈ acc.data ∨ c ∈ s.data ∨ ∃ x ∈ l, c ∈ x.data := by
  induction l generalizing acc with
  | nil => exact Or.inl hc
  | cons a l ih =>
    simp only [String.intercalate.go] at hc
    rcases ih _ hc with h | h | ⟨x, hx, hcx⟩
    · simp only [String.data_append, List.mem_append] at h
      rcases h with (h | h) | h
      · exact Or.inl h
      · exact Or.inr (Or.inl h)
      · exact Or.inr (Or.inr ⟨a, List.mem_cons_self _ _, h⟩)
    · exact Or.inr (Or.inl h)
    · exact Or.inr (Or.inr ⟨x, List.mem_cons_of_mem _ hx, hcx⟩)

theorem intercalate_chars (s : String) (l : List String) (c : Char)
    (hc : c ∈ (String.intercalate s l).data) :
    c ∈ s.data ∨ ∃ x ∈ l, c ∈ x.data := by
  cases l with
  | nil => simp [String.intercalate] at hc
  | cons a l =>
    rcases intercalate_go_chars a s l c hc with h | h | ⟨x, hx, hcx⟩
    · exact Or.inr ⟨a, List.mem_cons_self _ _, h⟩
    · exact Or.inl h
    · exact Or.inr ⟨x, List.mem_cons_of_mem _ hx, hcx⟩

theorem seqText_chars (seq_nums : List Nat) (c : Char)
    (hc : c ∈ (String.intercalate "," (seq_nums.map showUInt)).data) :
    c = ',' ∨ c.isDigit = true := by
  rcases intercalate_chars _ _ c hc with h | ⟨x, hx, hcx⟩
  · left; simpa using h
  · obtain ⟨n, -, rfl⟩ := List.mem_map.mp hx
    exact Or.inr (showUInt_isDigit n c hcx)

theorem newline_not_mem_seqField (seq_nums : List Nat) :
    '\n' ∉ (grammarSeqField seq_nums).data := by
  intro h
  simp only [grammarSeqField, String.data_append, List.mem_append] at h
  rcases h with (h | h) | h
  · exact absurd h (by decide)
  · rcases seqText_chars _ _ h with h | h
    · exact absurd h (by decide)
    · exact absurd h (by decide)
  · exact absurd h (by decide)

theorem newline_not_mem_recordLine (rec : HistoryRecord) (hv : '\n' ∉ rec.value.data) :
    '\n' ∉ (grammarLine rec).data := by
  obtain ⟨req, t, ev, op, v, i, q⟩ := rec
  have h1 := newline_not_mem_showUInt req
  have h2 := newline_not_mem_showInt t
  have h3 := newline_not_mem_showInt i
  have h4 := newline_not_mem_seqField q
  cases ev <;> cases op <;>
    simp only [grammarLine, String.data_append, List.mem_append, not_or] <;>
    simp_all

theorem count_newline_renderHistory (h : List HistoryRecord)
    (hv : ∀ rec ∈ h, '\n' ∉ rec.value.data) :
    (grammarText h).data.count '\n' = h.length := by
  induction h with
  | nil => rfl
  | cons rec h ih =>
    have hrec := newline_not_mem_recordLine rec (hv rec (List.mem_cons_self _ _))
    have ih2 := ih (fun r hr => hv r (List.mem_cons_of_mem _ hr))
    unfold grammarText at ih2 ⊢
    rw [List.map_cons, join_cons, String.data_append, String.data_append, List.count_append,
      List.count_append, ih2, List.count_eq_zero_of_not_mem hrec]
    simp
    omega

theorem intercalate_go_starts (acc s : String) (l : List String) :
    ∃ t : String, String.intercalate.go acc s l = acc ++ t := by
  induction l generalizing acc with
  | nil => exact ⟨"", by simp [String.intercalate.go]⟩
  | cons a l ih =>
    obtain ⟨t, ht⟩ := ih (acc ++ s ++ a)
    refine ⟨s ++ a ++ t, ?_⟩
    rw [String.intercalate.go, ht]
    simp only [String.append_assoc]

theorem digits_head_ne_comma (x : String) (hne : x.data ≠ [])
    (hd : ∀ c ∈ x.data, c.isDigit = true) (t : List Char) :
    (x.data ++ t).head? ≠ some ',' := by
  obtain ⟨c, cs, hcs⟩ := List.exists_cons_of_ne_nil hne
  rw [hcs]
  intro h
  have hc : c = ',' := by simpa using h
  have := hd c (by rw [hcs]; exact List.mem_cons_self _ _)
  rw [hc] at this
  exact absurd this (by decide)

theorem digits_getLast_ne_comma (x : String) (hne : x.data ≠ [])
    (hd : ∀ c ∈ x.data, c.isDigit = true) (t : List Char) :
    (t ++ x.data).getLast? ≠ some ',' := by
  rw [List.getLast?_append_of_ne_nil _ hne]
  intro h
  have hmem : ',' ∈ x.data := List.mem_of_getLast?_eq_some h
  exact absurd (hd _ hmem) (by decide)

theorem seqText_head (seq_nums : List Nat) :
    (String.intercalate "," (seq_nums.map showUInt)).data.head? ≠ some ',' := by
  cases seq_nums with
  | nil => simp [String.intercalate]
  | cons n l =>
    obtain ⟨t, ht⟩ := intercalate_go_starts (showUInt n) "," (l.map showUInt)
    simp only [List.map_cons, String.intercalate, ht, String.data_append]
    exact digits_head_ne_comma _ (showUInt_ne_nil n) (showUInt_isDigit n) _

theorem seqText_getLast (seq_nums : List Nat) :
    (String.intercalate "," (seq_nums.map showUInt)).data.getLast? ≠ some ',' := by
  rcases List.eq_nil_or_concat seq_nums with h | ⟨l, n, h⟩
  · subst h; simp [String.intercalate]
  · rw [List.concat_eq_append] at h
    subst h
    cases l with
    | nil =>
      simp only [List.nil_append, List.map_cons, List.map_nil, intercalate_singleton]
      have := digits_getLast_ne_comma _ (showUInt_ne_nil n) (showUInt_isDigit n) []
      simpa using this
    | cons a l =>
      rw [List.map_append, List.map_cons, List.map_cons, List.map_nil, intercalate_snoc,
        String.data_append]
      exact digits_getLast_ne_comma _ (showUInt_ne_nil n) (showUInt_isDigit n) _
/-- C8: when the output file opens, `DumpGlobalHistory` writes the concatenation, in
recorder-append order, of one newline-terminated line per record, the line being the one the
output grammar gives for the record's phase and kind, with numbers in decimal; when no payload
contains a newline, no line contains one and the number of newlines in the output is the number
of records. -/
theorem dump_writes_one_line_per_record (s : RecorderState) :
    (DumpGlobalHistory true s).2
        = some (String.join (s.global_history.map fun rec => grammarLine rec ++ "\n"))
    ∧ ((∀ rec ∈ s.global_history, '\n' ∉ rec.value.data) →
        (∀ rec ∈ s.global_history, '\n' ∉ (grammarLine rec).data)
        ∧ ∀ out, (DumpGlobalHistory true s).2 = some out →
            out.data.count '\n' = s.global_history.length) := by
  refine ⟨by rw [dump_eq]; rfl, fun hv => ⟨fun rec hrec => ?_, fun out hout => ?_⟩⟩
  · exact newline_not_mem_recordLine rec (hv rec hrec)
  · rw [dump_eq] at hout
    cases hout
    exact count_newline_renderHistory _ hv

/-- C8 (witness): the six records of `sampleState` are written as six lines. -/
theorem dump_writes_one_line_per_record_witness :
    (DumpGlobalHistory true sampleState).2
        = some ("inv write id=0 client=0 val=00_00000\n"
            ++ "res write id=0 client=0 idx=0 seq=[5,6,7]\n"
            ++ "inv read id=1 client=4\n"
            ++ "res read id=1 client=4 idx=0 val=00_00000\n"
            ++ "res write id=2 client=-3 idx=0 seq=[]\n"
            ++ "res write id=2 client=-3 idx=-7 seq=[9]\n")
    ∧ (∀ out, (DumpGlobalHistory true sampleState).2 = some out → out.data.count '\n' = 6) :=
  ⟨(dump_writes_one_line_per_record sampleState).1.trans (by rfl),
   ((dump_writes_one_line_per_record sampleState).2 (by decide)).2⟩

/-- C9: for every list of sequence numbers, the inner loop of `DumpGlobalHistory` writes the
decimal numbers in their original order separated by single commas, so a Response/Write line ends
in `seq=[`, that text, `]`: it is `seq=[]` for the empty list and `seq=[n]` for a one-element
list; the text between the brackets neither starts nor ends with a comma, and each number is a
non-empty run of decimal digits. -/
theorem seq_field_has_no_stray_comma (f : String) (req : Nat) (thread_id : Int)
    (value : String) (idx : Int) (seq_nums : List Nat) (n : Nat) :
    writeSeqNums f seq_nums = f ++ String.intercalate "," (seq_nums.map showUInt)
    ∧ writeRecord f (HistoryRecord.mk req thread_id .RESPONSE .OP_WRITE value idx seq_nums)
        = f ++ "res write id=" ++ showUInt req ++ " client=" ++ showInt thread_id
            ++ " idx=" ++ showInt idx
            ++ " seq=[" ++ String.intercalate "," (seq_nums.map showUInt) ++ "]" ++ "\n"
    ∧ writeRecord f (HistoryRecord.mk req thread_id .RESPONSE .OP_WRITE value idx [])
        = f ++ "res write id=" ++ showUInt req ++ " client=" ++ showInt thread_id
            ++ " idx=" ++ showInt idx ++ " seq=[]" ++ "\n"
    ∧ writeRecord f (HistoryRecord.mk req thread_id .RESPONSE .OP_WRITE value idx [n])
        = f ++ "res write id=" ++ showUInt req ++ " client=" ++ showInt thread_id
            ++ " idx=" ++ showInt idx ++ " seq=[" ++ showUInt n ++ "]" ++ "\n"
    ∧ (String.intercalate "," (seq_nums.map showUInt)).data.head? ≠ some ','
    ∧ (String.intercalate "," (seq_nums.map showUInt)).data.getLast? ≠ some ','
    ∧ (∀ m ∈ seq_nums,
        (showUInt m).data ≠ [] ∧ ∀ c ∈ (showUInt m).data, c.isDigit = true) := by
  have hline : ∀ q : List Nat,
      writeRecord f (HistoryRecord.mk req thread_id .RESPONSE .OP_WRITE value idx q)
        = f ++ "res write id=" ++ showUInt req ++ " client=" ++ showInt thread_id
            ++ " idx=" ++ showInt idx
            ++ " seq=[" ++ String.intercalate "," (q.map showUInt) ++ "]" ++ "\n" := by
    intro q
    rw [writeRecord_eq]
    simp only [grammarLine, grammarSeqField, String.append_assoc]
    rfl
  refine ⟨writeSeqNums_eq f seq_nums, hline seq_nums, ?_, ?_, seqText_head seq_nums,
    seqText_getLast seq_nums, fun m _ => ⟨showUInt_ne_nil m, showUInt_isDigit m⟩⟩
  · rw [hline []]
    simp only [List.map_nil, String.intercalate, String.append_assoc]
    rfl
  · rw [hline [n]]
    simp only [List.map_cons, List.map_nil, intercalate_singleton]

/-- C10: `DumpGlobalHistory` returns the recorder state it was given, so the history and the
last known write index are unchanged; running it again on the state it returns writes the same
output; and the output is a function of the record list alone. -/
theorem dump_is_idempotent_and_deterministic (opened : Bool) (s s' : RecorderState) :
    (DumpGlobalHistory opened s).1 = s
    ∧ (DumpGlobalHistory opened s).1.global_history = s.global_history
    ∧ (DumpGlobalHistory opened s).1.max_write_idx = s.max_write_idx
    ∧ (DumpGlobalHistory opened (DumpGlobalHistory opened s).1).2 = (DumpGlobalHistory opened s).2
    ∧ (s.global_history = s'.global_history →
        (DumpGlobalHistory opened s).2 = (DumpGlobalHistory opened s').2) := by
  have h1 : ∀ t : RecorderState, (DumpGlobalHistory opened t).1 = t := by
    intro t
    unfold DumpGlobalHistory
    split <;> rfl
  refine ⟨h1 s, by rw [h1], by rw [h1], by rw [h1], fun h => ?_⟩
  unfold DumpGlobalHistory
  rw [h]
  split <;> rfl
/-! ## Worker derivation: bounds on the rounded values -/

section WorkerDerivation

set_option exponentiation.threshold 2000
set_option maxRecDepth 100000

theorem natLog2_go_spec (fuel n : Nat) (h1 : 1 ≤ n) (hf : n ≤ fuel) :
    2 ^ natLog2.go fuel n ≤ n ∧ n < 2 ^ (natLog2.go fuel n + 1) := by
  induction fuel generalizing n with
  | zero => omega
  | succ fuel ih =>
    unfold natLog2.go
    by_cases h2 : n < 2
    · rw [if_pos h2]
      have : n = 1 := by omega
      subst this
      decide
    · rw [if_neg h2]
      have hdiv := ih (n / 2) (by omega) (by omega)
      obtain ⟨hlo, hhi⟩ := hdiv
      refine ⟨?_, ?_⟩
      · rw [pow_succ]
        omega
      · rw [pow_succ]
        omega

theorem natLog2_spec (n : Nat) (h1 : 1 ≤ n) :
    2 ^ natLog2 n ≤ n ∧ n < 2 ^ (natLog2 n + 1) :=
  natLog2_go_spec n n h1 (Nat.le_refl n)

/-- The quotient of the two natural powers of two attached to an integer exponent. -/
theorem pow_toNat_div (z : Int) :
    ((2 ^ z.toNat : Nat) : ℚ) / ((2 ^ (-z).toNat : Nat) : ℚ) = (2 : ℚ) ^ z := by
  rcases Int.eq_nat_or_neg z with ⟨n, rfl | rfl⟩
  · have h1 : (-(n : Int)).toNat = 0 := by omega
    simp [h1]
  · have h1 : (-(n : Int)).toNat = 0 := by omega
    simp [h1]

theorem fracLog2_le (a b : Nat) (ha : 0 < a) (hb : 0 < b) :
    (2 : ℚ) ^ fracLog2 a b ≤ (a : ℚ) / b := by
  have hbq : (0 : ℚ) < b := by exact_mod_cast hb
  unfold fracLog2
  simp only
  split
  · rename_i htest
    rw [← pow_toNat_div, div_le_div_iff₀ (by positivity) hbq]
    have hq : ((b * 2 ^ ((natLog2 a : Int) - natLog2 b).toNat : Nat) : ℚ)
        ≤ ((a * 2 ^ (-((natLog2 a : Int) - natLog2 b)).toNat : Nat) : ℚ) := by
      exact_mod_cast htest
    push_cast at hq ⊢
    linarith
  · have hla := (natLog2_spec a ha).1
    have hlb := (natLog2_spec b hb).2
    have hlaq : ((2 : ℚ) ^ natLog2 a) ≤ a := by exact_mod_cast hla
    have hlbq : (b : ℚ) < (2 : ℚ) ^ (natLog2 b + 1) := by exact_mod_cast hlb
    have hexp : (natLog2 a : Int) - natLog2 b - 1
        = (natLog2 a : Int) - ((natLog2 b + 1 : Nat) : Int) := by
      push_cast
      ring
    rw [hexp, zpow_sub₀ (by norm_num), zpow_natCast, zpow_natCast]
    rw [div_le_div_iff₀ (by positivity) hbq]
    have hpos : (0 : ℚ) < (2 : ℚ) ^ natLog2 a := by positivity
    nlinarith

theorem divRoundHalfEven_le (A B N : Nat) (hB : 0 < B) (h : A ≤ N * B) :
    divRoundHalfEven A B ≤ N := by
  have hdm := Nat.div_add_mod A B
  have hr := Nat.mod_lt A hB
  have hq : A / B ≤ N := by
    have h1 : A / B * B ≤ N * B := by
      have h2 : B * (A / B) = A / B * B := Nat.mul_comm _ _
      omega
    exact Nat.le_of_mul_le_mul_right h1 hB
  unfold divRoundHalfEven
  simp only
  have hlt : ¬ 2 * (A % B) < B → A / B < N := by
    intro hnot
    by_contra hge
    have hge' : N ≤ A / B := by omega
    have h1 : N * B ≤ A / B * B := Nat.mul_le_mul_right B hge'
    have h2 : B * (A / B) = A / B * B := Nat.mul_comm _ _
    omega
  split
  · exact hq
  · rename_i h1
    split
    · exact hlt h1
    · split
      · exact hq
      · exact hlt h1

theorem le_divRoundHalfEven (A B M : Nat) (hB : 0 < B) (h : M * B ≤ A) :
    M ≤ divRoundHalfEven A B := by
  have hq : M ≤ A / B := (Nat.le_div_iff_mul_le hB).mpr h
  unfold divRoundHalfEven
  simp only
  split
  · exact hq
  · split
    · omega
    · split <;> omega

theorem pow_toNat_pos (z : Int) : 0 < 2 ^ z.toNat := Nat.pow_pos (by decide)

theorem natCast_pow_toNat (z : Int) (hz : 0 ≤ z) :
    ((2 ^ z.toNat : Nat) : ℚ) = (2 : ℚ) ^ z := by
  obtain ⟨n, rfl⟩ := Int.eq_ofNat_of_zero_le hz
  simp

/-- The fraction `a / b` lies below the next power of two after `2 ^ fracLog2 a b`. -/
theorem fracLog2_lt (a b : Nat) (ha : 0 < a) (hb : 0 < b) :
    (a : ℚ) / b < (2 : ℚ) ^ (fracLog2 a b + 1) := by
  have hbq : (0 : ℚ) < b := by exact_mod_cast hb
  unfold fracLog2
  simp only
  split
  · have hla := (natLog2_spec a ha).2
    have hlb := (natLog2_spec b hb).1
    have hlaq : (a : ℚ) < (2 : ℚ) ^ (natLog2 a + 1) := by exact_mod_cast hla
    have hlbq : (2 : ℚ) ^ natLog2 b ≤ (b : ℚ) := by exact_mod_cast hlb
    have hexp : (natLog2 a : Int) - natLog2 b + 1
        = ((natLog2 a + 1 : Nat) : Int) - (natLog2 b : Int) := by
      push_cast
      ring
    rw [hexp, zpow_sub₀ (by norm_num), zpow_natCast, zpow_natCast]
    rw [div_lt_div_iff₀ hbq (by positivity)]
    have hpos : (0 : ℚ) < (2 : ℚ) ^ (natLog2 a + 1) := by positivity
    nlinarith
  · rename_i htest
    rw [sub_add_cancel, ← pow_toNat_div, div_lt_div_iff₀ hbq (by positivity)]
    have hq : ((a * 2 ^ (-((natLog2 a : Int) - natLog2 b)).toNat : Nat) : ℚ)
        < ((b * 2 ^ ((natLog2 a : Int) - natLog2 b).toNat : Nat) : ℚ) := by
      exact_mod_cast Nat.lt_of_not_le htest
    push_cast at hq ⊢
    linarith

/-- The result of `divRoundHalfEven` is within one half of the exact quotient, and it is even
when the quotient is exactly halfway between two integers. -/
theorem divRoundHalfEven_nearest (A B : Nat) (hB : 0 < B) :
    2 * (divRoundHalfEven A B * B) ≤ 2 * A + B
    ∧ 2 * A ≤ 2 * (divRoundHalfEven A B * B) + B
    ∧ (2 * (A % B) = B → divRoundHalfEven A B % 2 = 0) := by
  have hdm := Nat.div_add_mod A B
  have hr := Nat.mod_lt A hB
  have hc : B * (A / B) = A / B * B := Nat.mul_comm _ _
  have hs : (A / B + 1) * B = A / B * B + B := Nat.succ_mul _ _
  unfold divRoundHalfEven
  simp only
  split
  · refine ⟨by omega, by omega, by omega⟩
  · split
    · rw [hs]
      refine ⟨by omega, by omega, by omega⟩
    · split
      · refine ⟨by omega, by omega, by omega⟩
      · rw [hs]
        refine ⟨by omega, by omega, by omega⟩


theorem scaled_le_of_ratio_le (a b N' P N : Nat) (hb : 0 < b) (hN : 0 < N)
    (h : (a : ℚ) / b ≤ (N' : ℚ) * ((P : ℚ) / N)) : a * N ≤ N' * (b * P) := by
  have hbq : (0 : ℚ) < b := by exact_mod_cast hb
  have hNq : (0 : ℚ) < N := by exact_mod_cast hN
  have h2 : (a : ℚ) * N ≤ N' * (b * P) := by
    rw [div_le_iff₀ hbq] at h
    have h3 : (N' : ℚ) * ((P : ℚ) / N) * b = (N' * (b * P)) / N := by
      field_simp
      ring
    rw [h3, le_div_iff₀ hNq] at h
    exact h
  exact_mod_cast h2

theorem scaled_ge_of_ratio_ge (a b M P N : Nat) (hb : 0 < b) (hN : 0 < N)
    (h : (M : ℚ) * ((P : ℚ) / N) ≤ (a : ℚ) / b) : M * (b * P) ≤ a * N := by
  have hbq : (0 : ℚ) < b := by exact_mod_cast hb
  have hNq : (0 : ℚ) < N := by exact_mod_cast hN
  have h2 : (M : ℚ) * (b * P) ≤ a * N := by
    rw [le_div_iff₀ hbq] at h
    have h3 : (M : ℚ) * ((P : ℚ) / N) * b = (M * (b * P)) / N := by
      field_simp
      ring
    rw [h3, div_le_iff₀ hNq] at h
    exact h
  exact_mod_cast h2

theorem roundMag_pos_eq (fmt : FloatFormat) (a b : Nat) (ha : 0 < a) :
    fmt.roundMag a b
      = (divRoundHalfEven (a * 2 ^ (-(fmt.ulpExp a b)).toNat) (b * 2 ^ (fmt.ulpExp a b).toNat)
          * 2 ^ (fmt.ulpExp a b).toNat, 2 ^ (-(fmt.ulpExp a b)).toNat) := by
  unfold FloatFormat.roundMag
  rw [if_neg (by omega)]

theorem roundMag_den_pos (fmt : FloatFormat) (a b : Nat) : 0 < (fmt.roundMag a b).2 := by
  unfold FloatFormat.roundMag
  split
  · decide
  · exact pow_toNat_pos _

theorem le_roundMag (fmt : FloatFormat) (a b : Nat) (ha : 0 < a) (hb : 0 < b)
    (hp : 1 ≤ fmt.prec) (j : Int) (hj : fmt.emin - ((fmt.prec : Int) - 1) ≤ j)
    (h : (2 : ℚ) ^ j ≤ (a : ℚ) / b) :
    (2 : ℚ) ^ j ≤ ((fmt.roundMag a b).1 : ℚ) / ((fmt.roundMag a b).2 : ℚ) := by
  rw [roundMag_pos_eq fmt a b ha]
  have hxdef : fmt.ulpExp a b = max (fracLog2 a b) fmt.emin - ((fmt.prec : Int) - 1) := rfl
  have hlog := fracLog2_le a b ha hb
  generalize fmt.ulpExp a b = x at hxdef
  have hP := pow_toNat_pos x
  have hN := pow_toNat_pos (-x)
  have hPN := pow_toNat_div x
  simp only
  rw [Nat.cast_mul, mul_div_assoc, hPN]
  by_cases hxj : x ≤ j
  · have hM := natCast_pow_toNat (j - x) (by omega)
    have hsplit : (2 : ℚ) ^ j = (2 : ℚ) ^ (j - x) * (2 : ℚ) ^ x := by
      rw [← zpow_add₀ (by norm_num)]
      congr 1
      ring
    have hn : 2 ^ (j - x).toNat ≤ divRoundHalfEven (a * 2 ^ (-x).toNat) (b * 2 ^ x.toNat) := by
      apply le_divRoundHalfEven _ _ _ (Nat.mul_pos hb hP)
      apply scaled_ge_of_ratio_ge a b _ _ _ hb hN
      rw [hM, hPN, ← hsplit]
      exact h
    have hnq : (2 : ℚ) ^ (j - x)
        ≤ ((divRoundHalfEven (a * 2 ^ (-x).toNat) (b * 2 ^ x.toNat) : Nat) : ℚ) := by
      rw [← hM]
      exact_mod_cast hn
    rw [hsplit]
    exact mul_le_mul_of_nonneg_right hnq (by positivity)
  · have hmax : max (fracLog2 a b) fmt.emin = fracLog2 a b := by
      apply max_eq_left
      by_contra hlt
      have : max (fracLog2 a b) fmt.emin = fmt.emin := max_eq_right (by omega)
      omega
    have he : fracLog2 a b = x + ((fmt.prec : Int) - 1) := by omega
    have hpm : ((fmt.prec : Int) - 1) = ((fmt.prec - 1 : Nat) : Int) := by omega
    have hsplit : (2 : ℚ) ^ fracLog2 a b
        = ((2 ^ (fmt.prec - 1) : Nat) : ℚ) * (2 : ℚ) ^ x := by
      rw [he, hpm, zpow_add₀ (by norm_num), zpow_natCast]
      push_cast
      ring
    have hn : 2 ^ (fmt.prec - 1) ≤ divRoundHalfEven (a * 2 ^ (-x).toNat) (b * 2 ^ x.toNat) := by
      apply le_divRoundHalfEven _ _ _ (Nat.mul_pos hb hP)
      apply scaled_ge_of_ratio_ge a b _ _ _ hb hN
      rw [hPN, ← hsplit]
      exact hlog
    have hnq : ((2 ^ (fmt.prec - 1) : Nat) : ℚ)
        ≤ ((divRoundHalfEven (a * 2 ^ (-x).toNat) (b * 2 ^ x.toNat) : Nat) : ℚ) := by
      exact_mod_cast hn
    have hjx : (2 : ℚ) ^ j ≤ (2 : ℚ) ^ fracLog2 a b := by
      apply zpow_le_zpow_right₀ (by norm_num)
      omega
    calc (2 : ℚ) ^ j ≤ (2 : ℚ) ^ fracLog2 a b := hjx
      _ = ((2 ^ (fmt.prec - 1) : Nat) : ℚ) * (2 : ℚ) ^ x := hsplit
      _ ≤ _ := mul_le_mul_of_nonneg_right hnq (by positivity)

/-- A quotient below `N + 1/2` is rounded to at most `N`. -/
theorem divRoundHalfEven_le_of_lt_half (A B N : Nat) (hB : 0 < B)
    (h : 2 * A < (2 * N + 1) * B) : divRoundHalfEven A B ≤ N := by
  have hdm := Nat.div_add_mod A B
  have hr := Nat.mod_lt A hB
  have hc : B * (A / B) = A / B * B := Nat.mul_comm _ _
  have he : (2 * N + 1) * B = 2 * (N * B) + B := by ring
  have hq : A / B ≤ N := by
    by_contra hgt
    have h1 : (N + 1) * B ≤ A / B * B := Nat.mul_le_mul_right B (by omega)
    have h2 : (N + 1) * B = N * B + B := Nat.succ_mul _ _
    omega
  have hlt : ¬ 2 * (A % B) < B → A / B < N := by
    intro hnot
    by_contra hge
    have h1 : N * B ≤ A / B * B := Nat.mul_le_mul_right B (by omega)
    omega
  unfold divRoundHalfEven
  simp only
  split
  · exact hq
  · rename_i h1
    split
    · exact hlt h1
    · split
      · exact hq
      · exact hlt h1

/-- Rounding a positive fraction keeps it at or below every representable value `M * 2^y` that
it does not exceed. -/
theorem roundMag_le_repr (fmt : FloatFormat) (a b : Nat) (ha : 0 < a) (hb : 0 < b)
    (M : Nat) (y : Int) (hM : M < 2 ^ fmt.prec)
    (hy : fmt.emin - ((fmt.prec : Int) - 1) ≤ y) (h : (a : ℚ) / b ≤ (M : ℚ) * (2 : ℚ) ^ y) :
    ((fmt.roundMag a b).1 : ℚ) / ((fmt.roundMag a b).2 : ℚ) ≤ (M : ℚ) * (2 : ℚ) ^ y := by
  rw [roundMag_pos_eq fmt a b ha]
  have hxdef : fmt.ulpExp a b = max (fracLog2 a b) fmt.emin - ((fmt.prec : Int) - 1) := rfl
  have hlog := fracLog2_le a b ha hb
  have hx : fmt.ulpExp a b ≤ y := by
    by_contra hlt
    have hmax : max (fracLog2 a b) fmt.emin = fracLog2 a b := by
      apply max_eq_left
      by_contra hcon
      have : max (fracLog2 a b) fmt.emin = fmt.emin := max_eq_right (by omega)
      omega
    have hMq : (M : ℚ) < (2 : ℚ) ^ ((fmt.prec : Nat) : Int) := by
      rw [zpow_natCast]
      exact_mod_cast hM
    have h1 : (M : ℚ) * (2 : ℚ) ^ y < (2 : ℚ) ^ ((fmt.prec : Int) + y) := by
      rw [zpow_add₀ (by norm_num)]
      exact mul_lt_mul_of_pos_right hMq (by positivity)
    have h2 : (2 : ℚ) ^ ((fmt.prec : Int) + y) ≤ (2 : ℚ) ^ fracLog2 a b :=
      zpow_le_zpow_right₀ (by norm_num) (by omega)
    linarith
  generalize fmt.ulpExp a b = x at hx hxdef
  have hP := pow_toNat_pos x
  have hN := pow_toNat_pos (-x)
  have hPN := pow_toNat_div x
  have hN' := natCast_pow_toNat (y - x) (by omega)
  have hsplit : (2 : ℚ) ^ y = (2 : ℚ) ^ (y - x) * (2 : ℚ) ^ x := by
    rw [← zpow_add₀ (by norm_num)]
    congr 1
    ring
  have hn : divRoundHalfEven (a * 2 ^ (-x).toNat) (b * 2 ^ x.toNat)
      ≤ M * 2 ^ (y - x).toNat := by
    apply divRoundHalfEven_le _ _ _ (Nat.mul_pos hb hP)
    apply scaled_le_of_ratio_le a b _ _ _ hb hN
    rw [Nat.cast_mul, hN', hPN, mul_assoc, ← hsplit]
    exact h
  have hnq : ((divRoundHalfEven (a * 2 ^ (-x).toNat) (b * 2 ^ x.toNat) : Nat) : ℚ)
      ≤ (M : ℚ) * (2 : ℚ) ^ (y - x) := by
    rw [← hN', ← Nat.cast_mul]
    exact_mod_cast hn
  simp only
  rw [Nat.cast_mul, mul_div_assoc, hPN, hsplit, ← mul_assoc]
  exact mul_le_mul_of_nonneg_right hnq (by positivity)

theorem roundMag_zero (fmt : FloatFormat) (b : Nat) : fmt.roundMag 0 b = (0, 1) := by
  unfold FloatFormat.roundMag
  rw [if_pos rfl]

/-- Rounding a non-negative fraction whose rounded magnitude stays below `2^(emax + 1)` yields
that magnitude. -/
theorem round_eq_some (fmt : FloatFormat) (n d : Nat) (hemax : 0 ≤ fmt.emax + 1) (U : ℚ)
    (hU : U < (2 : ℚ) ^ (fmt.emax + 1))
    (hle : ((fmt.roundMag n d).1 : ℚ) / ((fmt.roundMag n d).2 : ℚ) ≤ U) :
    fmt.round (n : Int) d
      = some { num := ((fmt.roundMag n d).1 : Int), den := (fmt.roundMag n d).2 } := by
  have hdpos := roundMag_den_pos fmt n d
  have hdq : (0 : ℚ) < ((fmt.roundMag n d).2 : ℚ) := by exact_mod_cast hdpos
  have hnum : ((n : Int).sign * ((fmt.roundMag n d).1 : Int))
      = ((fmt.roundMag n d).1 : Int) := by
    rcases Nat.eq_zero_or_pos n with h0 | hpos
    · subst h0
      rw [roundMag_zero]
      simp
    · have : (n : Int).sign = 1 := Int.sign_eq_one_of_pos (by exact_mod_cast hpos)
      rw [this, one_mul]
  have hno : ¬ (2 ^ (fmt.emax + 1).toNat * (fmt.roundMag n d).2 ≤ (fmt.roundMag n d).1) := by
    intro hov
    have hovq : ((2 ^ (fmt.emax + 1).toNat : Nat) : ℚ) * ((fmt.roundMag n d).2 : ℚ)
        ≤ ((fmt.roundMag n d).1 : ℚ) := by exact_mod_cast hov
    rw [natCast_pow_toNat _ hemax, ← le_div_iff₀ hdq] at hovq
    linarith
  unfold FloatFormat.round
  simp only [Int.natAbs_ofNat]
  rw [if_neg hno, hnum]

/-- Rounding a non-negative fraction that is at most a representable value `M * 2^y` of the
format: the result is finite, non-negative and at most `M * 2^y`, and it is at least every power
of two of the format that the fraction is at least. -/
theorem round_of_nonneg (fmt : FloatFormat) (n d : Nat) (hd : 0 < d) (hp : 1 ≤ fmt.prec)
    (hemax : 0 ≤ fmt.emax + 1) (M : Nat) (y : Int) (hM : M < 2 ^ fmt.prec)
    (hy : fmt.emin - ((fmt.prec : Int) - 1) ≤ y)
    (hfin : (M : ℚ) * (2 : ℚ) ^ y < (2 : ℚ) ^ (fmt.emax + 1))
    (h : (n : ℚ) / d ≤ (M : ℚ) * (2 : ℚ) ^ y) :
    ∃ v : Fraction, fmt.round (n : Int) d = some v ∧ 0 ≤ v.num ∧ 0 < v.den
      ∧ v.toRat ≤ (M : ℚ) * (2 : ℚ) ^ y
      ∧ ∀ j : Int, fmt.emin - ((fmt.prec : Int) - 1) ≤ j → (2 : ℚ) ^ j ≤ (n : ℚ) / d →
          (2 : ℚ) ^ j ≤ v.toRat := by
  have hdpos := roundMag_den_pos fmt n d
  have hle : ((fmt.roundMag n d).1 : ℚ) / ((fmt.roundMag n d).2 : ℚ)
      ≤ (M : ℚ) * (2 : ℚ) ^ y := by
    rcases Nat.eq_zero_or_pos n with h0 | hpos
    · subst h0
      rw [roundMag_zero]
      simp only [Nat.cast_zero, zero_div]
      positivity
    · exact roundMag_le_repr fmt n d hpos hd M y hM hy h
  refine ⟨{ num := ((fmt.roundMag n d).1 : Int), den := (fmt.roundMag n d).2 },
    round_eq_some fmt n d hemax _ hfin hle, Int.ofNat_nonneg _, hdpos, ?_, ?_⟩
  · simp only [Fraction.toRat, Int.cast_natCast]
    exact hle
  · intro j hj hjle
    have hpos : 0 < n := by
      rcases Nat.eq_zero_or_pos n with h0 | hpos
      · subst h0
        simp only [Nat.cast_zero, zero_div] at hjle
        have : (0 : ℚ) < (2 : ℚ) ^ j := by positivity
        linarith
      · exact hpos
    have := le_roundMag fmt n d hpos hd hp j hj hjle
    simp only [Fraction.toRat, Int.cast_natCast]
    exact this

theorem Fraction.num_pos_of_toRat_pos (v : Fraction) (hd : 0 < v.den) (h : 0 < v.toRat) :
    0 < v.num := by
  unfold Fraction.toRat at h
  have hdq : (0 : ℚ) < (v.den : ℚ) := by exact_mod_cast hd
  have : (0 : ℚ) < (v.num : ℚ) := by
    by_contra hneg
    have hle : (v.num : ℚ) ≤ 0 := not_lt.mp hneg
    have := div_nonpos_of_nonpos_of_nonneg hle hdq.le
    linarith
  exact_mod_cast this

theorem toRat_of_toNat (v : Fraction) (h : 0 ≤ v.num) :
    ((v.num.toNat : Nat) : ℚ) / (v.den : ℚ) = v.toRat := by
  unfold Fraction.toRat
  have : ((v.num.toNat : Nat) : Int) = v.num := Int.toNat_of_nonneg h
  have h2 : ((v.num.toNat : Nat) : ℚ) = (v.num : ℚ) := by
    rw [← Int.cast_natCast, this]
  rw [h2]

/-- The roundings of a configured ratio in `[0, 1]` to `double` and then to `float`: both are
defined, the `float` lies in `[0, 1]`, and it is positive when the ratio is at least
`2^(-149)`. -/
theorem roundRatio_spec (num den : Nat) (hden : 0 < den) (hle : num ≤ den) :
    ∃ d w : Fraction, binary64.round (num : Int) den = some d ∧ 0 ≤ d.num
      ∧ binary32.round d.num d.den = some w ∧ 0 ≤ w.num ∧ 0 < w.den
      ∧ w.toRat ≤ 1 ∧ (den ≤ 2 ^ 149 * num → 0 < w.num) := by
  have hdq : (0 : ℚ) < (den : ℚ) := by exact_mod_cast hden
  have h1 : (num : ℚ) / den ≤ ((1 : Nat) : ℚ) * (2 : ℚ) ^ (0 : Int) := by
    rw [zpow_zero, Nat.cast_one, one_mul, div_le_one hdq]
    exact_mod_cast hle
  obtain ⟨d, hd, hd0, hdd, hd1, hdlow⟩ :=
    round_of_nonneg binary64 num den hden (by decide) (by decide) 1 0 (by decide) (by decide)
      (by norm_num [binary64]) h1
  have hdnum : ((d.num.toNat : Nat) : Int) = d.num := Int.toNat_of_nonneg hd0
  have h2 : ((d.num.toNat : Nat) : ℚ) / (d.den : ℚ)
      ≤ ((1 : Nat) : ℚ) * (2 : ℚ) ^ (0 : Int) := by
    rw [toRat_of_toNat d hd0]
    exact hd1
  obtain ⟨w, hw, hw0, hwd, hw1, hwlow⟩ :=
    round_of_nonneg binary32 d.num.toNat d.den hdd (by decide) (by decide) 1 0 (by decide)
      (by decide) (by norm_num [binary32]) h2
  rw [hdnum] at hw
  refine ⟨d, w, hd, hd0, hw, hw0, hwd, by simpa using hw1, ?_⟩
  intro hbig
  have hbq : (2 : ℚ) ^ (-149 : Int) ≤ (num : ℚ) / den := by
    have hb : (den : ℚ) ≤ (2 : ℚ) ^ 149 * num := by exact_mod_cast hbig
    have hz : (2 : ℚ) ^ (-149 : Int) = ((2 : ℚ) ^ 149)⁻¹ := by
      rw [zpow_neg, show (149 : Int) = ((149 : Nat) : Int) from rfl, zpow_natCast]
    rw [le_div_iff₀ hdq, hz, inv_mul_le_iff₀ (by positivity)]
    exact hb
  have hd149 := hdlow (-149) (by decide) hbq
  rw [← toRat_of_toNat d hd0] at hd149
  have hw149 := hwlow (-149) (by decide) hd149
  apply Fraction.num_pos_of_toRat_pos w hwd
  have : (0 : ℚ) < (2 : ℚ) ^ (-149 : Int) := by positivity
  linarith

/-- The outcome of `std::stod` in terms of the rounding to `double`. -/
theorem stod_of_round (num : Int) (den : Nat) (d : Fraction)
    (hd : binary64.round num den = some d) :
    stod num den
      = if num.natAbs * 2 ^ 1076 < (2 ^ 54 - 1) * den
            ∧ d.num.natAbs * den ≠ num.natAbs * d.den then .outOfRange
        else .value d := by
  unfold stod
  rw [hd]

/-- The conversion of `total_threads` to `float` for `0 ≤ total_threads ≤ 2147483583`: it is
defined and at most `2147483520 = 16777215 * 2^7`, the largest `float` below `2^31`. -/
theorem round_total_threads (total : Nat) (ht : total ≤ 2147483583) :
    ∃ t : Fraction, binary32.round (total : Int) 1 = some t ∧ 0 ≤ t.num ∧ 0 < t.den
      ∧ t.toRat ≤ ((16777215 : Nat) : ℚ) * (2 : ℚ) ^ (7 : Int) := by
  by_cases hsmall : total ≤ 2 ^ 30
  · have h1 : (total : ℚ) / ((1 : Nat) : ℚ)
        ≤ ((2 ^ 23 : Nat) : ℚ) * (2 : ℚ) ^ (7 : Int) := by
      rw [Nat.cast_one, div_one]
      have h30 : (total : ℚ) ≤ ((2 ^ 30 : Nat) : ℚ) := by exact_mod_cast hsmall
      have hz : ((2 ^ 23 : Nat) : ℚ) * (2 : ℚ) ^ (7 : Int) = ((2 ^ 30 : Nat) : ℚ) := by
        norm_num
      rw [hz]
      exact h30
    obtain ⟨t, ht', ht0, htd, ht1, -⟩ :=
      round_of_nonneg binary32 total 1 (by decide) (by decide) (by decide) (2 ^ 23) 7
        (by decide) (by decide) (by norm_num [binary32]) h1
    refine ⟨t, ht', ht0, htd, le_trans ht1 ?_⟩
    norm_num
  · have hpos : 0 < total := by
      have : 0 < 2 ^ 30 := by decide
      omega
    have hlo := fracLog2_le total 1 hpos (by decide)
    have hhi := fracLog2_lt total 1 hpos (by decide)
    rw [Nat.cast_one, div_one] at hlo hhi
    have hlt31 : (total : ℚ) < (2 : ℚ) ^ (31 : Int) := by
      have h31 : (total : ℚ) < ((2 ^ 31 : Nat) : ℚ) := by
        have : total < 2 ^ 31 := by
          have : (2147483583 : Nat) < 2 ^ 31 := by decide
          omega
        exact_mod_cast this
      have hz : (2 : ℚ) ^ (31 : Int) = ((2 ^ 31 : Nat) : ℚ) := by norm_num
      rw [hz]
      exact h31
    have hge30 : (2 : ℚ) ^ (30 : Int) < (total : ℚ) := by
      have h30 : ((2 ^ 30 : Nat) : ℚ) < (total : ℚ) := by
        exact_mod_cast Nat.lt_of_not_le hsmall
      have hz : (2 : ℚ) ^ (30 : Int) = ((2 ^ 30 : Nat) : ℚ) := by norm_num
      rw [hz]
      exact h30
    have he1 : fracLog2 total 1 < 31 :=
      (zpow_lt_zpow_iff_right₀ (by norm_num : (1 : ℚ) < 2)).mp (lt_of_le_of_lt hlo hlt31)
    have he2 : 30 < fracLog2 total 1 + 1 :=
      (zpow_lt_zpow_iff_right₀ (by norm_num : (1 : ℚ) < 2)).mp (lt_trans hge30 hhi)
    have he : fracLog2 total 1 = 30 := by omega
    have hx : binary32.ulpExp total 1 = 7 := by
      unfold FloatFormat.ulpExp
      rw [he]
      decide
    have hmag : binary32.roundMag total 1 = (divRoundHalfEven total 128 * 128, 1) := by
      rw [roundMag_pos_eq binary32 total 1 hpos, hx]
      simp
    have hn : divRoundHalfEven total 128 ≤ 16777215 :=
      divRoundHalfEven_le_of_lt_half total 128 16777215 (by decide) (by omega)
    have hle : ((binary32.roundMag total 1).1 : ℚ) / ((binary32.roundMag total 1).2 : ℚ)
        ≤ ((16777215 : Nat) : ℚ) * (2 : ℚ) ^ (7 : Int) := by
      rw [hmag]
      simp only [Nat.cast_mul, Nat.cast_one, div_one]
      have hnq : ((divRoundHalfEven total 128 : Nat) : ℚ) ≤ ((16777215 : Nat) : ℚ) := by
        exact_mod_cast hn
      have hz : (2 : ℚ) ^ (7 : Int) = ((128 : Nat) : ℚ) := by norm_num
      rw [hz]
      exact mul_le_mul_of_nonneg_right hnq (by positivity)
    refine ⟨_, round_eq_some binary32 total 1 (by decide) _ (by norm_num [binary32]) hle,
      Int.ofNat_nonneg _, roundMag_den_pos _ _ _, ?_⟩
    simp only [Fraction.toRat, Int.cast_natCast]
    exact hle

/-- The product `total_threads * write_ratio` for `0 ≤ total_threads ≤ 2147483583` and
`write_ratio` in `[0, 1]`: it is defined and lies in `[0, 2147483520]`. -/
theorem floatProduct_spec (total : Nat) (ht : total ≤ 2147483583) (w : Fraction)
    (hw0 : 0 ≤ w.num) (hwd : 0 < w.den) (hw1 : w.toRat ≤ 1) :
    ∃ p : Fraction, floatProduct (total : Int) w = some p ∧ 0 ≤ p.num ∧ 0 < p.den
      ∧ p.toRat ≤ ((16777215 : Nat) : ℚ) * (2 : ℚ) ^ (7 : Int) := by
  obtain ⟨t, ht', ht0, htd, ht1⟩ := round_total_threads total ht
  have hnum : (((t.num.toNat * w.num.toNat : Nat)) : Int) = t.num * w.num := by
    rw [Nat.cast_mul, Int.toNat_of_nonneg ht0, Int.toNat_of_nonneg hw0]
  have ht0q : (0 : ℚ) ≤ t.toRat := by
    unfold Fraction.toRat
    have : (0 : ℚ) ≤ (t.num : ℚ) := by exact_mod_cast ht0
    positivity
  have h2 : ((t.num.toNat * w.num.toNat : Nat) : ℚ) / ((t.den * w.den : Nat) : ℚ)
      ≤ ((16777215 : Nat) : ℚ) * (2 : ℚ) ^ (7 : Int) := by
    have hval : ((t.num.toNat * w.num.toNat : Nat) : ℚ) / ((t.den * w.den : Nat) : ℚ)
        = t.toRat * w.toRat := by
      rw [← toRat_of_toNat t ht0, ← toRat_of_toNat w hw0]
      push_cast
      rw [div_mul_div_comm]
    rw [hval]
    calc t.toRat * w.toRat ≤ t.toRat * 1 := mul_le_mul_of_nonneg_left hw1 ht0q
      _ = t.toRat := mul_one _
      _ ≤ _ := ht1
  obtain ⟨p, hp, hp0, hpd, hp1, -⟩ :=
    round_of_nonneg binary32 (t.num.toNat * w.num.toNat) (t.den * w.den) (Nat.mul_pos htd hwd)
      (by decide) (by decide) 16777215 7 (by decide) (by decide) (by norm_num [binary32]) h2
  rw [hnum] at hp
  refine ⟨p, ?_, hp0, hpd, hp1⟩
  unfold floatProduct
  rw [ht']
  exact hp

/-- The conversion to `int` of a value in `[0, 2147483520]` is defined and lies in
`[0, 2147483520]`. -/
theorem truncToInt_spec (p : Fraction) (hp0 : 0 ≤ p.num) (hpd : 0 < p.den)
    (hp1 : p.toRat ≤ ((16777215 : Nat) : ℚ) * (2 : ℚ) ^ (7 : Int)) :
    ∃ n : Int, truncToInt p = some n ∧ 0 ≤ n ∧ n ≤ 2147483520 := by
  obtain ⟨m, hm⟩ := Int.eq_ofNat_of_zero_le hp0
  have hpq : (0 : ℚ) < (p.den : ℚ) := by exact_mod_cast hpd
  have hle : m ≤ p.den * 2147483520 := by
    unfold Fraction.toRat at hp1
    rw [hm, div_le_iff₀ hpq] at hp1
    have h2 : (m : ℚ) ≤ ((p.den * 2147483520 : Nat) : ℚ) := by
      push_cast
      have h3 : ((m : Int) : ℚ) = (m : ℚ) := by simp
      rw [h3] at hp1
      have h4 : ((16777215 : Nat) : ℚ) * (2 : ℚ) ^ (7 : Int) = 2147483520 := by norm_num
      rw [h4] at hp1
      linarith
    exact_mod_cast h2
  have hdiv : m / p.den ≤ 2147483520 := Nat.div_le_of_le_mul hle
  have hsign : (m : Int).sign = 0 ∨ (m : Int).sign = 1 := by
    rcases Nat.eq_zero_or_pos m with h0 | hpos
    · left; subst h0; rfl
    · right; exact Int.sign_eq_one_of_pos (by exact_mod_cast hpos)
  have hq0 : (0 : Int) ≤ ((m / p.den : Nat) : Int) := Int.ofNat_nonneg _
  have hd' : ((m / p.den : Nat) : Int) ≤ 2147483520 := by exact_mod_cast hdiv
  have hn0 : 0 ≤ (m : Int).sign * ((m / p.den : Nat) : Int) := by
    rcases hsign with h | h <;> rw [h] <;> omega
  have hn1 : (m : Int).sign * ((m / p.den : Nat) : Int) ≤ 2147483520 := by
    rcases hsign with h | h <;> rw [h] <;> omega
  refine ⟨(m : Int).sign * ((m / p.den : Nat) : Int), ?_, hn0, hn1⟩
  unfold truncToInt
  simp only [hm, Int.natAbs_ofNat]
  rw [if_neg]
  omega

/-- C7 (counterexample): with `total_threads = 100` and ratio `0.53` the derivation gives 52
writers and 48 readers, while `floor (100 * 0.53) = 53`; with `total_threads = 1` and the
positive ratio `2^(-151)` it gives no writer; and with `total_threads = 2147483584` and ratio `1`
the product is `2^31`, whose conversion to `int` is not defined. -/
theorem derive_workers_differs_from_floor :
    deriveWorkers 100 53 100 = some (52, 48)
    ∧ ⌊(100 : ℚ) * ((53 : ℚ) / 100)⌋ = 53
    ∧ deriveWorkers 1 1 (2 ^ 151) = some (0, 1)
    ∧ (0 : ℚ) < 1 / 2 ^ 151
    ∧ deriveWorkers 2147483584 1 1 = none := by
  refine ⟨by decide, ?_, by decide, by positivity, by decide⟩
  norm_num

/-- C7 (amended): for `0 ≤ total_threads ≤ 2147483583` and a configured ratio `num / den` in
`[0, 1]`, one of two things happens.  Either `std::stod` throws `std::out_of_range`, which it
does only for a positive ratio below `2^(-1022) - 2^(-1076)` that is not a `double`; then no
worker count is derived and `main` stops there.  Or `std::stod` returns the `double` `d`
nearest to the ratio and the derivation in `main` is defined: with `w` the `float` nearest to
`d`, `p` the single-precision product of `total_threads` and `w`, and `n` the integer part of
`p`, `num_writers` is `n`, forced to `1` when `w > 0`, `n = 0` and `total_threads > 0`, and
`num_readers = total_threads - num_writers`; hence the two add up to `total_threads`,
`num_writers ≥ 0`, and `num_writers ≥ 1` whenever `total_threads > 0` and `w > 0`, which is
the case for every ratio of at least `2^(-149)`. -/
theorem derive_workers_of_valid_configuration (total_threads : Int) (num den : Nat)
    (ht0 : 0 ≤ total_threads) (ht : total_threads ≤ 2147483583) (hden : 0 < den)
    (hle : num ≤ den) :
    (stod (num : Int) den = .outOfRange
      ∧ 0 < num ∧ num * 2 ^ 1076 < (2 ^ 54 - 1) * den
      ∧ (∀ d : Fraction, binary64.round (num : Int) den = some d →
          d.num.natAbs * den ≠ num * d.den)
      ∧ deriveWorkers total_threads (num : Int) den = none
      ∧ ∀ ops_per_thread : Int,
          mainTasks ops_per_thread total_threads (num : Int) den = some .outOfRange)
    ∨ ∃ (d w p : Fraction) (n : Int),
      stod (num : Int) den = .value d
      ∧ binary64.round (num : Int) den = some d
      ∧ writeRatio (num : Int) den = some w
      ∧ binary32.round d.num d.den = some w
      ∧ floatProduct total_threads w = some p
      ∧ truncToInt p = some n
      ∧ deriveWorkers total_threads (num : Int) den
          = some (if 0 < w.num ∧ n = 0 ∧ 0 < total_threads then 1 else n,
                  total_threads - (if 0 < w.num ∧ n = 0 ∧ 0 < total_threads then 1 else n))
      ∧ (den ≤ 2 ^ 149 * num → 0 < w.num)
      ∧ ∀ num_writers num_readers : Int,
          deriveWorkers total_threads (num : Int) den = some (num_writers, num_readers) →
            num_readers = total_threads - num_writers
            ∧ num_writers + num_readers = total_threads
            ∧ 0 ≤ num_writers
            ∧ (0 < w.num → 0 < total_threads → 1 ≤ num_writers) := by
  obtain ⟨T, rfl⟩ := Int.eq_ofNat_of_zero_le ht0
  have hT : T ≤ 2147483583 := by exact_mod_cast ht
  obtain ⟨d, w, hd, hd0, hw, hw0, hwd, hw1, hwpos⟩ := roundRatio_spec num den hden hle
  have hstod := stod_of_round (num : Int) den d hd
  simp only [Int.natAbs_ofNat] at hstod
  by_cases hc : num * 2 ^ 1076 < (2 ^ 54 - 1) * den ∧ d.num.natAbs * den ≠ num * d.den
  · left
    rw [if_pos hc] at hstod
    have hwr : writeRatio (num : Int) den = none := by
      unfold writeRatio
      rw [hstod]
    refine ⟨hstod, ?_, hc.1, ?_, ?_, ?_⟩
    · rcases Nat.eq_zero_or_pos num with h0 | hpos
      · exfalso
        subst h0
        have hz : binary64.round ((0 : Nat) : Int) den = some { num := 0, den := 1 } := by
          unfold FloatFormat.round
          simp only [Int.natAbs_ofNat, roundMag_zero]
          rw [if_neg (by decide)]
          rfl
        rw [hz] at hd
        simp only [Option.some.injEq] at hd
        subst hd
        exact hc.2 (by simp)
      · exact hpos
    · intro d' hd'
      rw [hd] at hd'
      simp only [Option.some.injEq] at hd'
      subst hd'
      exact hc.2
    · unfold deriveWorkers
      rw [hwr]
    · intro ops
      unfold mainTasks
      rw [hstod]
  · right
    rw [if_neg hc] at hstod
    have hwr : writeRatio (num : Int) den = some w := by
      unfold writeRatio
      rw [hstod]
      exact hw
    obtain ⟨p, hp, hp0, hpd, hp1⟩ := floatProduct_spec T hT w hw0 hwd hw1
    obtain ⟨n, hn, hn0, hn1⟩ := truncToInt_spec p hp0 hpd hp1
    have hderive : deriveWorkers (T : Int) (num : Int) den
        = some (if 0 < w.num ∧ n = 0 ∧ 0 < (T : Int) then 1 else n,
                (T : Int) - (if 0 < w.num ∧ n = 0 ∧ 0 < (T : Int) then 1 else n)) := by
      unfold deriveWorkers
      simp only [hwr, hp, hn]
      rw [if_neg]
      split <;> omega
    refine ⟨d, w, p, n, hstod, hd, hwr, hw, hp, hn, hderive, hwpos, ?_⟩
    intro nw nr hres
    rw [hderive] at hres
    simp only [Option.some.injEq, Prod.mk.injEq] at hres
    obtain ⟨h1, h2⟩ := hres
    subst h1
    refine ⟨?_, ?_, ?_, ?_⟩
    · omega
    · omega
    · split <;> omega
    · intro hwp htp
      by_cases hz : n = 0
      · rw [if_pos ⟨hwp, hz, htp⟩]
      · rw [if_neg (fun h => hz h.2.1)]
        omega

/-- C7 (witness): `total_threads = 5` and ratio `0.8` give 4 writers and 1 reader; with the ratio
`10^(-320)`, which is inside `[0, 1]`, `std::stod` throws. -/
theorem derive_workers_of_valid_configuration_witness :
    (0 : Int) ≤ 5 ∧ (5 : Int) ≤ 2147483583 ∧ 0 < 10 ∧ 8 ≤ 10
    ∧ deriveWorkers 5 ((8 : Nat) : Int) 10 = some (4, 1)
    ∧ (4 : Int) + 1 = 5 ∧ (1 : Int) ≤ 4
    ∧ stod 1 (10 ^ 320) = .outOfRange
    ∧ mainTasks 10 5 1 (10 ^ 320) = some .outOfRange := by
  have hval : deriveWorkers 5 ((8 : Nat) : Int) 10 = some (4, 1) := by decide
  rcases derive_workers_of_valid_configuration 5 8 10 (by decide) (by decide) (by decide)
    (by decide) with ⟨-, -, -, -, hnone, -⟩ | ⟨d, w, p, n, -, -, -, -, -, -, -, -, hall⟩
  · rw [hval] at hnone
    exact absurd hnone (by simp)
  · have h := hall 4 1 hval
    exact ⟨by decide, by decide, by decide, by decide, hval, h.2.1, by decide, by decide,
      by decide⟩

end WorkerDerivation
/-! ## Decimal digits and writer payloads -/

theorem digitChar_value (d : Nat) (h : d < 10) : (Nat.digitChar d).toNat - 48 = d := by
  revert d
  decide

theorem parse_toDigitsCore (fuel n : Nat) (ds : List Char) (hf : n < fuel) :
    (Nat.toDigitsCore 10 fuel n ds).foldl (fun acc c => 10 * acc + (c.toNat - 48)) 0
      = ds.foldl (fun acc c => 10 * acc + (c.toNat - 48)) n := by
  induction fuel generalizing n ds with
  | zero => omega
  | succ fuel ih =>
    have hd := digitChar_value (n % 10) (Nat.mod_lt _ (by decide))
    simp only [Nat.toDigitsCore]
    split
    · rename_i h0
      simp only [List.foldl_cons, hd]
      congr 1
      omega
    · rename_i h0
      rw [ih (n / 10) _ (by omega)]
      simp only [List.foldl_cons, hd]
      congr 1
      omega

/-- Reading back the decimal digits of a number gives the number. -/
theorem parseDecimal_showUInt (n : Nat) : parseDecimal (showUInt n).data = n := by
  rw [showUInt_data]
  unfold parseDecimal Nat.toDigits
  rw [parse_toDigitsCore (n + 1) n [] (Nat.lt_succ_self n)]
  rfl

theorem showUInt_injective (m n : Nat) (h : showUInt m = showUInt n) : m = n := by
  rw [← parseDecimal_showUInt m, ← parseDecimal_showUInt n, h]

/-- Leading zeros do not change the number read. -/
theorem parseDecimal_zeros (k : Nat) (cs : List Char) :
    parseDecimal (List.replicate k '0' ++ cs) = parseDecimal cs := by
  unfold parseDecimal
  rw [List.foldl_append]
  congr 1
  induction k with
  | zero => rfl
  | succ k ih =>
    rw [List.replicate_succ, List.foldl_cons]
    exact ih

theorem insertPadded_data (width : Nat) (fill : Char) (text : String) :
    (insertPadded width fill text).data
      = List.replicate (width - text.length) fill ++ text.data := by
  simp [insertPadded, String.data_append]

theorem insertPadded_length (width : Nat) (fill : Char) (text : String) :
    (insertPadded width fill text).length = max width text.length := by
  show (insertPadded width fill text).data.length = max width text.data.length
  rw [insertPadded_data, List.length_append, List.length_replicate]
  show width - text.data.length + text.data.length = max width text.data.length
  omega

theorem parseDecimal_insertPadded (width n : Nat) :
    parseDecimal (insertPadded width '0' (showUInt n)).data = n := by
  rw [insertPadded_data, parseDecimal_zeros, parseDecimal_showUInt]

theorem insertPadded_isDigit (width n : Nat) :
    ∀ c ∈ (insertPadded width '0' (showUInt n)).data, c.isDigit = true := by
  intro c hc
  rw [insertPadded_data] at hc
  rcases List.mem_append.mp hc with h | h
  · rw [List.eq_of_mem_replicate h]
    decide
  · exact showUInt_isDigit n c h

theorem writerPayload_data (t i : Nat) :
    (writerPayload (t : Int) (i : Int)).data
      = (insertPadded 2 '0' (showUInt t)).data
          ++ '_' :: (insertPadded 5 '0' (showUInt i)).data := by
  show (insertPadded 2 '0' (showUInt t) ++ "_" ++ insertPadded 5 '0' (showUInt i)).data = _
  simp [String.data_append]

/-- Two lists that agree after being cut at the first occurrence of a separator agree on both
sides of it. -/
theorem eq_of_append_sep_eq (c : Char) (a₁ a₂ b₁ b₂ : List Char) (h₁ : c ∉ a₁) (h₂ : c ∉ a₂)
    (h : a₁ ++ c :: b₁ = a₂ ++ c :: b₂) : a₁ = a₂ ∧ b₁ = b₂ := by
  induction a₁ generalizing a₂ with
  | nil =>
    cases a₂ with
    | nil => simpa using h
    | cons x xs =>
      simp only [List.nil_append, List.cons_append, List.cons.injEq] at h
      exact absurd (h.1 ▸ List.mem_cons_self _ _) h₂
  | cons y ys ih =>
    cases a₂ with
    | nil =>
      simp only [List.nil_append, List.cons_append, List.cons.injEq] at h
      exact absurd (h.1 ▸ List.mem_cons_self _ _) h₁
    | cons x xs =>
      simp only [List.cons_append, List.cons.injEq] at h
      obtain ⟨hxy, hrest⟩ := h
      have := ih xs (fun hm => h₁ (List.mem_cons_of_mem _ hm))
        (fun hm => h₂ (List.mem_cons_of_mem _ hm)) hrest
      exact ⟨by rw [hxy, this.1], this.2⟩

theorem showUInt_length_le (n e : Nat) (he : 0 < e) (h : n < 10 ^ e) :
    (showUInt n).length ≤ e :=
  Nat.repr_length n e he h

theorem showUInt_length_pos (n : Nat) : 0 < (showUInt n).length := by
  show 0 < (showUInt n).data.length
  exact List.length_pos.mpr (showUInt_ne_nil n)

/-- C11: for a task id `t ≥ 0` and an operation index `i ≥ 0`, the payload built by
`WriterThread` is the decimal of `t` preceded by zeros up to two characters, then `_`, then the
decimal of `i` preceded by zeros up to five characters; for `t < 100` and `i < 100000` it is
eight characters long. -/
theorem writer_payload_format (t i : Nat) :
    writerPayload (t : Int) (i : Int)
        = String.mk (List.replicate (2 - (showUInt t).length) '0') ++ showUInt t ++ "_"
            ++ (String.mk (List.replicate (5 - (showUInt i).length) '0') ++ showUInt i)
    ∧ (String.mk (List.replicate (2 - (showUInt t).length) '0') ++ showUInt t).length
        = max 2 (showUInt t).length
    ∧ (String.mk (List.replicate (5 - (showUInt i).length) '0') ++ showUInt i).length
        = max 5 (showUInt i).length
    ∧ (t < 100 → i < 100000 → (writerPayload (t : Int) (i : Int)).length = 8) := by
  refine ⟨rfl, insertPadded_length 2 '0' (showUInt t), insertPadded_length 5 '0' (showUInt i),
    fun ht hi => ?_⟩
  have h1 := showUInt_length_le t 2 (by decide) (by omega)
  have h2 := showUInt_length_le i 5 (by decide) (by omega)
  have h3 := insertPadded_length 2 '0' (showUInt t)
  have h4 := insertPadded_length 5 '0' (showUInt i)
  show (insertPadded 2 '0' (showUInt t) ++ "_" ++ insertPadded 5 '0' (showUInt i)).length = 8
  rw [String.length_append, String.length_append, h3, h4]
  have h5 : "_".length = 1 := rfl
  omega

/-- C11 (witness): task `0`, operation index `2` gives `00_00002`, of length eight. -/
theorem writer_payload_format_witness :
    writerPayload 0 2 = "00_00002" ∧ (writerPayload 0 2).length = 8 :=
  ⟨by decide, (writer_payload_format 0 2).2.2.2 (by decide) (by decide)⟩

/-- C12: for non-negative task ids and operation indices, equal payloads come from equal task
ids and equal operation indices, also beyond the padded widths. -/
theorem writer_payload_injective (t₁ i₁ t₂ i₂ : Int) (ht₁ : 0 ≤ t₁) (hi₁ : 0 ≤ i₁)
    (ht₂ : 0 ≤ t₂) (hi₂ : 0 ≤ i₂) (h : writerPayload t₁ i₁ = writerPayload t₂ i₂) :
    t₁ = t₂ ∧ i₁ = i₂ := by
  obtain ⟨a₁, rfl⟩ := Int.eq_ofNat_of_zero_le ht₁
  obtain ⟨b₁, rfl⟩ := Int.eq_ofNat_of_zero_le hi₁
  obtain ⟨a₂, rfl⟩ := Int.eq_ofNat_of_zero_le ht₂
  obtain ⟨b₂, rfl⟩ := Int.eq_ofNat_of_zero_le hi₂
  have hd := congrArg String.data h
  rw [writerPayload_data, writerPayload_data] at hd
  have hsep : ∀ n : Nat, '_' ∉ (insertPadded 2 '0' (showUInt n)).data :=
    fun n hm => absurd (insertPadded_isDigit 2 n _ hm) (by decide)
  obtain ⟨hA, hB⟩ := eq_of_append_sep_eq '_' _ _ _ _ (hsep a₁) (hsep a₂) hd
  have hta : a₁ = a₂ := by
    rw [← parseDecimal_insertPadded 2 a₁, ← parseDecimal_insertPadded 2 a₂, hA]
  have htb : b₁ = b₂ := by
    rw [← parseDecimal_insertPadded 5 b₁, ← parseDecimal_insertPadded 5 b₂, hB]
  exact ⟨by rw [hta], by rw [htb]⟩

/-- C12 (witness): task `123`, index `1234567`, beyond both padded widths. -/
theorem writer_payload_injective_witness :
    (0 : Int) ≤ 123 ∧ (0 : Int) ≤ 1234567
    ∧ writerPayload 123 1234567 = "123_1234567"
    ∧ ((123 : Int) = 123 ∧ (1234567 : Int) = 1234567) :=
  ⟨by decide, by decide, by decide,
    writer_payload_injective 123 1234567 123 1234567 (by decide) (by decide) (by decide)
      (by decide) rfl⟩

/-! ## The concurrent run: steps -/

/-- The four kinds of step a task can take, with their effect on the counter, the history and
the task. -/
theorem stepTask_cases (g : Nat) (rec : RecorderState) (t : TaskState) (reply : ClientReply)
    (g' : Nat) (rec' : RecorderState) (t' : TaskState)
    (h : stepTask g rec t reply = some (g', rec', t')) :
    (t.phase = .loopTest ∧ (t.i : Int) < t.num_ops ∧ g' = (g + 1) % 2 ^ 64 ∧ rec' = rec
        ∧ t' = { t with phase := .allocated g })
    ∨ (∃ req, t.phase = .allocated req ∧ g' = g
        ∧ rec'.global_history = rec.global_history ++ [t.invokeRecord req]
        ∧ t' = { t with phase := .invoked req })
    ∨ (∃ req sq d, t.phase = .invoked req ∧ g' = g ∧ rec' = rec
        ∧ t' = { t with phase := .returned req sq, data := d })
    ∨ (∃ req sq, t.phase = .returned req sq ∧ g' = g
        ∧ rec'.global_history = rec.global_history ++ [t.responseRecord req sq]
        ∧ t' = { t with i := t.i + 1, phase := .loopTest }) := by
  unfold stepTask at h
  split at h
  · rename_i hph
    split at h
    · rename_i hlt
      simp only [Option.some.injEq, Prod.mk.injEq, fetchAdd] at h
      obtain ⟨h1, h2, h3⟩ := h
      exact Or.inl ⟨hph, hlt, h1.symm, h2.symm, h3.symm⟩
    · exact absurd h (by simp)
  · rename_i req hph
    right; left
    refine ⟨req, hph, ?_⟩
    split at h <;> rename_i hk <;>
      simp only [Option.some.injEq, Prod.mk.injEq] at h <;>
      obtain ⟨h1, h2, h3⟩ := h <;>
      refine ⟨h1.symm, ?_, h3.symm⟩ <;>
      rw [← h2] <;>
      simp [RecordWriteInvoke, RecordReadInvoke, TaskState.invokeRecord, hk]
  · rename_i req hph
    right; right; left
    split at h <;> rename_i hk <;>
      simp only [Option.some.injEq, Prod.mk.injEq] at h <;>
      obtain ⟨h1, h2, h3⟩ := h
    · exact ⟨req, reply.seq_nums, t.data, hph, h1.symm, h2.symm, h3.symm⟩
    · exact ⟨req, [], reply.data, hph, h1.symm, h2.symm, h3.symm⟩
  · rename_i req sq hph
    right; right; right
    refine ⟨req, sq, hph, ?_⟩
    split at h <;> rename_i hk <;>
      simp only [Option.some.injEq, Prod.mk.injEq] at h <;>
      obtain ⟨h1, h2, h3⟩ := h <;>
      refine ⟨h1.symm, ?_, h3.symm⟩ <;>
      rw [← h2] <;>
      simp [RecordWriteResponse, RecordReadResponse, TaskState.responseRecord, hk]

theorem get?_split {α : Type} (l : List α) (k : Nat) (x y : α) (h : l.get? k = some x) :
    ∃ pre post, l = pre ++ x :: post ∧ l.set k y = pre ++ y :: post := by
  induction l generalizing k with
  | nil => simp at h
  | cons a l ih =>
    cases k with
    | zero =>
      simp only [List.get?_cons_zero, Option.some.injEq] at h
      subst h
      exact ⟨[], l, rfl, rfl⟩
    | succ k =>
      simp only [List.get?_cons_succ] at h
      obtain ⟨pre, post, h1, h2⟩ := ih k h
      refine ⟨a :: pre, post, ?_, ?_⟩
      · rw [h1]; rfl
      · rw [List.set_cons_succ, h2]; rfl

/-- A step of the program replaces one task by its successor under `stepTask` and appends the
client call that returns in the step, if any, to the calls. -/
theorem step_spec_calls (s s' : SystemState) (k : Nat) (reply : ClientReply)
    (h : step s k reply = some s') :
    ∃ pre t post t', s.tasks = pre ++ t :: post ∧ s'.tasks = pre ++ t' :: post
      ∧ stepTask s.global_req_id s.recorder t reply
          = some (s'.global_req_id, s'.recorder, t')
      ∧ s'.calls = s.calls ++ t.returningCall := by
  unfold step at h
  split at h
  · exact absurd h (by simp)
  · rename_i t ht
    split at h
    · exact absurd h (by simp)
    · rename_i g rec t' hst
      simp only [Option.some.injEq] at h
      obtain ⟨pre, post, h1, h2⟩ := get?_split s.tasks k t t' ht
      subst h
      exact ⟨pre, t, post, t', h1, h2, hst, rfl⟩

/-- A step of the program replaces one task by its successor under `stepTask`. -/
theorem step_spec (s s' : SystemState) (k : Nat) (reply : ClientReply)
    (h : step s k reply = some s') :
    ∃ pre t post t', s.tasks = pre ++ t :: post ∧ s'.tasks = pre ++ t' :: post
      ∧ stepTask s.global_req_id s.recorder t reply
          = some (s'.global_req_id, s'.recorder, t') := by
  obtain ⟨pre, t, post, t', h1, h2, h3, _⟩ := step_spec_calls s s' k reply h
  exact ⟨pre, t, post, t', h1, h2, h3⟩

/-- A property that holds at the start of a run and is kept by every step holds at its end. -/
theorem runSteps_induction (P : SystemState → Prop)
    (hstep : ∀ s k reply s', P s → step s k reply = some s' → P s')
    (acts : List (Nat × ClientReply)) (s s' : SystemState) (hs : P s)
    (hrun : runSteps s acts = some s') : P s' := by
  induction acts generalizing s with
  | nil =>
    simp only [runSteps, Option.some.injEq] at hrun
    exact hrun ▸ hs
  | cons a acts ih =>
    obtain ⟨k, reply⟩ := a
    simp only [runSteps] at hrun
    split at hrun
    · exact absurd hrun (by simp)
    · rename_i s₁ h₁
      exact ih s₁ (hstep s k reply s₁ hs h₁) hrun

/-! ## The concurrent run: request identifiers -/

theorem recordsOf_append (id : Nat) (h : List HistoryRecord) (r : HistoryRecord) :
    recordsOf id (h ++ [r]) = recordsOf id h ++ (if r.req_id = id then [r] else []) := by
  unfold recordsOf
  rw [List.filter_append]
  by_cases hr : r.req_id = id <;> simp [hr]

theorem recordsOf_append_ne (id : Nat) (h : List HistoryRecord) (r : HistoryRecord)
    (hne : r.req_id ≠ id) : recordsOf id (h ++ [r]) = recordsOf id h := by
  rw [recordsOf_append, if_neg hne, List.append_nil]

theorem recordsOf_append_eq (h : List HistoryRecord) (r : HistoryRecord) :
    recordsOf r.req_id (h ++ [r]) = recordsOf r.req_id h ++ [r] := by
  rw [recordsOf_append, if_pos rfl]

theorem recordsOf_eq_nil_of_below (id : Nat) (h : List HistoryRecord)
    (hb : ∀ r ∈ h, r.req_id < id) : recordsOf id h = [] := by
  unfold recordsOf
  rw [List.filter_eq_nil_iff]
  intro r hr
  have := hb r hr
  simp only [decide_eq_true_eq]
  omega

theorem pendingOps_split (pre post : List TaskState) (t : TaskState) :
    pendingOps (pre ++ t :: post) = pendingOps pre + t.pending + pendingOps post := by
  simp [pendingOps, List.sum_append, Nat.add_assoc]

theorem invokeRecord_fields (t : TaskState) (req : Nat) :
    (t.invokeRecord req).req_id = req ∧ (t.invokeRecord req).event_type = .INVOKE
      ∧ (t.invokeRecord req).thread_id = t.thread_id
      ∧ (t.invokeRecord req).op_type = t.kind.opType := by
  unfold TaskState.invokeRecord
  cases t.kind <;> exact ⟨rfl, rfl, rfl, rfl⟩

theorem responseRecord_fields (t : TaskState) (req : Nat) (sq : List Nat) :
    (t.responseRecord req sq).req_id = req ∧ (t.responseRecord req sq).event_type = .RESPONSE
      ∧ (t.responseRecord req sq).thread_id = t.thread_id
      ∧ (t.responseRecord req sq).op_type = t.kind.opType := by
  unfold TaskState.responseRecord
  cases t.kind <;> exact ⟨rfl, rfl, rfl, rfl⟩

/-- In a task list without repeated held identifiers, the tasks around one that holds `req` do
not hold `req`. -/
theorem others_hold_other (pre post : List TaskState) (t : TaskState) (req : Nat)
    (ht : t.held = some req) (hn : ((pre ++ t :: post).filterMap TaskState.held).Nodup) :
    ∀ u, u ∈ pre ∨ u ∈ post → ∀ b, u.held = some b → b ≠ req := by
  rw [List.filterMap_append, List.filterMap_cons, ht] at hn
  have hmid := List.nodup_middle.mp hn
  have hnot := (List.nodup_cons.mp hmid).1
  intro u hu b hb hbr
  apply hnot
  rw [List.mem_append]
  rcases hu with hu | hu
  · exact Or.inl (List.mem_filterMap.mpr ⟨u, hu, hbr ▸ hb⟩)
  · exact Or.inr (List.mem_filterMap.mpr ⟨u, hu, hbr ▸ hb⟩)

theorem mem_tasks_split {pre post : List TaskState} {t u : TaskState}
    (h : u ∈ pre ++ t :: post) : u = t ∨ (u ∈ pre ∨ u ∈ post) := by
  rcases List.mem_append.mp h with h | h
  · exact Or.inr (Or.inl h)
  · rcases List.mem_cons.mp h with h | h
    · exact Or.inl h
    · exact Or.inr (Or.inr h)

theorem mem_of_split {pre post : List TaskState} {t u : TaskState}
    (h : u ∈ pre ∨ u ∈ post) : u ∈ pre ++ t :: post := by
  rcases h with h | h
  · exact List.mem_append_left _ h
  · exact List.mem_append_right _ (List.mem_cons_of_mem _ h)

/-- The step `fetch_add` keeps the invariant. -/
theorem idInvariant_fetch (s s' : SystemState) (pre post : List TaskState) (t : TaskState)
    (inv : IdInvariant s) (hs : s.tasks = pre ++ t :: post)
    (hph : t.phase = .loopTest) (hlt : (t.i : Int) < t.num_ops)
    (hg : s'.global_req_id = (s.global_req_id + 1) % 2 ^ 64) (hrec : s'.recorder = s.recorder)
    (hs' : s'.tasks = pre ++ { t with phase := .allocated s.global_req_id } :: post) :
    IdInvariant s' := by
  have hnw := inv.no_wrap
  rw [hs, pendingOps_split] at hnw
  have hpt : t.pending = (t.num_ops - t.i).toNat := by
    unfold TaskState.pending
    rw [hph]
  have hpt' : ({ t with phase := .allocated s.global_req_id } : TaskState).pending + 1
      = t.pending := by
    rw [hpt]
    show (t.num_ops - t.i - 1).toNat + 1 = (t.num_ops - t.i).toNat
    omega
  have hg' : s'.global_req_id = s.global_req_id + 1 := by
    rw [hg]
    apply Nat.mod_eq_of_lt
    omega
  have hheld : t.held = none := by
    unfold TaskState.held
    rw [hph]
  have hbelow : ∀ u, u ∈ pre ∨ u ∈ post → ∀ b, u.held = some b → b < s.global_req_id :=
    fun u hu b hb => inv.held_below u (hs ▸ mem_of_split hu) b hb
  refine ⟨?_, ?_, ?_, ?_, ?_, ?_, ?_⟩
  · rw [hs', pendingOps_split, hg']
    omega
  · intro r hr
    rw [hrec] at hr
    have := inv.history_below r hr
    omega
  · intro u hu b hb
    rw [hs'] at hu
    rcases mem_tasks_split hu with h | h
    · subst h
      simp only [TaskState.held, Option.some.injEq] at hb
      omega
    · have := hbelow u h b hb
      omega
  · rw [hs', List.filterMap_append, List.filterMap_cons]
    have hn := inv.held_nodup
    rw [hs, List.filterMap_append, List.filterMap_cons, hheld] at hn
    show (List.filterMap TaskState.held pre
      ++ s.global_req_id :: List.filterMap TaskState.held post).Nodup
    rw [List.nodup_middle, List.nodup_cons]
    refine ⟨?_, hn⟩
    intro hmem
    rcases List.mem_append.mp hmem with hm | hm
    · obtain ⟨u, hu, hb⟩ := List.mem_filterMap.mp hm
      have := hbelow u (Or.inl hu) _ hb
      omega
    · obtain ⟨u, hu, hb⟩ := List.mem_filterMap.mp hm
      have := hbelow u (Or.inr hu) _ hb
      omega
  · intro u hu req hreq
    rw [hs'] at hu
    rw [hrec]
    rcases mem_tasks_split hu with h | h
    · subst h
      simp only [TaskPhase.allocated.injEq] at hreq
      subst hreq
      exact recordsOf_eq_nil_of_below _ _ inv.history_below
    · exact inv.alloc_fresh u (hs ▸ mem_of_split h) req hreq
  · intro u hu req hreq
    rw [hs'] at hu
    rw [hrec]
    rcases mem_tasks_split hu with h | h
    · subst h
      rcases hreq with h1 | ⟨sq, h1⟩ <;> simp at h1
    · exact inv.open_invoke u (hs ▸ mem_of_split h) req hreq
  · intro id
    rw [hrec]
    exact inv.paired id

/-- The step that records an invoke keeps the invariant. -/
theorem idInvariant_invoke (s s' : SystemState) (pre post : List TaskState) (t : TaskState)
    (req : Nat) (inv : IdInvariant s) (hs : s.tasks = pre ++ t :: post)
    (hph : t.phase = .allocated req) (hg : s'.global_req_id = s.global_req_id)
    (hrec : s'.recorder.global_history = s.recorder.global_history ++ [t.invokeRecord req])
    (hs' : s'.tasks = pre ++ { t with phase := .invoked req } :: post) :
    IdInvariant s' := by
  obtain ⟨hrid, hrev, hrtid, hrop⟩ := invokeRecord_fields t req
  have hheld : t.held = some req := by
    unfold TaskState.held
    rw [hph]
  have htmem : t ∈ s.tasks := hs ▸ List.mem_append_right _ (List.mem_cons_self _ _)
  have hother := others_hold_other pre post t req hheld (hs ▸ inv.held_nodup)
  have hkeep : ∀ b, b ≠ req →
      recordsOf b s'.recorder.global_history = recordsOf b s.recorder.global_history := by
    intro b hb
    rw [hrec, recordsOf_append_ne]
    rw [hrid]
    exact fun h => hb h.symm
  have hnew : recordsOf req s'.recorder.global_history = [t.invokeRecord req] := by
    rw [hrec]
    have h1 := recordsOf_append_eq s.recorder.global_history (t.invokeRecord req)
    rw [hrid] at h1
    rw [h1, inv.alloc_fresh t htmem req hph]
    rfl
  refine ⟨?_, ?_, ?_, ?_, ?_, ?_, ?_⟩
  · have hnw := inv.no_wrap
    rw [hs, pendingOps_split] at hnw
    rw [hs', pendingOps_split, hg]
    have : ({ t with phase := .invoked req } : TaskState).pending = t.pending := by
      unfold TaskState.pending
      rw [hph]
    omega
  · intro r hr
    rw [hrec] at hr
    rw [hg]
    rcases List.mem_append.mp hr with h | h
    · exact inv.history_below r h
    · rw [List.mem_singleton] at h
      rw [h, hrid]
      exact inv.held_below t htmem req hheld
  · intro u hu b hb
    rw [hs'] at hu
    rw [hg]
    rcases mem_tasks_split hu with h | h
    · subst h
      simp only [TaskState.held, Option.some.injEq] at hb
      rw [← hb]
      exact inv.held_below t htmem req hheld
    · exact inv.held_below u (hs ▸ mem_of_split h) b hb
  · have hn := inv.held_nodup
    rw [hs, List.filterMap_append, List.filterMap_cons, hheld] at hn
    rw [hs', List.filterMap_append, List.filterMap_cons]
    exact hn
  · intro u hu b hb
    rw [hs'] at hu
    rcases mem_tasks_split hu with h | h
    · subst h
      simp at hb
    · have hub : u.held = some b := by
        unfold TaskState.held
        rw [hb]
      rw [hkeep b (hother u h b hub)]
      exact inv.alloc_fresh u (hs ▸ mem_of_split h) b hb
  · intro u hu b hb
    rw [hs'] at hu
    rcases mem_tasks_split hu with h | h
    · subst h
      have hbr : b = req := by
        rcases hb with h1 | ⟨sq, h1⟩
        · simp only [TaskPhase.invoked.injEq] at h1
          exact h1.symm
        · simp at h1
      subst hbr
      exact ⟨t.invokeRecord b, hnew, hrev, hrtid, hrop⟩
    · have hub : u.held = some b := by
        unfold TaskState.held
        rcases hb with h1 | ⟨sq, h1⟩ <;> rw [h1]
      rw [hkeep b (hother u h b hub)]
      exact inv.open_invoke u (hs ▸ mem_of_split h) b hb
  · intro id
    by_cases hid : id = req
    · subst hid
      right
      rw [hnew]
      exact ⟨t.invokeRecord id, hrev, Or.inl rfl⟩
    · rw [hkeep id hid]
      exact inv.paired id

/-- The step in which the client call returns keeps the invariant. -/
theorem idInvariant_reply (s s' : SystemState) (pre post : List TaskState) (t : TaskState)
    (req : Nat) (sq : List Nat) (d : String) (inv : IdInvariant s)
    (hs : s.tasks = pre ++ t :: post) (hph : t.phase = .invoked req)
    (hg : s'.global_req_id = s.global_req_id) (hrec : s'.recorder = s.recorder)
    (hs' : s'.tasks = pre ++ { t with phase := .returned req sq, data := d } :: post) :
    IdInvariant s' := by
  have hheld : t.held = some req := by
    unfold TaskState.held
    rw [hph]
  have htmem : t ∈ s.tasks := hs ▸ List.mem_append_right _ (List.mem_cons_self _ _)
  refine ⟨?_, ?_, ?_, ?_, ?_, ?_, ?_⟩
  · have hnw := inv.no_wrap
    rw [hs, pendingOps_split] at hnw
    rw [hs', pendingOps_split, hg]
    have : ({ t with phase := .returned req sq, data := d } : TaskState).pending
        = t.pending := by
      unfold TaskState.pending
      rw [hph]
    omega
  · intro r hr
    rw [hrec] at hr
    rw [hg]
    exact inv.history_below r hr
  · intro u hu b hb
    rw [hs'] at hu
    rw [hg]
    rcases mem_tasks_split hu with h | h
    · subst h
      simp only [TaskState.held, Option.some.injEq] at hb
      rw [← hb]
      exact inv.held_below t htmem req hheld
    · exact inv.held_below u (hs ▸ mem_of_split h) b hb
  · have hn := inv.held_nodup
    rw [hs, List.filterMap_append, List.filterMap_cons, hheld] at hn
    rw [hs', List.filterMap_append, List.filterMap_cons]
    exact hn
  · intro u hu b hb
    rw [hs'] at hu
    rw [hrec]
    rcases mem_tasks_split hu with h | h
    · subst h
      simp at hb
    · exact inv.alloc_fresh u (hs ▸ mem_of_split h) b hb
  · intro u hu b hb
    rw [hs'] at hu
    rw [hrec]
    rcases mem_tasks_split hu with h | h
    · subst h
      have hbr : b = req := by
        rcases hb with h1 | ⟨sq', h1⟩
        · simp at h1
        · simp only [TaskPhase.returned.injEq] at h1
          exact h1.1.symm
      subst hbr
      exact inv.open_invoke t htmem b (Or.inl hph)
    · exact inv.open_invoke u (hs ▸ mem_of_split h) b hb
  · intro id
    rw [hrec]
    exact inv.paired id

/-- The step that records a response keeps the invariant. -/
theorem idInvariant_response (s s' : SystemState) (pre post : List TaskState) (t : TaskState)
    (req : Nat) (sq : List Nat) (inv : IdInvariant s) (hs : s.tasks = pre ++ t :: post)
    (hph : t.phase = .returned req sq) (hg : s'.global_req_id = s.global_req_id)
    (hrec : s'.recorder.global_history
      = s.recorder.global_history ++ [t.responseRecord req sq])
    (hs' : s'.tasks = pre ++ { t with i := t.i + 1, phase := .loopTest } :: post) :
    IdInvariant s' := by
  obtain ⟨hrid, hrev, hrtid, hrop⟩ := responseRecord_fields t req sq
  have hheld : t.held = some req := by
    unfold TaskState.held
    rw [hph]
  have htmem : t ∈ s.tasks := hs ▸ List.mem_append_right _ (List.mem_cons_self _ _)
  have hother := others_hold_other pre post t req hheld (hs ▸ inv.held_nodup)
  have hkeep : ∀ b, b ≠ req →
      recordsOf b s'.recorder.global_history = recordsOf b s.recorder.global_history := by
    intro b hb
    rw [hrec, recordsOf_append_ne]
    rw [hrid]
    exact fun h => hb h.symm
  obtain ⟨ir, hir, hirev, hirtid, hirop⟩ := inv.open_invoke t htmem req (Or.inr ⟨sq, hph⟩)
  have hnew : recordsOf req s'.recorder.global_history = [ir, t.responseRecord req sq] := by
    rw [hrec]
    have h1 := recordsOf_append_eq s.recorder.global_history (t.responseRecord req sq)
    rw [hrid] at h1
    rw [h1, hir]
    rfl
  refine ⟨?_, ?_, ?_, ?_, ?_, ?_, ?_⟩
  · have hnw := inv.no_wrap
    rw [hs, pendingOps_split] at hnw
    rw [hs', pendingOps_split, hg]
    have : ({ t with i := t.i + 1, phase := .loopTest } : TaskState).pending = t.pending := by
      unfold TaskState.pending
      rw [hph]
      show (t.num_ops - ((t.i + 1 : Nat) : Int)).toNat = (t.num_ops - (t.i : Int) - 1).toNat
      congr 1
      push_cast
      ring
    omega
  · intro r hr
    rw [hrec] at hr
    rw [hg]
    rcases List.mem_append.mp hr with h | h
    · exact inv.history_below r h
    · rw [List.mem_singleton] at h
      rw [h, hrid]
      exact inv.held_below t htmem req hheld
  · intro u hu b hb
    rw [hs'] at hu
    rw [hg]
    rcases mem_tasks_split hu with h | h
    · subst h
      simp [TaskState.held] at hb
    · exact inv.held_below u (hs ▸ mem_of_split h) b hb
  · have hn := inv.held_nodup
    rw [hs, List.filterMap_append, List.filterMap_cons, hheld] at hn
    rw [hs', List.filterMap_append, List.filterMap_cons]
    have hmid := List.nodup_middle.mp hn
    exact (List.nodup_cons.mp hmid).2
  · intro u hu b hb
    rw [hs'] at hu
    rcases mem_tasks_split hu with h | h
    · subst h
      simp at hb
    · have hub : u.held = some b := by
        unfold TaskState.held
        rw [hb]
      rw [hkeep b (hother u h b hub)]
      exact inv.alloc_fresh u (hs ▸ mem_of_split h) b hb
  · intro u hu b hb
    rw [hs'] at hu
    rcases mem_tasks_split hu with h | h
    · subst h
      rcases hb with h1 | ⟨sq', h1⟩ <;> simp at h1
    · have hub : u.held = some b := by
        unfold TaskState.held
        rcases hb with h1 | ⟨sq', h1⟩ <;> rw [h1]
      rw [hkeep b (hother u h b hub)]
      exact inv.open_invoke u (hs ▸ mem_of_split h) b hb
  · intro id
    by_cases hid : id = req
    · subst hid
      right
      rw [hnew]
      exact ⟨ir, hirev, Or.inr ⟨t.responseRecord id sq, hrev, by rw [hrtid, hirtid],
        by rw [hrop, hirop], rfl⟩⟩
    · rw [hkeep id hid]
      exact inv.paired id

/-- Every step of the program keeps the invariant. -/
theorem idInvariant_step (s s' : SystemState) (k : Nat) (reply : ClientReply)
    (inv : IdInvariant s) (h : step s k reply = some s') : IdInvariant s' := by
  obtain ⟨pre, t, post, t', hs, hs', hst⟩ := step_spec s s' k reply h
  rcases stepTask_cases _ _ _ _ _ _ _ hst with
    ⟨hph, hlt, hg, hrec, ht'⟩ | ⟨req, hph, hg, hrec, ht'⟩ | ⟨req, sq, d, hph, hg, hrec, ht'⟩
      | ⟨req, sq, hph, hg, hrec, ht'⟩
  · exact idInvariant_fetch s s' pre post t inv hs hph hlt hg hrec (ht' ▸ hs')
  · exact idInvariant_invoke s s' pre post t req inv hs hph hg hrec (ht' ▸ hs')
  · exact idInvariant_reply s s' pre post t req sq d inv hs hph hg hrec (ht' ▸ hs')
  · exact idInvariant_response s s' pre post t req sq inv hs hph hg hrec (ht' ▸ hs')

/-- The invariant holds when the tasks start, if they make fewer than `2^64` requests in all. -/
theorem idInvariant_start (tasks : List TaskState) (hfresh : ∀ t ∈ tasks, t.phase = .loopTest)
    (hops : pendingOps tasks < 2 ^ 64) : IdInvariant (SystemState.start tasks) := by
  have hnone : ∀ t ∈ tasks, t.held = none := by
    intro t ht
    unfold TaskState.held
    rw [hfresh t ht]
  refine ⟨by simpa [SystemState.start] using hops, ?_, ?_, ?_, ?_, ?_, ?_⟩
  · intro r hr
    simp [SystemState.start, RecorderState.init] at hr
  · intro t ht b hb
    rw [hnone t ht] at hb
    simp at hb
  · have : List.filterMap TaskState.held tasks = [] := by
      rw [List.filterMap_eq_nil_iff]
      exact hnone
    show (List.filterMap TaskState.held tasks).Nodup
    rw [this]
    exact List.nodup_nil
  · intro t ht b hb
    rfl
  · intro t ht b hb
    have := hfresh t ht
    rcases hb with h1 | ⟨sq, h1⟩ <;> rw [this] at h1 <;> simp at h1
  · intro id
    exact Or.inl rfl

/-! ## The tasks spawned by `main` -/

theorem start_phase (kind : TaskKind) (v n : Int) : (TaskState.start kind v n).phase = .loopTest :=
  rfl

theorem taskList_fresh (ops nw nr rops : Int) :
    ∀ t ∈ taskList ops nw nr rops, t.phase = .loopTest ∧ t.i = 0 := by
  intro t ht
  unfold taskList at ht
  rcases List.mem_append.mp ht with h | h
  · obtain ⟨i, -, rfl⟩ := List.mem_map.mp h
    exact ⟨rfl, rfl⟩
  · obtain ⟨i, -, rfl⟩ := List.mem_map.mp h
    exact ⟨rfl, rfl⟩

theorem sum_map_const {α : Type} (l : List α) (f : α → Nat) (c : Nat) (h : ∀ x ∈ l, f x = c) :
    (l.map f).sum = l.length * c := by
  induction l with
  | nil => simp
  | cons a l ih =>
    rw [List.map_cons, List.sum_cons, h a (List.mem_cons_self _ _),
      ih (fun x hx => h x (List.mem_cons_of_mem _ hx)), List.length_cons]
    ring

theorem pendingOps_taskList (ops nw nr rops : Int) :
    pendingOps (taskList ops nw nr rops)
      = nw.toNat * ops.toNat + nr.toNat * rops.toNat := by
  unfold pendingOps taskList
  rw [List.map_append, List.sum_append, List.map_map, List.map_map]
  have h1 := sum_map_const (List.range nw.toNat)
    (TaskState.pending ∘ fun i : Nat => TaskState.start .writer (i : Int) ops) ops.toNat
    (by
      intro i _
      show (ops - ((0 : Nat) : Int)).toNat = ops.toNat
      simp)
  have h2 := sum_map_const (List.range nr.toNat)
    (TaskState.pending ∘ fun i : Nat => TaskState.start .reader (nw + (i : Int)) rops)
    rops.toNat
    (by
      intro i _
      show (rops - ((0 : Nat) : Int)).toNat = rops.toNat
      simp)
  rw [h1, h2, List.length_range, List.length_range]

/-- With `int` arguments the tasks of `main` make fewer than `2^64` requests in all. -/
theorem pendingOps_taskList_lt (ops nw nr rops : Int) (hops : ops < 2 ^ 31) (hnw : nw < 2 ^ 31)
    (hnr : nr < 2 ^ 31) (hprod : nr ≤ 0 ∨ rops < 2 ^ 31) :
    pendingOps (taskList ops nw nr rops) < 2 ^ 64 := by
  rw [pendingOps_taskList]
  have h1 : nw.toNat < 2 ^ 31 := by omega
  have h2 : ops.toNat < 2 ^ 31 := by omega
  have h3 : nr.toNat < 2 ^ 31 := by omega
  have h5 : nw.toNat * ops.toNat ≤ 2 ^ 31 * 2 ^ 31 :=
    Nat.mul_le_mul (Nat.le_of_lt h1) (Nat.le_of_lt h2)
  have h6 : nr.toNat * rops.toNat ≤ 2 ^ 31 * 2 ^ 31 := by
    rcases hprod with h | h
    · have : nr.toNat = 0 := by omega
      rw [this, Nat.zero_mul]
      exact Nat.zero_le _
    · have h4 : rops.toNat < 2 ^ 31 := by omega
      exact Nat.mul_le_mul (Nat.le_of_lt h3) (Nat.le_of_lt h4)
  have h7 : (2 : Nat) ^ 31 * 2 ^ 31 + 2 ^ 31 * 2 ^ 31 < 2 ^ 64 := by decide
  omega

/-- Every state that a run of the tasks of `main` reaches satisfies the invariant. -/
theorem idInvariant_of_run (ops nw nr rops : Int) (hops : ops < 2 ^ 31) (hnw : nw < 2 ^ 31)
    (hnr : nr < 2 ^ 31) (hprod : nr ≤ 0 ∨ rops < 2 ^ 31) (acts : List (Nat × ClientReply))
    (s : SystemState)
    (hrun : runSteps (SystemState.start (taskList ops nw nr rops)) acts = some s) :
    IdInvariant s :=
  runSteps_induction IdInvariant (fun s k reply s' => idInvariant_step s s' k reply) acts _ s
    (idInvariant_start _ (fun t ht => (taskList_fresh ops nw nr rops t ht).1)
      (pendingOps_taskList_lt ops nw nr rops hops hnw hnr hprod))
    hrun

/-- The tasks that `main` spawns are the threads of its two loops, and either no reader is
started or the number of operations of a reader is an `int`. -/
theorem spawnTasks_eq_some (ops nw nr : Int) (tasks : List TaskState)
    (h : spawnTasks ops nw nr = some tasks) :
    tasks = taskList ops nw nr (ops * nw)
      ∧ (nr ≤ 0 ∨ (-2 ^ 31 ≤ ops * nw ∧ ops * nw < 2 ^ 31)) := by
  unfold spawnTasks at h
  split at h
  · exact absurd h (by simp)
  · rename_i hno
    simp only [Option.some.injEq] at h
    refine ⟨h.symm, ?_⟩
    by_cases hr : nr ≤ 0
    · exact Or.inl hr
    · right
      by_contra hcon
      apply hno
      refine ⟨by omega, ?_⟩
      by_contra hcon2
      apply hcon
      constructor <;> omega

/-! ## Request identifiers: the claims -/

theorem fetchAddMany_eq (n c : Nat) (h : c + n ≤ 2 ^ 64) :
    fetchAddMany n c = List.range' c n := by
  induction n generalizing c with
  | zero => rfl
  | succ n ih =>
    have hmod : (c + 1) % 2 ^ 64 = c + 1 ∨ n = 0 := by
      by_cases hn : n = 0
      · exact Or.inr hn
      · left
        apply Nat.mod_eq_of_lt
        omega
    rcases hmod with hmod | hn
    · simp only [fetchAddMany, fetchAdd, hmod, List.range'_succ]
      rw [ih (c + 1) (by omega)]
    · subst hn
      simp [fetchAddMany, fetchAdd, List.range']

/-- Well paired records hold exactly one Invoke and at most one Response. -/
theorem WellPaired.counts {rs : List HistoryRecord} (h : WellPaired rs) :
    rs.countP (fun r => r.event_type = .INVOKE) = 1
      ∧ rs.countP (fun r => r.event_type = .RESPONSE) ≤ 1 := by
  obtain ⟨inv, hinv, h1 | ⟨res, hres, -, -, h2⟩⟩ := h
  · subst h1
    simp [hinv]
  · subst h2
    simp [hinv, hres]

theorem recordsOf_ne_nil_of_mem (h : List HistoryRecord) (r : HistoryRecord) (hr : r ∈ h) :
    recordsOf r.req_id h ≠ [] := by
  intro hnil
  have : r ∈ recordsOf r.req_id h := by
    unfold recordsOf
    rw [List.mem_filter]
    exact ⟨hr, by simp⟩
  rw [hnil] at this
  exact absurd this (List.not_mem_nil _)

/-- In a history whose identifiers are all well paired, no two Invoke records carry the same
request identifier. -/
theorem invoke_ids_nodup (h : List HistoryRecord)
    (hp : ∀ id, recordsOf id h = [] ∨ WellPaired (recordsOf id h)) :
    ((h.filter (fun r => r.event_type = .INVOKE)).map HistoryRecord.req_id).Nodup := by
  rw [List.nodup_iff_count_le_one]
  intro id
  have hcount : List.count id ((h.filter (fun r => r.event_type = .INVOKE)).map
      HistoryRecord.req_id) = (recordsOf id h).countP (fun r => r.event_type = .INVOKE) := by
    unfold recordsOf
    rw [List.count, List.countP_map, List.countP_filter, List.countP_filter]
    apply List.countP_congr
    intro r _
    simp only [Function.comp, beq_iff_eq, decide_eq_true_eq, Bool.and_eq_true]
    exact ⟨fun ⟨a, b⟩ => ⟨b, a⟩, fun ⟨a, b⟩ => ⟨b, a⟩⟩
  rw [hcount]
  rcases hp id with h0 | hw
  · rw [h0]
    simp
  · exact Nat.le_of_eq hw.counts.1

/-- In a history whose identifiers are all well paired, every Response record comes after the
Invoke record of its request identifier, which has the same actor and operation kind. -/
theorem response_after_invoke (h : List HistoryRecord)
    (hp : ∀ id, recordsOf id h = [] ∨ WellPaired (recordsOf id h))
    (pre post : List HistoryRecord) (res : HistoryRecord) (hsplit : h = pre ++ res :: post)
    (hres : res.event_type = .RESPONSE) :
    ∃ inv ∈ pre, inv.event_type = .INVOKE ∧ inv.req_id = res.req_id
      ∧ inv.thread_id = res.thread_id ∧ inv.op_type = res.op_type := by
  have hrec : recordsOf res.req_id h
      = recordsOf res.req_id pre ++ res :: recordsOf res.req_id post := by
    rw [hsplit]
    unfold recordsOf
    rw [List.filter_append, List.filter_cons]
    simp
  have hmem : ∀ x ∈ recordsOf res.req_id pre, x ∈ pre ∧ x.req_id = res.req_id := by
    intro x hx
    unfold recordsOf at hx
    rw [List.mem_filter] at hx
    exact ⟨hx.1, by simpa using hx.2⟩
  rcases hp res.req_id with h0 | ⟨inv, hinv, h1 | ⟨res', hres', htid, hop, h2⟩⟩
  · rw [hrec] at h0
    exact absurd h0 (by simp)
  · rw [hrec] at h1
    cases hpre : recordsOf res.req_id pre with
    | nil =>
      rw [hpre] at h1
      simp only [List.nil_append, List.cons.injEq] at h1
      rw [h1.1, hinv] at hres
      exact absurd hres (by decide)
    | cons x xs =>
      rw [hpre] at h1
      simp only [List.cons_append, List.cons.injEq] at h1
      exact absurd h1.2 (by simp)
  · rw [hrec] at h2
    cases hpre : recordsOf res.req_id pre with
    | nil =>
      rw [hpre] at h2
      simp only [List.nil_append, List.cons.injEq] at h2
      rw [h2.1, hinv] at hres
      exact absurd hres (by decide)
    | cons x xs =>
      rw [hpre] at h2
      simp only [List.cons_append, List.cons.injEq] at h2
      obtain ⟨hx, hrest⟩ := h2
      cases xs with
      | nil =>
        simp only [List.nil_append, List.cons.injEq] at hrest
        have hxm := hmem x (by rw [hpre]; exact List.mem_cons_self _ _)
        refine ⟨x, hxm.1, by rw [hx]; exact hinv, hxm.2, ?_, ?_⟩
        · rw [hx, hrest.1, htid]
        · rw [hx, hrest.1, hop]
      | cons y ys =>
        simp only [List.cons_append, List.cons.injEq] at hrest
        exact absurd hrest.2 (by simp)

/-- C13: the first `n ≤ 2^64` calls of `fetch_add(1)` on the counter, which starts at `0`, return
`0, 1, ..., n - 1` in this order, so the values are strictly increasing, gapless and pairwise
distinct; and in every history that a run of the tasks spawned by `main` reaches, for `int`
values of the count and of the worker counts, no two Invoke records carry the same request
identifier and every identifier recorded was issued by the counter. -/
theorem request_ids_are_unique (n : Nat) (hn : n ≤ 2 ^ 64) (ops nw nr : Int)
    (hops : ops < 2 ^ 31) (hnw : nw < 2 ^ 31) (hnr : nr < 2 ^ 31)
    (tasks : List TaskState) (hsp : spawnTasks ops nw nr = some tasks)
    (acts : List (Nat × ClientReply)) (s : SystemState)
    (hrun : runSteps (SystemState.start tasks) acts = some s) :
    fetchAddMany n 0 = List.range n
    ∧ (∀ k, k < n → (fetchAddMany n 0)[k]? = some k)
    ∧ (fetchAddMany n 0).Nodup
    ∧ ((s.recorder.global_history.filter (fun r => r.event_type = .INVOKE)).map
        HistoryRecord.req_id).Nodup
    ∧ (∀ r ∈ s.recorder.global_history, r.req_id < s.global_req_id) := by
  have hrange : fetchAddMany n 0 = List.range n := by
    rw [fetchAddMany_eq n 0 (by omega), List.range_eq_range']
  obtain ⟨htasks, hp⟩ := spawnTasks_eq_some ops nw nr tasks hsp
  subst htasks
  have inv := idInvariant_of_run ops nw nr (ops * nw) hops hnw hnr (hp.imp id And.right)
    acts s hrun
  refine ⟨hrange, ?_, ?_, invoke_ids_nodup _ inv.paired, inv.history_below⟩
  · intro k hk
    rw [hrange, List.getElem?_range hk]
  · rw [hrange]
    exact List.nodup_range n

/-- C13 (witness): three calls return `0, 1, 2`; in the sample run of one writer and one reader
the two Invoke records carry the identifiers `0` and `1`.  The tasks of `2048` writers with
`1048576` operations each and no reader are spawned as well. -/
theorem request_ids_are_unique_witness :
    3 ≤ 2 ^ 64 ∧ (1 : Int) < 2 ^ 31
    ∧ spawnTasks 1 1 1 = some (taskList 1 1 1 1)
    ∧ (spawnTasks 1048576 2048 0).isSome = true
    ∧ fetchAddMany 3 0 = [0, 1, 2]
    ∧ ∃ s, runSteps (SystemState.start (taskList 1 1 1 1)) sampleSchedule = some s
        ∧ (s.recorder.global_history.filter (fun r => r.event_type = .INVOKE)).map
            HistoryRecord.req_id = [0, 1]
        ∧ ((s.recorder.global_history.filter (fun r => r.event_type = .INVOKE)).map
            HistoryRecord.req_id).Nodup := by
  have hsome : (runSteps (SystemState.start (taskList 1 1 1 1)) sampleSchedule).isSome
      = true := by
    decide
  obtain ⟨s, hs⟩ := Option.isSome_iff_exists.mp hsome
  have hids : (runSteps (SystemState.start (taskList 1 1 1 1)) sampleSchedule).map
      (fun s => (s.recorder.global_history.filter (fun r => r.event_type = .INVOKE)).map
        HistoryRecord.req_id) = some [0, 1] := by decide
  rw [hs] at hids
  simp only [Option.map_some', Option.some.injEq] at hids
  have h := request_ids_are_unique 3 (by decide) 1 1 1 (by decide) (by decide) (by decide)
    (taskList 1 1 1 1) (by decide) sampleSchedule s hs
  exact ⟨by decide, by decide, by decide, by decide, by decide, s, hs, hids, h.2.2.2.1⟩

/-- C14: in every history that a run of the tasks spawned by `main` reaches, under any
interleaving of the tasks' steps, for `int` values of the count and of the worker counts, the
records of every request identifier that appears are one Invoke record, alone or followed by
one Response record of the same actor and operation kind; and every Response record in the
history comes after an Invoke record with its identifier, actor and operation kind. -/
theorem history_records_are_well_paired (ops nw nr : Int)
    (hops : ops < 2 ^ 31) (hnw : nw < 2 ^ 31) (hnr : nr < 2 ^ 31)
    (tasks : List TaskState) (hsp : spawnTasks ops nw nr = some tasks)
    (acts : List (Nat × ClientReply)) (s : SystemState)
    (hrun : runSteps (SystemState.start tasks) acts = some s) :
    (∀ id, (∃ r ∈ s.recorder.global_history, r.req_id = id) →
        WellPaired (recordsOf id s.recorder.global_history)
        ∧ (recordsOf id s.recorder.global_history).countP
            (fun r => r.event_type = .INVOKE) = 1
        ∧ (recordsOf id s.recorder.global_history).countP
            (fun r => r.event_type = .RESPONSE) ≤ 1)
    ∧ (∀ pre post res, s.recorder.global_history = pre ++ res :: post →
        res.event_type = .RESPONSE →
        ∃ inv ∈ pre, inv.event_type = .INVOKE ∧ inv.req_id = res.req_id
          ∧ inv.thread_id = res.thread_id ∧ inv.op_type = res.op_type) := by
  obtain ⟨htasks, hp⟩ := spawnTasks_eq_some ops nw nr tasks hsp
  subst htasks
  have inv := idInvariant_of_run ops nw nr (ops * nw) hops hnw hnr (hp.imp id And.right)
    acts s hrun
  refine ⟨?_, fun pre post res hsplit hres =>
    response_after_invoke _ inv.paired pre post res hsplit hres⟩
  rintro id ⟨r, hr, rfl⟩
  rcases inv.paired r.req_id with h0 | hw
  · exact absurd h0 (recordsOf_ne_nil_of_mem _ r hr)
  · exact ⟨hw, hw.counts.1, hw.counts.2⟩

/-- C14 (witness): the sample run of one writer and one reader, whose operations overlap, ends
with the four records written in the order invoke write, invoke read, response read, response
write, and its history is well paired. -/
theorem history_records_are_well_paired_witness :
    (1 : Int) < 2 ^ 31
    ∧ spawnTasks 1 1 1 = some (taskList 1 1 1 1)
    ∧ ∃ s, runSteps (SystemState.start (taskList 1 1 1 1)) sampleSchedule = some s
        ∧ (DumpGlobalHistory true s.recorder).2
            = some ("inv write id=0 client=0 val=00_00000\n" ++ "inv read id=1 client=1\n"
                ++ "res read id=1 client=1 idx=0 val=00_00000\n"
                ++ "res write id=0 client=0 idx=0 seq=[7,8]\n")
        ∧ ∀ id, (∃ r ∈ s.recorder.global_history, r.req_id = id) →
            WellPaired (recordsOf id s.recorder.global_history) := by
  have hsome : (runSteps (SystemState.start (taskList 1 1 1 1)) sampleSchedule).isSome
      = true := by
    decide
  obtain ⟨s, hs⟩ := Option.isSome_iff_exists.mp hsome
  have hdump : (runSteps (SystemState.start (taskList 1 1 1 1)) sampleSchedule).map
      (fun s => (DumpGlobalHistory true s.recorder).2)
      = some (some ("inv write id=0 client=0 val=00_00000\n" ++ "inv read id=1 client=1\n"
                ++ "res read id=1 client=1 idx=0 val=00_00000\n"
                ++ "res write id=0 client=0 idx=0 seq=[7,8]\n")) := by rfl
  rw [hs] at hdump
  simp only [Option.map_some', Option.some.injEq] at hdump
  have h := history_records_are_well_paired 1 1 1 (by decide) (by decide) (by decide)
    (taskList 1 1 1 1) (by decide) sampleSchedule s hs
  exact ⟨by decide, by decide, s, hs, hdump, fun id hid => (h.1 id hid).1⟩

/-! ## The concurrent run: counting records -/

theorem startedBy_split (P : Int → OpType → Bool) (pre post : List TaskState) (t : TaskState) :
    startedBy P (pre ++ t :: post)
      = startedBy P pre + (if P t.thread_id t.kind.opType then t.started else 0)
          + startedBy P post := by
  simp [startedBy, List.sum_append, Nat.add_assoc]

theorem plannedBy_split (P : Int → OpType → Bool) (pre post : List TaskState) (t : TaskState) :
    plannedBy P (pre ++ t :: post)
      = plannedBy P pre + (if P t.thread_id t.kind.opType then t.num_ops.toNat else 0)
          + plannedBy P post := by
  simp [plannedBy, List.sum_append, Nat.add_assoc]

theorem countInvokes_append (P : Int → OpType → Bool) (h : List HistoryRecord)
    (r : HistoryRecord) :
    countInvokes P (h ++ [r])
      = countInvokes P h
          + (if r.event_type = .INVOKE ∧ P r.thread_id r.op_type = true then 1 else 0) := by
  unfold countInvokes
  rw [List.countP_append]
  congr 1
  by_cases h1 : r.event_type = .INVOKE <;> by_cases h2 : P r.thread_id r.op_type = true <;>
    simp [List.countP_cons, h1, h2]

theorem readResponseIndices_append (v : Int) (h : List HistoryRecord) (r : HistoryRecord) :
    readResponseIndices v (h ++ [r])
      = readResponseIndices v h
          ++ (if r.event_type = .RESPONSE ∧ r.op_type = .OP_READ ∧ r.thread_id = v
              then [r.idx] else []) := by
  unfold readResponseIndices
  rw [List.filter_append, List.map_append]
  congr 1
  by_cases h1 : r.event_type = .RESPONSE <;> by_cases h2 : r.op_type = .OP_READ <;>
    by_cases h3 : r.thread_id = v <;> simp [h1, h2, h3]

/-- In a task list without repeated actor ids, the tasks around a task have other actor ids. -/
theorem others_other_actor (pre post : List TaskState) (t : TaskState)
    (hn : ((pre ++ t :: post).map TaskState.thread_id).Nodup) :
    ∀ u, u ∈ pre ∨ u ∈ post → u.thread_id ≠ t.thread_id := by
  rw [List.map_append, List.map_cons] at hn
  have hmid := List.nodup_middle.mp hn
  have hnot := (List.nodup_cons.mp hmid).1
  intro u hu heq
  apply hnot
  rw [List.mem_append]
  rcases hu with hu | hu
  · exact Or.inl (List.mem_map.mpr ⟨u, hu, heq⟩)
  · exact Or.inr (List.mem_map.mpr ⟨u, hu, heq⟩)

/-- A step keeps the counting invariant when the stepping task keeps its kind, actor id and
number of operations, the history gains as many selected Invoke records as the task's count of
recorded invokes grows, the task's loop index stays within bounds, and the Response/Read records
of the task match its new loop index while those of other actors are unchanged. -/
theorem progressInvariant_of_local (tasks₀ : List TaskState) (s s' : SystemState)
    (pre post : List TaskState) (t t' : TaskState) (inv : ProgressInvariant tasks₀ s)
    (hs : s.tasks = pre ++ t :: post) (hs' : s'.tasks = pre ++ t' :: post)
    (hkind : t'.kind = t.kind) (htid : t'.thread_id = t.thread_id)
    (hnum : t'.num_ops = t.num_ops) (hgrow : t.started ≤ t'.started)
    (hcount : ∀ P, countInvokes P s'.recorder.global_history
      = countInvokes P s.recorder.global_history
          + (if P t.thread_id t.kind.opType then t'.started - t.started else 0))
    (hbound : (t'.phase = .loopTest → (t'.i : Int) ≤ max t'.num_ops 0)
      ∧ (t'.phase ≠ .loopTest → (t'.i : Int) < t'.num_ops))
    (hothers : ∀ v, v ≠ t.thread_id →
      readResponseIndices v s'.recorder.global_history
        = readResponseIndices v s.recorder.global_history)
    (hself : t.kind = .reader →
      readResponseIndices t.thread_id s'.recorder.global_history
        = (List.range t'.i).map Int.ofNat) :
    ProgressInvariant tasks₀ s' := by
  have hactors := inv.actors_nodup
  rw [hs] at hactors
  have hoa := others_other_actor pre post t hactors
  refine ⟨?_, ?_, ?_, ?_, ?_⟩
  · intro P
    rw [hcount P, inv.counted P, hs, hs', startedBy_split, startedBy_split, hkind, htid]
    cases hP : P t.thread_id t.kind.opType
    · simp
    · simp only [if_true]
      omega
  · intro u hu
    rw [hs'] at hu
    rcases mem_tasks_split hu with h | h
    · subst h
      exact hbound
    · exact inv.bounded u (hs ▸ mem_of_split h)
  · rw [hs', List.map_append, List.map_cons, htid]
    rw [List.map_append, List.map_cons] at hactors
    exact hactors
  · intro u hu hr
    rw [hs'] at hu
    rcases mem_tasks_split hu with h | h
    · subst h
      rw [htid]
      exact hself (hkind ▸ hr)
    · rw [hothers u.thread_id (hoa u h)]
      exact inv.reads u (hs ▸ mem_of_split h) hr
  · intro P
    rw [← inv.planned P, hs, hs', plannedBy_split, plannedBy_split, hkind, htid, hnum]

/-- Every step of the program keeps the counting invariant. -/
theorem progressInvariant_step (tasks₀ : List TaskState) (s s' : SystemState) (k : Nat)
    (reply : ClientReply) (inv : ProgressInvariant tasks₀ s)
    (h : step s k reply = some s') : ProgressInvariant tasks₀ s' := by
  obtain ⟨pre, t, post, t', hs, hs', hst⟩ := step_spec s s' k reply h
  have htmem : t ∈ s.tasks := hs ▸ List.mem_append_right _ (List.mem_cons_self _ _)
  have hb := inv.bounded t htmem
  rcases stepTask_cases _ _ _ _ _ _ _ hst with
    ⟨hph, hlt, hg, hrec, ht'⟩ | ⟨req, hph, hg, hrec, ht'⟩ | ⟨req, sq, d, hph, hg, hrec, ht'⟩
      | ⟨req, sq, hph, hg, hrec, ht'⟩
  · -- fetch_add
    subst ht'
    apply progressInvariant_of_local tasks₀ s s' pre post t _ inv hs hs' rfl rfl rfl
    · simp [TaskState.started, hph]
    · intro P
      rw [hrec]
      simp [TaskState.started, hph]
    · exact ⟨fun h => by simp at h, fun _ => hlt⟩
    · intro v _
      rw [hrec]
    · intro hr
      rw [hrec]
      exact inv.reads t htmem hr
  · -- the invoke is recorded
    subst ht'
    obtain ⟨hrid, hrev, hrtid, hrop⟩ := invokeRecord_fields t req
    apply progressInvariant_of_local tasks₀ s s' pre post t _ inv hs hs' rfl rfl rfl
    · simp [TaskState.started, hph]
    · intro P
      rw [hrec, countInvokes_append, hrev, hrtid, hrop]
      simp [TaskState.started, hph]
    · exact ⟨fun h => by simp at h, fun _ => hb.2 (by rw [hph]; simp)⟩
    · intro v _
      rw [hrec, readResponseIndices_append, hrev]
      simp
    · intro hr
      rw [hrec, readResponseIndices_append, hrev]
      simp only [reduceCtorEq, false_and, if_false, List.append_nil]
      exact inv.reads t htmem hr
  · -- the client call returns
    subst ht'
    apply progressInvariant_of_local tasks₀ s s' pre post t _ inv hs hs' rfl rfl rfl
    · simp [TaskState.started, hph]
    · intro P
      rw [hrec]
      simp [TaskState.started, hph]
    · exact ⟨fun h => by simp at h, fun _ => hb.2 (by rw [hph]; simp)⟩
    · intro v _
      rw [hrec]
    · intro hr
      rw [hrec]
      exact inv.reads t htmem hr
  · -- the response is recorded
    subst ht'
    obtain ⟨hrid, hrev, hrtid, hrop⟩ := responseRecord_fields t req sq
    have hlt : (t.i : Int) < t.num_ops := hb.2 (by rw [hph]; simp)
    apply progressInvariant_of_local tasks₀ s s' pre post t _ inv hs hs' rfl rfl rfl
    · simp [TaskState.started, hph]
    · intro P
      rw [hrec, countInvokes_append, hrev]
      simp [TaskState.started, hph]
    · refine ⟨fun _ => ?_, fun h => by simp at h⟩
      show ((t.i + 1 : Nat) : Int) ≤ max t.num_ops 0
      have := le_max_left t.num_ops 0
      push_cast
      omega
    · intro v hv
      rw [hrec, readResponseIndices_append, hrtid]
      have : ¬ (t.thread_id = v) := fun h => hv h.symm
      simp [this]
    · intro hr
      rw [hrec, readResponseIndices_append, hrev, hrop, hrtid, hr]
      simp only [TaskKind.opType, and_self, if_true]
      rw [inv.reads t htmem hr]
      show _ = (List.range (t.i + 1)).map Int.ofNat
      rw [List.range_succ, List.map_append]
      simp [TaskState.responseRecord, hr]

/-- The counting invariant holds when tasks with distinct actor ids start. -/
theorem progressInvariant_start (tasks : List TaskState)
    (hfresh : ∀ t ∈ tasks, t.phase = .loopTest ∧ t.i = 0)
    (hactors : (tasks.map TaskState.thread_id).Nodup) :
    ProgressInvariant tasks (SystemState.start tasks) := by
  refine ⟨?_, ?_, hactors, ?_, fun _ => rfl⟩
  · intro P
    show countInvokes P [] = startedBy P tasks
    have hz : ∀ t ∈ tasks, (if P t.thread_id t.kind.opType then t.started else 0) = 0 := by
      intro t ht
      have := hfresh t ht
      simp [TaskState.started, this.1, this.2]
    unfold startedBy
    rw [sum_map_const tasks _ 0 hz]
    rfl
  · intro t ht
    have := hfresh t ht
    refine ⟨fun _ => ?_, fun h => absurd this.1 h⟩
    rw [this.2]
    exact le_max_right _ _
  · intro t ht _
    rw [(hfresh t ht).2]
    rfl

theorem taskList_actors (ops nw nr rops : Int) :
    (taskList ops nw nr rops).map TaskState.thread_id
      = (List.range nw.toNat).map (fun i : Nat => (i : Int))
          ++ (List.range nr.toNat).map (fun i : Nat => nw + (i : Int)) := by
  unfold taskList
  rw [List.map_append, List.map_map, List.map_map]
  rfl

/-- The tasks of `main` have pairwise distinct actor ids. -/
theorem taskList_actors_nodup (ops nw nr rops : Int) :
    ((taskList ops nw nr rops).map TaskState.thread_id).Nodup := by
  rw [taskList_actors, List.nodup_append]
  refine ⟨?_, ?_, ?_⟩
  · exact (List.nodup_range _).map (fun a b h => by simpa using h)
  · exact (List.nodup_range _).map (fun a b h => by simpa using h)
  · intro v hw hr
    obtain ⟨i, hi, rfl⟩ := List.mem_map.mp hw
    obtain ⟨j, hj, hij⟩ := List.mem_map.mp hr
    rw [List.mem_range] at hi hj
    omega

/-- Every state that a run of the tasks of `main` reaches satisfies the counting invariant. -/
theorem progressInvariant_of_run (ops nw nr rops : Int) (acts : List (Nat × ClientReply))
    (s : SystemState)
    (hrun : runSteps (SystemState.start (taskList ops nw nr rops)) acts = some s) :
    ProgressInvariant (taskList ops nw nr rops) s :=
  runSteps_induction (ProgressInvariant (taskList ops nw nr rops))
    (fun s k reply s' => progressInvariant_step _ s s' k reply) acts _ s
    (progressInvariant_start _ (taskList_fresh ops nw nr rops)
      (taskList_actors_nodup ops nw nr rops))
    hrun

/-- A completed task has recorded as many invokes as it was given operations. -/
theorem started_of_completed (t : TaskState)
    (hb : (t.phase = .loopTest → (t.i : Int) ≤ max t.num_ops 0)
      ∧ (t.phase ≠ .loopTest → (t.i : Int) < t.num_ops))
    (hc : t.completed = true) : t.started = t.num_ops.toNat ∧ t.i = t.num_ops.toNat := by
  unfold TaskState.completed at hc
  simp only [decide_eq_true_eq] at hc
  obtain ⟨hph, hge⟩ := hc
  have h1 := hb.1 hph
  have hi : t.i = t.num_ops.toNat := by
    rcases le_total t.num_ops 0 with h | h
    · rw [max_eq_right h] at h1
      omega
    · rw [max_eq_left h] at h1
      omega
  refine ⟨?_, hi⟩
  unfold TaskState.started
  rw [hph]
  exact hi

theorem completeRun_spec (tasks : List TaskState) (schedule : List (Nat × ClientReply))
    (s : SystemState) (h : completeRun tasks schedule = some s) :
    runSteps (SystemState.start tasks) schedule = some s ∧ ∀ t ∈ s.tasks, t.completed = true := by
  unfold completeRun at h
  split at h
  · exact absurd h (by simp)
  · rename_i s₁ h₁
    split at h
    · rename_i hall
      simp only [Option.some.injEq] at h
      subst h
      exact ⟨h₁, fun t ht => List.all_eq_true.mp hall t ht⟩
    · exact absurd h (by simp)

/-- A completed task has no step. -/
theorem stepTask_of_completed (g : Nat) (rec : RecorderState) (t : TaskState)
    (reply : ClientReply) (hc : t.completed = true) : stepTask g rec t reply = none := by
  unfold TaskState.completed at hc
  simp only [decide_eq_true_eq] at hc
  unfold stepTask
  rw [hc.1]
  simp only
  rw [if_neg hc.2]

/-- When all tasks have completed, no step is possible: the only run is the empty one. -/
theorem runSteps_of_all_completed (s : SystemState) (hc : ∀ t ∈ s.tasks, t.completed = true)
    (acts : List (Nat × ClientReply)) (s' : SystemState) (h : runSteps s acts = some s') :
    acts = [] ∧ s' = s := by
  cases acts with
  | nil =>
    simp only [runSteps, Option.some.injEq] at h
    exact ⟨rfl, h.symm⟩
  | cons a rest =>
    obtain ⟨k, reply⟩ := a
    simp only [runSteps] at h
    split at h
    · exact absurd h (by simp)
    · rename_i s₁ hstep
      obtain ⟨pre, t, post, t', h1, _, h3⟩ := step_spec s s₁ k reply hstep
      have htc := hc t (by rw [h1]; exact List.mem_append_right _ (List.mem_cons_self _ _))
      rw [stepTask_of_completed _ _ _ _ htc] at h3
      exact absurd h3 (by simp)

/-- The threads started with numbers of operations that are not positive have all completed as
they start. -/
theorem taskList_completed (ops nw nr rops : Int) (hops : ops ≤ 0) (hrops : rops ≤ 0) :
    ∀ t ∈ taskList ops nw nr rops, t.completed = true := by
  intro t ht
  unfold taskList at ht
  rw [List.mem_append, List.mem_map, List.mem_map] at ht
  rcases ht with ⟨i, _, rfl⟩ | ⟨i, _, rfl⟩
  · simp only [TaskState.completed, TaskState.start, decide_eq_true_eq, true_and]
    push_cast
    omega
  · simp only [TaskState.completed, TaskState.start, decide_eq_true_eq, true_and]
    push_cast
    omega

theorem taskList_length (ops nw nr rops : Int) :
    (taskList ops nw nr rops).length = nw.toNat + nr.toNat := by
  simp [taskList]

/-- Zero rounds to zero in every format. -/
theorem round_zero (fmt : FloatFormat) (d : Nat) :
    fmt.round 0 d = some { num := 0, den := 1 } := by
  unfold FloatFormat.round
  simp only [Int.natAbs_zero, roundMag_zero, Int.sign_zero, Int.zero_mul, Nat.mul_one]
  rw [if_neg]
  have := pow_toNat_pos (fmt.emax + 1)
  omega

theorem truncToInt_zero : truncToInt { num := 0, den := 1 } = some 0 := by
  decide

/-- On the ratio `0`, `std::stod` returns `0`. -/
theorem stod_zero (den : Nat) : stod 0 den = .value { num := 0, den := 1 } := by
  rw [stod_of_round 0 den _ (round_zero binary64 den), if_neg]
  intro h
  exact h.2 (by simp)

/-- Where `write_ratio` has a value, `std::stod` has returned. -/
theorem stod_of_writeRatio (num : Int) (den : Nat) (h : (writeRatio num den).isSome = true) :
    ∃ d, stod num den = .value d := by
  unfold writeRatio at h
  split at h
  · simp at h
  · rename_i d hd
    exact ⟨d, hd⟩

/-- Where the worker counts are derived, `std::stod` has returned. -/
theorem stod_of_deriveWorkers (total num : Int) (den : Nat) (x : Int × Int)
    (h : deriveWorkers total num den = some x) : ∃ d, stod num den = .value d := by
  apply stod_of_writeRatio
  unfold deriveWorkers at h
  split at h
  · exact absurd h (by simp)
  · rename_i w hw
    rw [hw]
    rfl

/-- The outcome of `main` once the worker counts are derived. -/
theorem mainTasks_of_deriveWorkers (ops total num : Int) (den : Nat) (nw nr : Int)
    (hd : deriveWorkers total num den = some (nw, nr)) :
    mainTasks ops total num den
      = if total < 0 then some .lengthError
        else (spawnTasks ops nw nr).map MainOutcome.spawned := by
  obtain ⟨d, hs⟩ := stod_of_deriveWorkers total num den _ hd
  unfold mainTasks
  rw [hs, hd]
  simp only
  split
  · rfl
  · cases spawnTasks ops nw nr <;> rfl

/-- With `total_threads = 0` and a ratio for which `write_ratio` has a value, both counts are
`0`. -/
theorem deriveWorkers_zero_threads (num : Int) (den : Nat)
    (hw : (writeRatio num den).isSome = true) : deriveWorkers 0 num den = some (0, 0) := by
  obtain ⟨w, hw⟩ := Option.isSome_iff_exists.mp hw
  unfold deriveWorkers
  rw [hw]
  simp only [floatProduct, round_zero, Int.zero_mul, truncToInt_zero]
  simp

/-- The conversion of `total_threads` to `float` is defined for every non-negative `int`. -/
theorem round_int_defined (total : Nat) (ht : total < 2 ^ 31) :
    ∃ t : Fraction, binary32.round (total : Int) 1 = some t := by
  have h1 : (total : ℚ) / ((1 : Nat) : ℚ) ≤ ((2 ^ 23 : Nat) : ℚ) * (2 : ℚ) ^ (8 : Int) := by
    rw [Nat.cast_one, div_one]
    have h31 : (total : ℚ) ≤ ((2 ^ 31 : Nat) : ℚ) := by exact_mod_cast ht.le
    have hz : ((2 ^ 23 : Nat) : ℚ) * (2 : ℚ) ^ (8 : Int) = ((2 ^ 31 : Nat) : ℚ) := by norm_num
    rw [hz]
    exact h31
  obtain ⟨t, ht', _⟩ := round_of_nonneg binary32 total 1 (by decide) (by decide) (by decide)
    (2 ^ 23) 8 (by decide) (by decide) (by norm_num [binary32]) h1
  exact ⟨t, ht'⟩

/-- With ratio `0` there is no writer: the counts are `0` and `total_threads`. -/
theorem deriveWorkers_zero_ratio (total : Int) (den : Nat) (h0 : 0 ≤ total)
    (h1 : total < 2 ^ 31) : deriveWorkers total 0 den = some (0, total) := by
  obtain ⟨n, rfl⟩ := Int.eq_ofNat_of_zero_le h0
  obtain ⟨t, ht⟩ := round_int_defined n (by exact_mod_cast h1)
  unfold deriveWorkers writeRatio
  simp only [stod_zero, round_zero, floatProduct, ht, Int.mul_zero, truncToInt_zero]
  simp only [lt_self_iff_false, false_and, if_false, Int.sub_zero]
  rw [if_neg (by omega)]

/-- A step changes neither the kind, nor the actor id, nor the number of operations of any
task. -/
theorem step_keeps_identity (s s' : SystemState) (k : Nat) (reply : ClientReply)
    (h : step s k reply = some s') :
    s'.tasks.map (fun t => (t.kind, t.thread_id, t.num_ops))
      = s.tasks.map (fun t => (t.kind, t.thread_id, t.num_ops)) := by
  obtain ⟨pre, t, post, t', h1, h2, h3⟩ := step_spec s s' k reply h
  rw [h1, h2, List.map_append, List.map_append, List.map_cons, List.map_cons]
  have ht : (t'.kind, t'.thread_id, t'.num_ops) = (t.kind, t.thread_id, t.num_ops) := by
    rcases stepTask_cases _ _ _ _ _ _ _ h3 with ⟨_, _, _, _, e⟩ | ⟨_, _, _, _, e⟩
      | ⟨_, _, _, _, _, _, e⟩ | ⟨_, _, _, _, _, e⟩ <;> rw [e]
  rw [ht]

/-- A run changes neither the kind, nor the actor id, nor the number of operations of any
task. -/
theorem run_keeps_identity (acts : List (Nat × ClientReply)) (s s' : SystemState)
    (h : runSteps s acts = some s') :
    s'.tasks.map (fun t => (t.kind, t.thread_id, t.num_ops))
      = s.tasks.map (fun t => (t.kind, t.thread_id, t.num_ops)) :=
  runSteps_induction
    (fun x => x.tasks.map (fun t => (t.kind, t.thread_id, t.num_ops))
      = s.tasks.map (fun t => (t.kind, t.thread_id, t.num_ops)))
    (fun x k reply x' hx hstep => (step_keeps_identity x x' k reply hstep).trans hx)
    acts s s' rfl h

/-- Reader number `j` of `main` is still a task at the end of a run. -/
theorem reader_of_run (ops nw nr rops : Int) (acts : List (Nat × ClientReply))
    (s : SystemState)
    (hrun : runSteps (SystemState.start (taskList ops nw nr rops)) acts = some s) (j : Nat)
    (hj : j < nr.toNat) :
    ∃ t ∈ s.tasks, t.kind = .reader ∧ t.thread_id = nw + (j : Int) ∧ t.num_ops = rops := by
  have hid := run_keeps_identity acts _ s hrun
  have hmem : (TaskKind.reader, nw + (j : Int), rops)
      ∈ (SystemState.start (taskList ops nw nr rops)).tasks.map
          (fun t => (t.kind, t.thread_id, t.num_ops)) := by
    rw [List.mem_map]
    refine ⟨TaskState.start .reader (nw + (j : Int)) rops, ?_, rfl⟩
    show _ ∈ taskList ops nw nr rops
    unfold taskList
    rw [List.mem_append]
    right
    rw [List.mem_map]
    exact ⟨j, List.mem_range.mpr hj, rfl⟩
  rw [← hid, List.mem_map] at hmem
  obtain ⟨t, ht, he⟩ := hmem
  simp only [Prod.mk.injEq] at he
  exact ⟨t, ht, he.1, he.2.1, he.2.2⟩

/-! ## The calls of the log client -/

theorem readCalls_append (v : Int) (a b : List (Int × ClientCall)) :
    readCalls v (a ++ b) = readCalls v a ++ readCalls v b := by
  unfold readCalls
  rw [List.filterMap_append]

/-- The call that returns in the next step of a task, by the phase and kind of the task. -/
theorem returningCall_cases (t : TaskState) :
    ((∀ req, t.phase ≠ .invoked req) → t.returningCall = [])
    ∧ (∀ req, t.phase = .invoked req → t.kind = .reader →
        t.returningCall = [(t.thread_id, .ReadEntry t.i)])
    ∧ (∀ req, t.phase = .invoked req → t.kind = .writer →
        t.returningCall = [(t.thread_id, .AppendEntry (writerPayload t.thread_id t.i))]) := by
  refine ⟨fun h => ?_, fun req hp hk => ?_, fun req hp hk => ?_⟩
  · unfold TaskState.returningCall TaskState.clientCall
    cases hp : t.phase with
    | invoked req => exact absurd hp (h req)
    | loopTest => rfl
    | allocated req => rfl
    | returned req sq => rfl
  · simp [TaskState.returningCall, TaskState.clientCall, hp, hk]
  · simp [TaskState.returningCall, TaskState.clientCall, hp, hk]

/-- Every step keeps the invariant of the calls: the `ReadEntry` calls of a reader that have
returned are those at the indices `0, 1, ...` below the number of its calls that have
returned. -/
theorem readCalls_step (tasks₀ : List TaskState) (s s' : SystemState) (k : Nat)
    (reply : ClientReply) (inv : ProgressInvariant tasks₀ s)
    (hcalls : ∀ t ∈ s.tasks, t.kind = .reader →
      readCalls t.thread_id s.calls = (List.range t.called).map Int.ofNat)
    (h : step s k reply = some s') :
    ∀ t ∈ s'.tasks, t.kind = .reader →
      readCalls t.thread_id s'.calls = (List.range t.called).map Int.ofNat := by
  obtain ⟨pre, t, post, t', hs, hs', hst, hcl⟩ := step_spec_calls s s' k reply h
  have htmem : t ∈ s.tasks := hs ▸ List.mem_append_right _ (List.mem_cons_self _ _)
  have hactors := inv.actors_nodup
  rw [hs] at hactors
  have hoa := others_other_actor pre post t hactors
  obtain ⟨hnone, hread, hwrite⟩ := returningCall_cases t
  -- a step in which no client call returns
  have hquiet : t.returningCall = [] → t'.thread_id = t.thread_id → t'.kind = t.kind →
      t'.called = t.called →
      ∀ u ∈ s'.tasks, u.kind = .reader →
        readCalls u.thread_id s'.calls = (List.range u.called).map Int.ofNat := by
    intro hq htid hkind hcalled u hu hr
    rw [hcl, hq, List.append_nil]
    rw [hs'] at hu
    rcases mem_tasks_split hu with h | h
    · subst h
      rw [htid, hcalled]
      exact hcalls t htmem (hkind ▸ hr)
    · exact hcalls u (hs ▸ mem_of_split h) hr
  rcases stepTask_cases _ _ _ _ _ _ _ hst with
    ⟨hph, _, _, _, ht'⟩ | ⟨req, hph, _, _, ht'⟩ | ⟨req, sq, d, hph, _, _, ht'⟩
      | ⟨req, sq, hph, _, _, ht'⟩
  · subst ht'
    exact hquiet (hnone (fun r hr => by rw [hph] at hr; exact absurd hr (by simp))) rfl rfl
      (by simp [TaskState.called, hph])
  · subst ht'
    exact hquiet (hnone (fun r hr => by rw [hph] at hr; exact absurd hr (by simp))) rfl rfl
      (by simp [TaskState.called, hph])
  · subst ht'
    intro u hu hr
    rw [hcl, readCalls_append]
    rw [hs'] at hu
    rcases mem_tasks_split hu with h | h
    · subst h
      have hk : t.kind = .reader := hr
      rw [hread req hph hk]
      show readCalls t.thread_id s.calls ++ readCalls t.thread_id [(t.thread_id, .ReadEntry t.i)]
        = (List.range (t.i + 1)).map Int.ofNat
      rw [hcalls t htmem hk, List.range_succ, List.map_append]
      simp [readCalls, TaskState.called, hph]
    · have hne := hoa u h
      have hrest : readCalls u.thread_id t.returningCall = [] := by
        cases hk : t.kind with
        | reader =>
          rw [hread req hph hk]
          have : ¬ (t.thread_id = u.thread_id) := fun e => hne e.symm
          simp [readCalls, this]
        | writer =>
          rw [hwrite req hph hk]
          simp [readCalls]
      rw [hrest, List.append_nil]
      exact hcalls u (hs ▸ mem_of_split h) hr
  · subst ht'
    exact hquiet (hnone (fun r hr => by rw [hph] at hr; exact absurd hr (by simp))) rfl rfl
      (by simp [TaskState.called, hph])

/-- In every state that a run of the threads of `main` reaches, the counting invariant holds and
the `ReadEntry` calls of every reader that have returned are those at the indices `0, 1, ...`
below the number of its calls that have returned. -/
theorem readCalls_of_run (ops nw nr rops : Int) (acts : List (Nat × ClientReply))
    (s : SystemState)
    (hrun : runSteps (SystemState.start (taskList ops nw nr rops)) acts = some s) :
    ∀ t ∈ s.tasks, t.kind = .reader →
      readCalls t.thread_id s.calls = (List.range t.called).map Int.ofNat := by
  have h := runSteps_induction
    (fun x => ProgressInvariant (taskList ops nw nr rops) x
      ∧ ∀ t ∈ x.tasks, t.kind = .reader →
          readCalls t.thread_id x.calls = (List.range t.called).map Int.ofNat)
    (fun x k reply x' hx hstep =>
      ⟨progressInvariant_step _ x x' k reply hx.1 hstep,
        readCalls_step _ x x' k reply hx.1 hx.2 hstep⟩)
    acts _ s
    ⟨progressInvariant_start _ (taskList_fresh ops nw nr rops)
        (taskList_actors_nodup ops nw nr rops),
      fun t ht _ => by
        have hf := taskList_fresh ops nw nr rops t ht
        simp [TaskState.called, hf.1, hf.2, SystemState.start, readCalls]⟩
    hrun
  exact h.2

section MainConfigurations

set_option exponentiation.threshold 2000
set_option maxRecDepth 1000000

/-- C16 (counterexample): `count = 1`, `threads = 4` and ratio `1.5`, outside `[0, 1]`, is not
rejected: six writers are started, and after two steps of writer `0` the history holds its
Invoke/Write record.  `count = 0`, `threads = 5` and ratio `0.8` is not rejected either: five
tasks are started. -/
theorem invalid_configuration_starts_tasks :
    mainTasks 1 4 3 2 = some (.spawned (taskList 1 6 (-2) 6))
    ∧ (taskList 1 6 (-2) 6).map (fun t => (t.kind, t.thread_id, t.num_ops))
        = [(.writer, 0, 1), (.writer, 1, 1), (.writer, 2, 1), (.writer, 3, 1), (.writer, 4, 1),
            (.writer, 5, 1)]
    ∧ (runSteps (SystemState.start (taskList 1 6 (-2) 6))
          [(0, { seq_nums := [], data := "" }), (0, { seq_nums := [], data := "" })]).map
        (fun s => s.recorder.global_history)
        = some [{ req_id := 0, thread_id := 0, event_type := .INVOKE, op_type := .OP_WRITE,
                  value := "00_00000", idx := -1, seq_nums := [] }]
    ∧ mainTasks 0 5 8 10 = some (.spawned (taskList 0 4 1 0))
    ∧ (taskList 0 4 1 0).map (fun t => (t.kind, t.thread_id, t.num_ops))
        = [(.writer, 0, 0), (.writer, 1, 0), (.writer, 2, 0), (.writer, 3, 0), (.reader, 4, 0)] := by
  decide

/-- C16 (amended): `main` tests no configuration value.  Where the worker counts are derived,
a negative `total_threads` makes `threads.reserve` throw before any thread is started.  For
`0 ≤ total_threads`, `main` has a defined outcome exactly when its tasks are defined, that is
when no reader is started or `ops_per_thread * num_writers` is an `int`, and then the tasks are
started whatever `ops_per_thread` and the ratio are: first as many writers as `num_writers`
says, then as many readers as `num_readers` says (none for a number that is not positive).
When `ops_per_thread ≤ 0` and `0 ≤ num_writers` the started tasks have no step, so that the
history stays empty. -/
theorem configuration_is_not_validated (ops total num : Int) (den : Nat) (nw nr : Int)
    (hd : deriveWorkers total num den = some (nw, nr)) :
    (total < 0 → mainTasks ops total num den = some .lengthError)
    ∧ ((spawnTasks ops nw nr).isSome = true
        ↔ (nr ≤ 0 ∨ (-2 ^ 31 ≤ ops * nw ∧ ops * nw < 2 ^ 31)))
    ∧ (0 ≤ total → ∀ tasks, spawnTasks ops nw nr = some tasks →
        mainTasks ops total num den = some (.spawned tasks)
        ∧ tasks.map TaskState.kind
            = List.replicate nw.toNat .writer ++ List.replicate nr.toNat .reader
        ∧ tasks.length = nw.toNat + nr.toNat)
    ∧ (0 ≤ total → spawnTasks ops nw nr = none → mainTasks ops total num den = none)
    ∧ (ops ≤ 0 → 0 ≤ nw → ∀ tasks, spawnTasks ops nw nr = some tasks → ∀ acts s,
        runSteps (SystemState.start tasks) acts = some s →
        acts = [] ∧ s.recorder.global_history = []) := by
  have hm := mainTasks_of_deriveWorkers ops total num den nw nr hd
  refine ⟨fun ht => ?_, ⟨fun h => ?_, fun h => ?_⟩, fun ht tasks hsp => ⟨?_, ?_, ?_⟩,
    fun ht hsp => ?_, fun hops hnw tasks hsp acts s hrun => ?_⟩
  · rw [hm, if_pos ht]
  · obtain ⟨tasks, htasks⟩ := Option.isSome_iff_exists.mp h
    exact (spawnTasks_eq_some ops nw nr tasks htasks).2
  · unfold spawnTasks
    rw [if_neg]
    · rfl
    · intro hcon
      rcases h with h | h
      · omega
      · rcases hcon.2 with h' | h'
        · omega
        · omega
  · rw [hm, if_neg (by omega), hsp]
    rfl
  · rw [(spawnTasks_eq_some ops nw nr tasks hsp).1]
    simp [taskList, TaskState.start, Function.comp_def]
  · rw [(spawnTasks_eq_some ops nw nr tasks hsp).1, taskList_length]
  · rw [hm, if_neg (by omega), hsp]
    rfl
  · obtain ⟨htasks, _⟩ := spawnTasks_eq_some ops nw nr tasks hsp
    subst htasks
    obtain ⟨h1, h2⟩ := runSteps_of_all_completed
      (SystemState.start (taskList ops nw nr (ops * nw)))
      (taskList_completed ops nw nr (ops * nw) hops
        (Int.mul_nonpos_of_nonpos_of_nonneg hops hnw)) acts s hrun
    refine ⟨h1, ?_⟩
    rw [h2]
    rfl

/-- C16 (witness): `count = 0`, `threads = 5`, ratio `0.8` starts four writers and one reader,
none of which has a step; `threads = -1` makes `reserve` throw. -/
theorem configuration_is_not_validated_witness :
    deriveWorkers 5 8 10 = some (4, 1)
    ∧ spawnTasks 0 4 1 = some (taskList 0 4 1 0)
    ∧ mainTasks 0 5 8 10 = some (.spawned (taskList 0 4 1 0))
    ∧ (taskList 0 4 1 0).map TaskState.kind = [.writer, .writer, .writer, .writer, .reader]
    ∧ (∀ acts s, runSteps (SystemState.start (taskList 0 4 1 0)) acts = some s →
        acts = [] ∧ s.recorder.global_history = [])
    ∧ deriveWorkers (-1) 8 10 = some (0, -1)
    ∧ mainTasks 10 (-1) 8 10 = some .lengthError := by
  have h := configuration_is_not_validated 0 5 8 10 4 1 (by decide)
  have h' := configuration_is_not_validated 10 (-1) 8 10 0 (-1) (by decide)
  have hsp : spawnTasks 0 4 1 = some (taskList 0 4 1 0) := by decide
  exact ⟨by decide, hsp, (h.2.2.1 (by decide) _ hsp).1, (h.2.2.1 (by decide) _ hsp).2.1,
    h.2.2.2.2 (by decide) (by decide) _ hsp, by decide, h'.1 (by decide)⟩

/-- C17 (counterexample): with `total_threads = 0` and the ratio `10^(-320)`, `std::stod` throws
`std::out_of_range`: no worker count is derived and `main` stops before `DumpGlobalHistory`.
With the ratio `10^39`, which is a `double` outside the range of `float`, the derivation has no
defined result. -/
theorem zero_threads_with_unusable_ratio :
    stod 1 (10 ^ 320) = .outOfRange
    ∧ deriveWorkers 0 1 (10 ^ 320) = none
    ∧ mainTasks 10 0 1 (10 ^ 320) = some .outOfRange
    ∧ stod (10 ^ 39) 1 = .value { num := 6617444900424221 * 2 ^ 77, den := 1 }
    ∧ writeRatio (10 ^ 39) 1 = none
    ∧ deriveWorkers 0 (10 ^ 39) 1 = none
    ∧ mainTasks 10 0 (10 ^ 39) 1 = none := by
  decide

/-- C17 (amended): with `total_threads = 0`, for every `ops_per_thread` and every ratio on which
`std::stod` returns a `double` in the range of `float` (`write_ratio` has a value), the
derivation gives no writer and no reader, `main` starts no task, the only run is the empty one,
its history is empty, and `DumpGlobalHistory` writes the empty text. -/
theorem zero_threads_gives_empty_output (ops num : Int) (den : Nat)
    (hw : (writeRatio num den).isSome = true) :
    deriveWorkers 0 num den = some (0, 0)
    ∧ mainTasks ops 0 num den = some (.spawned [])
    ∧ (∀ acts s, runSteps (SystemState.start []) acts = some s →
        acts = [] ∧ s.recorder.global_history = []
        ∧ DumpGlobalHistory true s.recorder = (s.recorder, some "")) := by
  have hd := deriveWorkers_zero_threads num den hw
  refine ⟨hd, ?_, fun acts s hrun => ?_⟩
  · rw [mainTasks_of_deriveWorkers ops 0 num den 0 0 hd, if_neg (by decide)]
    simp [spawnTasks, taskList]
  · obtain ⟨h1, h2⟩ := runSteps_of_all_completed (SystemState.start [])
      (fun t ht => absurd ht (List.not_mem_nil t)) acts s hrun
    subst h2
    exact ⟨h1, rfl, rfl⟩

/-- C17 (witness): `threads = 0` with ratio `0.8` and `count = 10`. -/
theorem zero_threads_gives_empty_output_witness :
    (writeRatio 8 10).isSome = true
    ∧ deriveWorkers 0 8 10 = some (0, 0)
    ∧ mainTasks 10 0 8 10 = some (.spawned [])
    ∧ (∀ acts s, runSteps (SystemState.start []) acts = some s →
        acts = [] ∧ s.recorder.global_history = []
        ∧ DumpGlobalHistory true s.recorder = (s.recorder, some "")) :=
  ⟨by decide, zero_threads_gives_empty_output 10 8 10 (by decide)⟩

end MainConfigurations

section ReaderRuns

set_option maxRecDepth 100000

/-- C18: a reader at loop index `i` takes four steps for its operation, whatever the counter and
the recorder state are at each of them: it obtains a request identifier, records its invoke,
calls `ReadEntry` at index `i` (the snapshot that `RecordReadInvoke` returns is not used), and
records a Response/Read record with index `i` and the value the client returned.  Hence in
every state that a run of the tasks spawned by `main` reaches, the `ReadEntry` calls of every
reader that have returned are those at the indices `0, 1, ...` in this order, and its
Response/Read records carry the indices `0, 1, ...` in recorder order; when all tasks have
completed, both are `0, 1, ..., N - 1`, with `N` the `int` number of operations the reader
was given. -/
theorem reader_sweeps_indices (ops nw nr : Int) (tasks : List TaskState)
    (hsp : spawnTasks ops nw nr = some tasks) :
    (∀ (t : TaskState) (g₀ g₁ g₂ g₃ : Nat) (rec₀ rec₁ rec₂ rec₃ : RecorderState)
        (r₀ r₁ r₂ r₃ : ClientReply),
        t.kind = .reader → t.phase = .loopTest → (t.i : Int) < t.num_ops →
        ∃ t₁ t₂ t₃,
          stepTask g₀ rec₀ t r₀ = some ((g₀ + 1) % 2 ^ 64, rec₀, t₁)
          ∧ stepTask g₁ rec₁ t₁ r₁
              = some (g₁, (RecordReadInvoke rec₁ g₀ t.thread_id).1, t₂)
          ∧ t₂.clientCall = some (.ReadEntry t.i)
          ∧ t₂.returningCall = [(t.thread_id, .ReadEntry t.i)]
          ∧ stepTask g₂ rec₂ t₂ r₂ = some (g₂, rec₂, t₃)
          ∧ stepTask g₃ rec₃ t₃ r₃
              = some (g₃, RecordReadResponse rec₃ g₀ t.thread_id r₂.data t.i,
                  { t with i := t.i + 1, data := r₂.data, phase := .loopTest })
          ∧ (RecordReadResponse rec₃ g₀ t.thread_id r₂.data t.i).global_history
              = rec₃.global_history
                ++ [{ req_id := g₀, thread_id := t.thread_id, event_type := .RESPONSE,
                      op_type := .OP_READ, value := r₂.data, idx := t.i, seq_nums := [] }])
    ∧ ∀ (acts : List (Nat × ClientReply)) (s : SystemState),
        runSteps (SystemState.start tasks) acts = some s →
        (∀ j : Nat, j < nr.toNat →
          ∃ t ∈ s.tasks, t.kind = .reader ∧ t.thread_id = nw + (j : Int)
            ∧ t.num_ops = ops * nw
            ∧ readCalls (nw + (j : Int)) s.calls = (List.range t.called).map Int.ofNat
            ∧ readResponseIndices (nw + (j : Int)) s.recorder.global_history
                = (List.range t.i).map Int.ofNat)
        ∧ ((∀ t ∈ s.tasks, t.completed = true) →
            ∀ j : Nat, j < nr.toNat →
              (ops * nw).toNat < 2 ^ 31
              ∧ readCalls (nw + (j : Int)) s.calls
                  = (List.range (ops * nw).toNat).map Int.ofNat
              ∧ readResponseIndices (nw + (j : Int)) s.recorder.global_history
                  = (List.range (ops * nw).toNat).map Int.ofNat) := by
  obtain ⟨htasks, hrange⟩ := spawnTasks_eq_some ops nw nr tasks hsp
  subst htasks
  refine ⟨?_, ?_⟩
  · intro t g₀ g₁ g₂ g₃ rec₀ rec₁ rec₂ rec₃ r₀ r₁ r₂ r₃ hk hph hlt
    refine ⟨{ t with phase := .allocated g₀ }, { t with phase := .invoked g₀ },
      { t with phase := .returned g₀ [], data := r₂.data }, ?_, ?_, ?_, ?_, ?_, ?_, rfl⟩
    · unfold stepTask
      rw [hph]
      simp only
      rw [if_pos hlt]
      rfl
    · simp only [stepTask, hk]
    · simp only [TaskState.clientCall, hk]
    · simp only [TaskState.returningCall, TaskState.clientCall, hk]
    · simp only [stepTask, hk]
    · simp only [stepTask, hk]
  · intro acts s hrun
    have inv := progressInvariant_of_run ops nw nr (ops * nw) acts s hrun
    have hcalls := readCalls_of_run ops nw nr (ops * nw) acts s hrun
    have hreach : ∀ j : Nat, j < nr.toNat →
        ∃ t ∈ s.tasks, t.kind = .reader ∧ t.thread_id = nw + (j : Int)
          ∧ t.num_ops = ops * nw
          ∧ readCalls (nw + (j : Int)) s.calls = (List.range t.called).map Int.ofNat
          ∧ readResponseIndices (nw + (j : Int)) s.recorder.global_history
              = (List.range t.i).map Int.ofNat := by
      intro j hj
      obtain ⟨t, ht, hk, hid, hn⟩ := reader_of_run ops nw nr (ops * nw) acts s hrun j hj
      refine ⟨t, ht, hk, hid, hn, ?_, ?_⟩
      · rw [← hid]
        exact hcalls t ht hk
      · rw [← hid]
        exact inv.reads t ht hk
    refine ⟨hreach, fun hc j hj => ?_⟩
    obtain ⟨t, ht, hk, hid, hn, h1, h2⟩ := hreach j hj
    have hi := (started_of_completed t (inv.bounded t ht) (hc t ht)).2
    have hcalled : t.called = t.i := by
      have hph := hc t ht
      unfold TaskState.completed at hph
      simp only [decide_eq_true_eq] at hph
      simp [TaskState.called, hph.1]
    rw [hcalled, hi, hn] at h1
    rw [hi, hn] at h2
    refine ⟨?_, h1, h2⟩
    rcases hrange with h | h
    · omega
    · omega

/-- C18 (witness): one writer and one reader with two operations each, run one after the other:
the reader, actor `1`, calls `ReadEntry` at the indices `0` and `1` and records responses with
these indices. -/
theorem reader_sweeps_indices_witness :
    spawnTasks 2 1 1 = some (taskList 2 1 1 2)
    ∧ ∃ s, runSteps (SystemState.start (taskList 2 1 1 2))
          (sequentialSchedule (taskList 2 1 1 2)) = some s
      ∧ (∀ t ∈ s.tasks, t.completed = true)
      ∧ readCalls 1 s.calls = [0, 1]
      ∧ readResponseIndices 1 s.recorder.global_history = [0, 1] := by
  have hsome : (completeRun (taskList 2 1 1 2)
      (sequentialSchedule (taskList 2 1 1 2))).isSome = true := by decide
  obtain ⟨s, hs⟩ := Option.isSome_iff_exists.mp hsome
  obtain ⟨hrun, hc⟩ := completeRun_spec _ _ s hs
  have h := ((reader_sweeps_indices 2 1 1 (taskList 2 1 1 2) (by decide)).2 _ s hrun).2 hc 0
    (by decide)
  exact ⟨by decide, s, hrun, hc, h.2.1, h.2.2⟩

/-- C20: when the derivation yields `num_writers = 0`, every started task is a reader with
`ops_per_thread * 0 = 0` operations, no task has a step, and the history of every run is empty:
it holds no Invoke/Read record.  Ratio `0` with `0 ≤ total_threads` is such a configuration. -/
theorem no_writer_gives_empty_history (ops total : Int) (den : Nat) :
    (0 ≤ total → total < 2 ^ 31 →
      deriveWorkers total 0 den = some (0, total)
      ∧ mainTasks ops total 0 den = some (.spawned (taskList ops 0 total 0)))
    ∧ ∀ num nr, deriveWorkers total num den = some (0, nr) →
        spawnTasks ops 0 nr = some (taskList ops 0 nr 0)
        ∧ (0 ≤ total → mainTasks ops total num den = some (.spawned (taskList ops 0 nr 0)))
        ∧ (∀ t ∈ taskList ops 0 nr 0, t.kind = .reader ∧ t.num_ops = 0)
        ∧ ∀ acts s, runSteps (SystemState.start (taskList ops 0 nr 0)) acts = some s →
            acts = [] ∧ s.recorder.global_history = []
            ∧ countInvokes (fun _ op => decide (op = .OP_READ)) s.recorder.global_history
                = 0 := by
  have hsp : ∀ nr, spawnTasks ops 0 nr = some (taskList ops 0 nr 0) := by
    intro nr
    unfold spawnTasks
    rw [Int.mul_zero, if_neg]
    intro h
    rcases h.2 with h | h
    · exact absurd h (by decide)
    · exact absurd h (by decide)
  have hmain : ∀ num nr, deriveWorkers total num den = some (0, nr) → 0 ≤ total →
      mainTasks ops total num den = some (.spawned (taskList ops 0 nr 0)) := by
    intro num nr hd ht
    rw [mainTasks_of_deriveWorkers ops total num den 0 nr hd, if_neg (by omega), hsp]
    rfl
  refine ⟨fun h0 h1 => ?_,
    fun num nr hd => ⟨hsp nr, hmain num nr hd, ?_, fun acts s hrun => ?_⟩⟩
  · have hd := deriveWorkers_zero_ratio total den h0 h1
    exact ⟨hd, hmain 0 total hd h0⟩
  · intro t ht
    unfold taskList at ht
    rw [List.mem_append, List.mem_map, List.mem_map] at ht
    rcases ht with ⟨i, hi, _⟩ | ⟨i, _, rfl⟩
    · simp at hi
    · simp [TaskState.start]
  · have hc : ∀ t ∈ taskList ops 0 nr 0, t.completed = true := by
      intro t ht
      unfold taskList at ht
      rw [List.mem_append, List.mem_map, List.mem_map] at ht
      rcases ht with ⟨i, hi, _⟩ | ⟨i, _, rfl⟩
      · simp at hi
      · simp [TaskState.completed, TaskState.start]
    obtain ⟨h1, h2⟩ := runSteps_of_all_completed (SystemState.start (taskList ops 0 nr 0))
      hc acts s hrun
    subst h2
    exact ⟨h1, rfl, rfl⟩

/-- C20 (witness): `threads = 5` with ratio `0` and `count = 10` starts five readers with no
operation; the only run is the empty one. -/
theorem no_writer_gives_empty_history_witness :
    deriveWorkers 5 0 10 = some (0, 5)
    ∧ mainTasks 10 5 0 10 = some (.spawned (taskList 10 0 5 0))
    ∧ (taskList 10 0 5 0).map (fun t => (t.kind, t.thread_id, t.num_ops))
        = [(.reader, 0, 0), (.reader, 1, 0), (.reader, 2, 0), (.reader, 3, 0), (.reader, 4, 0)]
    ∧ ∀ acts s, runSteps (SystemState.start (taskList 10 0 5 0)) acts = some s →
        acts = [] ∧ s.recorder.global_history = []
        ∧ countInvokes (fun _ op => decide (op = .OP_READ)) s.recorder.global_history = 0 :=
  ⟨((no_writer_gives_empty_history 10 5 10).1 (by decide) (by decide)).1,
    ((no_writer_gives_empty_history 10 5 10).1 (by decide) (by decide)).2,
    by decide,
    ((no_writer_gives_empty_history 10 5 10).2 0 5
      ((no_writer_gives_empty_history 10 5 10).1 (by decide) (by decide)).1).2.2.2⟩

end ReaderRuns

theorem apply_history (s : RecorderState) (op : RecorderOp) :
    (op.apply s).global_history = s.global_history ++ [op.record] := by
  cases op <;> rfl

theorem runOps_history (ops : List RecorderOp) (s : RecorderState) :
    (runOps s ops).global_history = s.global_history ++ ops.map RecorderOp.record := by
  induction ops generalizing s with
  | nil => simp [runOps_nil]
  | cons op ops ih => rw [runOps_cons, ih, apply_history]; simp

/-- Two lists that start with elements of a kind and go on with an element not of that kind, or
end there, are equal only if the starts are equal and the rests are equal. -/
theorem append_inj_of_kind {α : Type} (P : α → Prop) (a b u v : List α)
    (ha : ∀ x ∈ a, P x) (hb : ∀ x ∈ b, P x) (hu : ∀ x, u.head? = some x → ¬ P x)
    (hv : ∀ x, v.head? = some x → ¬ P x) (h : a ++ u = b ++ v) : a = b ∧ u = v := by
  induction a generalizing b with
  | nil =>
    cases b with
    | nil => exact ⟨rfl, h⟩
    | cons y ys =>
      simp only [List.nil_append, List.cons_append] at h
      exact absurd (hb y (List.mem_cons_self _ _)) (hu y (by rw [h]; rfl))
  | cons x xs ih =>
    cases b with
    | nil =>
      simp only [List.nil_append, List.cons_append] at h
      exact absurd (ha x (List.mem_cons_self _ _)) (hv x (by rw [← h]; rfl))
    | cons y ys =>
      simp only [List.cons_append, List.cons.injEq] at h
      obtain ⟨h1, h2⟩ := ih ys (fun z hz => ha z (List.mem_cons_of_mem _ hz))
        (fun z hz => hb z (List.mem_cons_of_mem _ hz)) h.2
      exact ⟨by rw [h.1, h1], h2⟩

theorem showUInt_data_injective (m n : Nat) (h : (showUInt m).data = (showUInt n).data) :
    m = n :=
  showUInt_injective m n (String.ext h)

theorem showInt_data_neg (m : Nat) :
    (showInt (Int.negSucc m)).data = '-' :: (showUInt (m + 1)).data := rfl

theorem showInt_data_injective (a b : Int) (h : (showInt a).data = (showInt b).data) :
    a = b := by
  cases a with
  | ofNat m =>
    cases b with
    | ofNat n => rw [showUInt_data_injective m n h]
    | negSucc n =>
      rw [showInt_data_neg] at h
      have := showUInt_isDigit m '-' (by
        show '-' ∈ (showInt (Int.ofNat m)).data
        rw [h]
        exact List.mem_cons_self _ _)
      exact absurd this (by decide)
  | negSucc m =>
    cases b with
    | ofNat n =>
      rw [showInt_data_neg] at h
      have := showUInt_isDigit n '-' (by
        show '-' ∈ (showInt (Int.ofNat n)).data
        rw [← h]
        exact List.mem_cons_self _ _)
      exact absurd this (by decide)
    | negSucc n =>
      rw [showInt_data_neg, showInt_data_neg, List.cons.injEq] at h
      have := showUInt_data_injective _ _ h.2
      rw [Nat.add_right_cancel this]

/-- Decimal numbers followed by something that is not a digit. -/
theorem showUInt_append_inj (m n : Nat) (u v : List Char)
    (hu : ∀ x, u.head? = some x → ¬ x.isDigit = true)
    (hv : ∀ x, v.head? = some x → ¬ x.isDigit = true)
    (h : (showUInt m).data ++ u = (showUInt n).data ++ v) : m = n ∧ u = v := by
  obtain ⟨h1, h2⟩ := append_inj_of_kind (fun c => c.isDigit = true) _ _ u v
    (showUInt_isDigit m) (showUInt_isDigit n) hu hv h
  exact ⟨showUInt_data_injective m n h1, h2⟩

/-- Signed decimal numbers followed by something that is neither a digit nor a minus sign. -/
theorem showInt_append_inj (a b : Int) (u v : List Char)
    (hu : ∀ x, u.head? = some x → ¬ (x = '-' ∨ x.isDigit = true))
    (hv : ∀ x, v.head? = some x → ¬ (x = '-' ∨ x.isDigit = true))
    (h : (showInt a).data ++ u = (showInt b).data ++ v) : a = b ∧ u = v := by
  obtain ⟨h1, h2⟩ := append_inj_of_kind (fun c => c = '-' ∨ c.isDigit = true) _ _ u v
    (showInt_chars a) (showInt_chars b) hu hv h
  exact ⟨showInt_data_injective a b h1, h2⟩

theorem intercalate_go_join (acc s : String) (l : List String) :
    String.intercalate.go acc s l = acc ++ String.join (l.map fun x => s ++ x) := by
  induction l generalizing acc with
  | nil => simp [String.intercalate.go, String.join]
  | cons a l ih =>
    rw [String.intercalate.go, ih, List.map_cons, join_cons]
    simp [String.append_assoc]

theorem seqText_data_nil : (String.intercalate "," (([] : List Nat).map showUInt)).data = [] :=
  rfl

theorem seqText_data_cons (n : Nat) (l : List Nat) :
    (String.intercalate "," ((n :: l).map showUInt)).data
      = (showUInt n).data ++ (String.join (l.map fun m => "," ++ showUInt m)).data := by
  rw [List.map_cons, String.intercalate, intercalate_go_join, String.data_append, List.map_map]
  rfl

theorem seqJoin_data_nil :
    (String.join (([] : List Nat).map fun m => "," ++ showUInt m)).data = [] := rfl

theorem seqJoin_data_cons (n : Nat) (l : List Nat) :
    (String.join ((n :: l).map fun m => "," ++ showUInt m)).data
      = ',' :: ((showUInt n).data ++ (String.join (l.map fun m => "," ++ showUInt m)).data) := by
  rw [List.map_cons, join_cons, String.data_append, String.data_append]
  rfl

theorem head_cons_not (P : Char → Prop) (c : Char) (l : List Char) (hc : ¬ P c) :
    ∀ x, (c :: l).head? = some x → ¬ P x := by
  intro x hx
  simp only [List.head?_cons, Option.some.injEq] at hx
  rw [← hx]
  exact hc

theorem head_nil_not (P : Char → Prop) : ∀ x, ([] : List Char).head? = some x → ¬ P x := by
  intro x hx
  simp at hx

/-- The head of the rest of a `seq=` field followed by `u` is a comma or the head of `u`. -/
theorem seqJoin_head (l : List Nat) (u : List Char)
    (hu : ∀ x, u.head? = some x → ¬ x.isDigit = true) :
    ∀ x, ((String.join (l.map fun m => "," ++ showUInt m)).data ++ u).head? = some x →
      ¬ x.isDigit = true := by
  cases l with
  | nil => rw [seqJoin_data_nil]; exact hu
  | cons n l =>
    rw [seqJoin_data_cons]
    exact head_cons_not _ _ _ (by decide)

theorem seqJoin_inj (l₁ l₂ : List Nat) (u v : List Char)
    (hu : ∀ x, u.head? = some x → ¬ x.isDigit = true) (hu' : u.head? ≠ some ',')
    (hv : ∀ x, v.head? = some x → ¬ x.isDigit = true) (hv' : v.head? ≠ some ',')
    (h : (String.join (l₁.map fun m => "," ++ showUInt m)).data ++ u
        = (String.join (l₂.map fun m => "," ++ showUInt m)).data ++ v) :
    l₁ = l₂ ∧ u = v := by
  induction l₁ generalizing l₂ with
  | nil =>
    cases l₂ with
    | nil => exact ⟨rfl, by simpa [seqJoin_data_nil] using h⟩
    | cons n l₂ =>
      rw [seqJoin_data_nil, seqJoin_data_cons, List.nil_append, List.cons_append] at h
      exact absurd (by rw [h]; rfl) hu'
  | cons m l₁ ih =>
    cases l₂ with
    | nil =>
      rw [seqJoin_data_nil, seqJoin_data_cons, List.nil_append, List.cons_append] at h
      exact absurd (by rw [← h]; rfl) hv'
    | cons n l₂ =>
      rw [seqJoin_data_cons, seqJoin_data_cons, List.cons_append, List.cons_append,
        List.cons.injEq, List.append_assoc, List.append_assoc] at h
      obtain ⟨h1, h2⟩ := showUInt_append_inj m n _ _ (seqJoin_head l₁ u hu)
        (seqJoin_head l₂ v hv) h.2
      obtain ⟨h3, h4⟩ := ih l₂ h2
      exact ⟨by rw [h1, h3], h4⟩

/-- The text of a `seq=` field, followed by text that starts with neither a digit nor a comma,
determines the sequence numbers. -/
theorem seqText_inj (l₁ l₂ : List Nat) (u v : List Char)
    (hu : ∀ x, u.head? = some x → ¬ x.isDigit = true) (hu' : u.head? ≠ some ',')
    (hv : ∀ x, v.head? = some x → ¬ x.isDigit = true) (hv' : v.head? ≠ some ',')
    (hune : u ≠ []) (hvne : v ≠ [])
    (h : (String.intercalate "," (l₁.map showUInt)).data ++ u
        = (String.intercalate "," (l₂.map showUInt)).data ++ v) :
    l₁ = l₂ ∧ u = v := by
  have hdig : ∀ (n : Nat) (t w : List Char), w ≠ [] →
      (∀ x, w.head? = some x → ¬ x.isDigit = true) → w ≠ (showUInt n).data ++ t := by
    intro n t w hw hwd he
    obtain ⟨c, cs, hcs⟩ := List.exists_cons_of_ne_nil (showUInt_ne_nil n)
    obtain ⟨d, ds, hds⟩ := List.exists_cons_of_ne_nil hw
    rw [hcs, hds, List.cons_append, List.cons.injEq] at he
    have hd := showUInt_isDigit n c (by rw [hcs]; exact List.mem_cons_self _ _)
    exact hwd d (by rw [hds]; rfl) (by rw [he.1]; exact hd)
  cases l₁ with
  | nil =>
    cases l₂ with
    | nil => exact ⟨rfl, by simpa [seqText_data_nil] using h⟩
    | cons n l₂ =>
      rw [seqText_data_nil, seqText_data_cons, List.nil_append, List.append_assoc] at h
      exact absurd h (hdig n _ u hune hu)
  | cons m l₁ =>
    cases l₂ with
    | nil =>
      rw [seqText_data_nil, seqText_data_cons, List.nil_append, List.append_assoc] at h
      exact absurd h.symm (hdig m _ v hvne hv)
    | cons n l₂ =>
      rw [seqText_data_cons, seqText_data_cons, List.append_assoc, List.append_assoc] at h
      obtain ⟨h1, h2⟩ := showUInt_append_inj m n _ _ (seqJoin_head l₁ u hu)
        (seqJoin_head l₂ v hv) h
      obtain ⟨h3, h4⟩ := seqJoin_inj l₁ l₂ u v hu hu' hv hv' h2
      exact ⟨by rw [h1, h3], h4⟩

/-- The line of a record determines the recorder call that pushed the record. -/
theorem grammarLine_record_injective (op₁ op₂ : RecorderOp)
    (h : (grammarLine op₁.record).data = (grammarLine op₂.record).data) : op₁ = op₂ := by
  have hsp : ∀ l : List Char, ∀ x, (' ' :: l).head? = some x → ¬ x.isDigit = true :=
    fun l => head_cons_not _ _ l (by decide)
  have hsp' : ∀ l : List Char, ∀ x, (' ' :: l).head? = some x →
      ¬ (x = '-' ∨ x.isDigit = true) := fun l => head_cons_not _ _ l (by decide)
  cases op₁ with
  | writeInvoke r t p =>
    cases op₂ with
    | writeInvoke r' t' p' =>
      simp [grammarLine, RecorderOp.record, String.data_append] at h
      obtain ⟨h1, h2⟩ := showUInt_append_inj r r' _ _ (hsp _) (hsp _) h
      simp only [List.cons.injEq, true_and] at h2
      obtain ⟨h3, h4⟩ := showInt_append_inj t t' _ _ (hsp' _) (hsp' _) h2
      simp only [List.cons.injEq, true_and] at h4
      rw [h1, h3, String.ext h4]
    | writeResponse r' t' i' q' =>
      exact absurd h (by simp [grammarLine, RecorderOp.record, String.data_append])
    | readInvoke r' t' =>
      exact absurd h (by simp [grammarLine, RecorderOp.record, String.data_append])
    | readResponse r' t' p' i' =>
      exact absurd h (by simp [grammarLine, RecorderOp.record, String.data_append])
  | writeResponse r t i q =>
    cases op₂ with
    | writeInvoke r' t' p' =>
      exact absurd h (by simp [grammarLine, RecorderOp.record, String.data_append])
    | writeResponse r' t' i' q' =>
      simp [grammarLine, RecorderOp.record, String.data_append, grammarSeqField] at h
      obtain ⟨h1, h2⟩ := showUInt_append_inj r r' _ _ (hsp _) (hsp _) h
      simp only [List.cons.injEq, true_and] at h2
      obtain ⟨h3, h4⟩ := showInt_append_inj t t' _ _ (hsp' _) (hsp' _) h2
      simp only [List.cons.injEq, true_and] at h4
      obtain ⟨h5, h6⟩ := showInt_append_inj i i' _ _ (hsp' _) (hsp' _) h4
      simp only [List.cons.injEq, true_and] at h6
      obtain ⟨h7, _⟩ := seqText_inj q q' [']'] [']'] (head_cons_not _ _ _ (by decide))
        (by decide) (head_cons_not _ _ _ (by decide)) (by decide) (by simp) (by simp) h6
      rw [h1, h3, h5, h7]
    | readInvoke r' t' =>
      exact absurd h (by simp [grammarLine, RecorderOp.record, String.data_append])
    | readResponse r' t' p' i' =>
      exact absurd h (by simp [grammarLine, RecorderOp.record, String.data_append])
  | readInvoke r t =>
    cases op₂ with
    | writeInvoke r' t' p' =>
      exact absurd h (by simp [grammarLine, RecorderOp.record, String.data_append])
    | writeResponse r' t' i' q' =>
      exact absurd h (by simp [grammarLine, RecorderOp.record, String.data_append])
    | readInvoke r' t' =>
      simp [grammarLine, RecorderOp.record, String.data_append] at h
      obtain ⟨h1, h2⟩ := showUInt_append_inj r r' _ _ (hsp _) (hsp _) h
      simp only [List.cons.injEq, true_and] at h2
      rw [h1, showInt_data_injective t t' h2]
    | readResponse r' t' p' i' =>
      exact absurd h (by simp [grammarLine, RecorderOp.record, String.data_append])
  | readResponse r t p i =>
    cases op₂ with
    | writeInvoke r' t' p' =>
      exact absurd h (by simp [grammarLine, RecorderOp.record, String.data_append])
    | writeResponse r' t' i' q' =>
      exact absurd h (by simp [grammarLine, RecorderOp.record, String.data_append])
    | readInvoke r' t' =>
      exact absurd h (by simp [grammarLine, RecorderOp.record, String.data_append])
    | readResponse r' t' p' i' =>
      simp [grammarLine, RecorderOp.record, String.data_append] at h
      obtain ⟨h1, h2⟩ := showUInt_append_inj r r' _ _ (hsp _) (hsp _) h
      simp only [List.cons.injEq, true_and] at h2
      obtain ⟨h3, h4⟩ := showInt_append_inj t t' _ _ (hsp' _) (hsp' _) h2
      simp only [List.cons.injEq, true_and] at h4
      obtain ⟨h5, h6⟩ := showInt_append_inj i i' _ _ (hsp' _) (hsp' _) h4
      simp only [List.cons.injEq, true_and] at h6
      rw [h1, h3, h5, String.ext h6]

theorem grammarText_data_cons (r : HistoryRecord) (h : List HistoryRecord) :
    (grammarText (r :: h)).data = (grammarLine r).data ++ '\n' :: (grammarText h).data := by
  unfold grammarText
  rw [List.map_cons, join_cons, String.data_append, String.data_append, List.append_assoc]
  rfl

/-- The text of a history of recorder calls whose payloads hold no newline determines the
calls. -/
theorem grammarText_record_injective (ops₁ ops₂ : List RecorderOp)
    (hv₁ : ∀ op ∈ ops₁, '\n' ∉ op.record.value.data)
    (hv₂ : ∀ op ∈ ops₂, '\n' ∉ op.record.value.data)
    (h : (grammarText (ops₁.map RecorderOp.record)).data
        = (grammarText (ops₂.map RecorderOp.record)).data) : ops₁ = ops₂ := by
  induction ops₁ generalizing ops₂ with
  | nil =>
    cases ops₂ with
    | nil => rfl
    | cons b ops₂ =>
      rw [List.map_cons, grammarText_data_cons] at h
      have : (grammarText (([] : List RecorderOp).map RecorderOp.record)).data = [] := rfl
      rw [this] at h
      exact absurd h.symm (by simp)
  | cons a ops₁ ih =>
    cases ops₂ with
    | nil =>
      rw [List.map_cons, grammarText_data_cons] at h
      have : (grammarText (([] : List RecorderOp).map RecorderOp.record)).data = [] := rfl
      rw [this] at h
      exact absurd h (by simp)
    | cons b ops₂ =>
      rw [List.map_cons, List.map_cons, grammarText_data_cons, grammarText_data_cons] at h
      obtain ⟨h1, h2⟩ := eq_of_append_sep_eq '\n' _ _ _ _
        (newline_not_mem_recordLine _ (hv₁ a (List.mem_cons_self _ _)))
        (newline_not_mem_recordLine _ (hv₂ b (List.mem_cons_self _ _))) h
      rw [grammarLine_record_injective a b h1,
        ih ops₂ (fun op hop => hv₁ op (List.mem_cons_of_mem _ hop))
          (fun op hop => hv₂ op (List.mem_cons_of_mem _ hop)) h2]

/-- C19: two histories built from the initial state by recorder calls, with no newline in any
payload, for which `DumpGlobalHistory` writes the same text, are equal record for record; the
recorder calls that built them are the same calls with the same arguments. -/
theorem dump_is_injective_on_recorded_histories (ops₁ ops₂ : List RecorderOp)
    (hv₁ : ∀ r ∈ (runOps RecorderState.init ops₁).global_history, '\n' ∉ r.value.data)
    (hv₂ : ∀ r ∈ (runOps RecorderState.init ops₂).global_history, '\n' ∉ r.value.data)
    (h : (DumpGlobalHistory true (runOps RecorderState.init ops₁)).2
        = (DumpGlobalHistory true (runOps RecorderState.init ops₂)).2) :
    (runOps RecorderState.init ops₁).global_history
        = (runOps RecorderState.init ops₂).global_history
    ∧ ops₁ = ops₂ := by
  have hh : ∀ ops : List RecorderOp,
      (runOps RecorderState.init ops).global_history = ops.map RecorderOp.record := by
    intro ops
    rw [runOps_history]
    rfl
  rw [dump_eq, dump_eq] at h
  simp only [Option.some.injEq] at h
  rw [hh, hh] at h
  have hops : ops₁ = ops₂ := by
    apply grammarText_record_injective ops₁ ops₂ _ _ (congrArg String.data h)
    · intro op hop
      exact hv₁ _ (by rw [hh]; exact List.mem_map_of_mem _ hop)
    · intro op hop
      exact hv₂ _ (by rw [hh]; exact List.mem_map_of_mem _ hop)
  exact ⟨by rw [hops], hops⟩

/-- C19 (witness): the history of a write and a read whose operations overlap. -/
theorem dump_is_injective_on_recorded_histories_witness :
    (DumpGlobalHistory true (runOps RecorderState.init
        [.writeInvoke 0 0 "00_00000", .readInvoke 1 1, .readResponse 1 1 "00_00000" 0,
          .writeResponse 0 0 0 [7, 8]])).2
      = some ("inv write id=0 client=0 val=00_00000\n" ++ "inv read id=1 client=1\n"
          ++ "res read id=1 client=1 idx=0 val=00_00000\n"
          ++ "res write id=0 client=0 idx=0 seq=[7,8]\n")
    ∧ (runOps RecorderState.init
        [.writeInvoke 0 0 "00_00000", .readInvoke 1 1, .readResponse 1 1 "00_00000" 0,
          .writeResponse 0 0 0 [7, 8]]).global_history
      = (runOps RecorderState.init
        [.writeInvoke 0 0 "00_00000", .readInvoke 1 1, .readResponse 1 1 "00_00000" 0,
          .writeResponse 0 0 0 [7, 8]]).global_history :=
  ⟨by decide,
    (dump_is_injective_on_recorded_histories
      [.writeInvoke 0 0 "00_00000", .readInvoke 1 1, .readResponse 1 1 "00_00000" 0,
        .writeResponse 0 0 0 [7, 8]]
      [.writeInvoke 0 0 "00_00000", .readInvoke 1 1, .readResponse 1 1 "00_00000" 0,
        .writeResponse 0 0 0 [7, 8]] (by decide) (by decide) rfl).1⟩


end LazyLog
